import Mathlib

/-!
# LosVerbos: the training engine (`src/js/training.js`) and the answer check (`src/js/app.js`)

A shallow embedding of the spaced-repetition engine.

Modelling conventions
* A JavaScript string is a list of characters (`Str`).  The regular expressions of the source
  only use classes of the Basic Multilingual Plane and runs of "anything outside a class", so
  working on code points instead of UTF-16 code units gives the same results.
* `String.prototype.normalize("NFD")` and `String.prototype.toLowerCase` are built-ins of the
  host, not code of the repository; they are the two fields of `Platform`.
* `Date.now()` and `Math.random()` are read from a `World`: the value of the k-th call of each
  is an arbitrary function of k, and every call advances the corresponding counter.
* `this.cards` (a `Map`) and `this.stats` (a plain object used as a dictionary) are association
  lists in insertion order.  Card ids built by `buildCardId` contain `::`, so they never name a
  property inherited from `Object.prototype`; lookup in `stats` is own-property lookup.
* Numbers that the engine stores (stage, counters, timestamps) are natural numbers.
* The item kept under the storage key is absent or holds statistics in the documented layout
  (card id to stage, due, correct, incorrect, streak, lastReview); writes to the storage are
  taken to succeed, a failed write only leaves the item as it was.
* The verb data is typed as the interface describes it: a field that is missing or null is
  `none`, and a field that should be an array and is not is the empty list.
-/

namespace LosVerbos

/-- JavaScript string, as the list of its characters. -/
abbrev Str := List Char

/-- Built-ins of the host that the source calls on strings. -/
structure Platform where
  /-- The built-in `String.prototype.normalize("NFD")`. -/
  normalizeNFD : Str → Str
  /-- The built-in `String.prototype.toLowerCase`. -/
  toLowerCase : Str → Str

/-- Source of the readings of `Date.now()` and of the draws of `Math.random()`. -/
structure World where
  /-- Value returned by the k-th call of `Date.now()`. -/
  clock : Nat → Nat
  /-- Value standing for the k-th call of `Math.random()`. -/
  rand : Nat → Nat
  /-- Number of `Date.now()` calls made so far. -/
  reads : Nat
  /-- Number of `Math.random()` calls made so far. -/
  draws : Nat

/-- One call of `Date.now()`. -/
def dateNow (w : World) : Nat × World :=
  (w.clock w.reads, { w with reads := w.reads + 1 })

/-- One evaluation of `Math.floor(Math.random() * n)` for `n > 0`: an index below `n`. -/
def randomBelow (w : World) (n : Nat) : Nat × World :=
  (w.rand w.draws % n, { w with draws := w.draws + 1 })

/-! ## Constants (training.js, lines 1-4) -/

def RETRY_INTERVAL : Nat := 30 * 1000

def INTERVALS : List Nat :=
  [0, 60 * 1000, 5 * 60 * 1000, 25 * 60 * 1000, 4 * 60 * 60 * 1000, 24 * 60 * 60 * 1000]

def BATCH_SIZE : Nat := 2

/-! ## String helpers -/

/-- White space and line terminators of ECMAScript, the characters `trim` removes. -/
def isJsWhiteSpace (c : Char) : Bool :=
  let n := c.toNat
  n == 0x09 || n == 0x0A || n == 0x0B || n == 0x0C || n == 0x0D || n == 0x20 || n == 0xA0 ||
  n == 0x1680 || (0x2000 ≤ n && n ≤ 0x200A) || n == 0x2028 || n == 0x2029 || n == 0x202F ||
  n == 0x205F || n == 0x3000 || n == 0xFEFF

/-- The built-in `String.prototype.trim`. -/
def trim (s : Str) : Str :=
  ((s.dropWhile isJsWhiteSpace).reverse.dropWhile isJsWhiteSpace).reverse

/-- Characters of the class of combining marks, U+0300 to U+036F. -/
def isCombiningMark (c : Char) : Bool :=
  0x0300 ≤ c.toNat && c.toNat ≤ 0x036F

/-- Characters of the class `[a-z0-9]`. -/
def isSlugChar (c : Char) : Bool :=
  (0x61 ≤ c.toNat && c.toNat ≤ 0x7A) || (0x30 ≤ c.toNat && c.toNat ≤ 0x39)

/-- Worker of `replaceNonSlugRuns`; `inRun` tells that the preceding character was outside
`[a-z0-9]`, so that the hyphen of the current run is already written. -/
def replaceNonSlugRunsAux : Bool → Str → Str
  | _, [] => []
  | inRun, c :: rest =>
    if isSlugChar c then c :: replaceNonSlugRunsAux false rest
    else if inRun then replaceNonSlugRunsAux true rest
    else '-' :: replaceNonSlugRunsAux true rest

/-- The replacement `.replace(/[^a-z0-9]+/g, "-")`: every maximal run of characters outside
`[a-z0-9]` becomes one hyphen. -/
def replaceNonSlugRuns (s : Str) : Str :=
  replaceNonSlugRunsAux false s

/-- The replacement `.replace(/^-+|-+$/g, "")`: leading and trailing hyphens are removed. -/
def stripHyphens (s : Str) : Str :=
  ((s.dropWhile (· == '-')).reverse.dropWhile (· == '-')).reverse

/-- Function `slugify` (training.js, lines 412-423). -/
def slugify (P : Platform) (value : Str) : Str :=
  if value.isEmpty then []
  else
    stripHyphens (replaceNonSlugRuns (P.toLowerCase ((P.normalizeNFD value).filter
      (fun c => !isCombiningMark c))))

/-- Function `sanitizeId` (training.js, lines 408-410); `none` is a missing value. -/
def sanitizeId (P : Platform) (value : Option Str) : Str :=
  slugify P (value.getD "id".toList)

/-- Function `stripBrackets` (training.js, lines 404-406) on a string. -/
def stripBrackets (text : Str) : Str :=
  text.filter (fun c => !(c == '[' || c == ']'))

/-- Function `buildCardId` (training.js, lines 382-385); `pronoun = none` is a missing or
null pronoun, the only values the operator `??` replaces. -/
def buildCardId (P : Platform) (verbId tenseId : Str) (pronoun : Option Str) (index : Nat) : Str :=
  let normalizedPronoun := slugify P (pronoun.getD ("idx-".toList ++ (toString index).toList))
  verbId ++ "::".toList ++ tenseId ++ "::".toList ++ normalizedPronoun

/-! ## parseForm (training.js, lines 387-402) -/

/-- Characters that the regular-expression dot does not match. -/
def isLineTerminator (c : Char) : Bool :=
  c.toNat == 0x0A || c.toNat == 0x0D || c.toNat == 0x2028 || c.toNat == 0x2029

/-- Whether `.*` can match the whole of `s`. -/
def dotStar (s : Str) : Bool :=
  s.all (fun c => !isLineTerminator c)

/-- Second half of the match of `/^(.*)\[(.*)\](.*)$/`: after the opening bracket, the greedy
second group is tried from the longest candidate to the shortest. -/
def matchAfterOpen (rest : Str) : Option (Str × Str) :=
  (List.range (rest.length + 1)).reverse.findSome? (fun m =>
    if dotStar (rest.take m) && (rest.drop m).head? == some ']' && dotStar (rest.drop (m + 1))
    then some (rest.take m, rest.drop (m + 1)) else none)

/-- The match `formText.match(/^(.*)\[(.*)\](.*)$/)`: the greedy first group is tried from the
longest candidate to the shortest; the result holds the three groups. -/
def matchForm (s : Str) : Option (Str × Str × Str) :=
  (List.range (s.length + 1)).reverse.findSome? (fun n =>
    if dotStar (s.take n) && (s.drop n).head? == some '[' then
      (matchAfterOpen (s.drop (n + 1))).map (fun r => (s.take n, r.1, r.2))
    else none)

/-- Result of `parseForm`. -/
structure ParsedForm where
  stem : Str
  ending : Str
  tail : Str
  deriving DecidableEq, Repr

/-- Function `parseForm` (training.js, lines 387-402); `none` is a form that is not a string
(missing or null), for which the stem is `formText ?? ""`. -/
def parseForm (formText : Option Str) : ParsedForm :=
  match formText with
  | none => { stem := [], ending := [], tail := [] }
  | some s =>
    match matchForm s with
    | none => { stem := s, ending := [], tail := [] }
    | some (a, b, c) => { stem := a, ending := b, tail := c }

/-! ## Data model -/

/-- One entry of `tense.forms` in the verb data; `none` is a field that is missing or null. -/
structure FormEntry where
  pronoun : Option Str
  form : Option Str
  ru : Option Str
  eng : Option Str
  deriving DecidableEq, Repr

/-- One entry of `verbData.tenses`; `forms` is `[]` when the field is not an array. -/
structure Tense where
  id : Option Str
  mood : Option Str
  tense : Option Str
  label : Option Str
  description : Option Str
  forms : List FormEntry
  deriving DecidableEq, Repr

/-- The verb data given to `registerVerbData`; `family` is `metadata.family` and `tenses` is
`[]` when the field is not an array. -/
structure VerbData where
  infinitive : Option Str
  emoji : Option Str
  family : Option Str
  tenses : List Tense
  deriving DecidableEq, Repr

/-- Value stored in `this.cards` (training.js, lines 39-56). -/
structure Card where
  cardId : Str
  verbId : Str
  infinitive : Str
  rawInfinitive : Str
  tenseId : Str
  tenseLabel : Str
  verbFamily : Str
  emoji : Str
  pronoun : Str
  stem : Str
  tail : Str
  ending : Str
  fullForm : Str
  description : Str
  contextRu : Str
  contextEng : Str
  deriving DecidableEq, Repr

/-- Value stored in `this.stats` (training.js, lines 329-336). -/
structure Stat where
  stage : Nat
  due : Nat
  correct : Nat
  incorrect : Nat
  streak : Nat
  lastReview : Option Nat
  deriving DecidableEq, Repr

/-- Field `this.session`. -/
structure Session where
  queue : List Card
  lastVerbId : Option Str
  currentCardId : Option Str
  deriving DecidableEq, Repr

/-- State of a `TrainingEngine`, together with the item stored under its storage key:
`storage = none` is an absent item, `some m` the serialised statistics `m`. -/
structure Engine where
  cards : List (Str × Card)
  stats : List (Str × Stat)
  excludedTenses : List Str
  session : Session
  storage : Option (List (Str × Stat))
  deriving DecidableEq, Repr

/-! ## Dictionaries -/

/-- Lookup of a key, `Map.prototype.get` and `obj[key]`. -/
def lookup {β : Type} (m : List (Str × β)) (k : Str) : Option β :=
  (m.find? (fun e => e.1 == k)).map (fun e => e.2)

/-- Whether a key is present, `Map.prototype.has`. -/
def hasKey {β : Type} (m : List (Str × β)) (k : Str) : Bool :=
  m.any (fun e => e.1 == k)

/-- Assignment `map.set(k, v)` and `obj[k] = v`: the value of an existing key is replaced in
place, a new key is appended. -/
def setKey {β : Type} (m : List (Str × β)) (k : Str) (v : β) : List (Str × β) :=
  if hasKey m k then m.map (fun e => if e.1 == k then (e.1, v) else e) else m ++ [(k, v)]

/-- Addition `set.add(x)`. -/
def setAdd (l : List Str) (x : Str) : List Str :=
  if l.contains x then l else l ++ [x]

/-! ## The engine (training.js, lines 6-380) -/

/-- Method `_loadStats` (lines 359-371) on an item that is absent or holds serialised
statistics. -/
def _loadStats (stored : Option (List (Str × Stat))) : List (Str × Stat) :=
  stored.getD []

/-- The constructor (lines 7-17), given the item found in the storage. -/
def Engine.new (stored : Option (List (Str × Stat))) : Engine :=
  { cards := []
    stats := _loadStats stored
    excludedTenses := []
    session := { queue := [], lastVerbId := none, currentCardId := none }
    storage := stored }

/-- Method `_persistStats` (lines 373-379). -/
def _persistStats (s : Engine) : Engine :=
  { s with storage := some s.stats }

/-- Method `resetSessionQueue` (lines 171-175). -/
def resetSessionQueue (s : Engine) : Engine :=
  { s with session := { queue := [], lastVerbId := none, currentCardId := none } }

/-- Method `_isExcluded` (lines 351-357). -/
def _isExcluded (excludedTenses : List Str) (tenseId : Str) : Bool :=
  if tenseId.isEmpty then false else excludedTenses.contains tenseId

/-- The stat that `_ensureStat` creates (lines 329-336). -/
def freshStat (now : Nat) : Stat :=
  { stage := 0, due := now, correct := 0, incorrect := 0, streak := 0, lastReview := none }

/-- Method `_ensureStat` (lines 327-340) on the statistics: the stat of the card, the
statistics after the call and the world after the call. -/
def _ensureStat (stats : List (Str × Stat)) (w : World) (cardId : Str) :
    Stat × List (Str × Stat) × World :=
  match lookup stats cardId with
  | some st => (st, stats, w)
  | none => (freshStat (dateNow w).1, setKey stats cardId (freshStat (dateNow w).1), (dateNow w).2)

/-- Method `_cleanupStaleStats` (lines 342-349). -/
def _cleanupStaleStats (s : Engine) : Engine :=
  { s with stats := s.stats.filter (fun e => hasKey s.cards e.1) }

/-- The card built for one form (lines 32-56). -/
def formCard (P : Platform) (verbId : Str) (verbData : VerbData) (tenseIndex : Nat)
    (tense : Tense) (formIndex : Nat) (formEntry : FormEntry) : Card :=
  let infinitiveRaw := verbData.infinitive.getD []
  let tenseId := sanitizeId P (some (tense.id.getD
    (tense.mood.getD [] ++ "-".toList ++ tense.tense.getD (toString tenseIndex).toList)))
  let tenseLabel := tense.label.getD
    (trim (tense.mood.getD [] ++ " ".toList ++ tense.tense.getD []))
  let parsed := parseForm formEntry.form
  { cardId := buildCardId P verbId tenseId formEntry.pronoun formIndex
    verbId := verbId
    infinitive := stripBrackets infinitiveRaw
    rawInfinitive := infinitiveRaw
    tenseId := tenseId
    tenseLabel := tenseLabel
    verbFamily := verbData.family.getD []
    emoji := verbData.emoji.getD []
    pronoun := formEntry.pronoun.getD []
    stem := parsed.stem
    tail := parsed.tail
    ending := parsed.ending
    fullForm := formEntry.form.getD []
    description := tense.description.getD []
    contextRu := (formEntry.ru.map trim).getD []
    contextEng := (formEntry.eng.map trim).getD [] }

/-- Body of the inner `forEach` (lines 35-59), for the card of the form: the card is stored
and its stat is ensured. -/
def registerCard (acc : List (Str × Card) × List (Str × Stat) × World) (card : Card) :
    List (Str × Card) × List (Str × Stat) × World :=
  let r := _ensureStat acc.2.1 acc.2.2 card.cardId
  (setKey acc.1 card.cardId card, r.2.1, r.2.2)

/-- Method `registerVerbData` (lines 19-65); `verbData = none` is a missing or null value. -/
def registerVerbData (P : Platform) (s : Engine) (w : World) (verbId : Str)
    (verbData : Option VerbData) : Engine × World :=
  match verbData with
  | none => (s, w)
  | some data =>
    if verbId.isEmpty then (s, w)
    else
      let acc := data.tenses.enum.foldl (fun acc te =>
        te.2.forms.enum.foldl (fun acc fe =>
          registerCard acc (formCard P verbId data te.1 te.2 fe.1 fe.2)) acc)
        (s.cards, s.stats, w)
      (resetSessionQueue (_persistStats (_cleanupStaleStats
        { s with cards := acc.1, stats := acc.2.1 })), acc.2.2)

/-- Method `setExcludedTenses` (lines 67-82).  `excluded = none` is an argument that is neither
an array nor a `Set`; a member `none` is a member that is not a string. -/
def setExcludedTenses (P : Platform) (s : Engine) (excluded : Option (List (Option Str))) :
    Engine :=
  let added := (excluded.getD []).foldl (fun acc value =>
    match value with
    | none => acc
    | some v =>
      if (trim v).isEmpty then acc
      else
        let normalized := slugify P (trim v)
        if normalized.isEmpty then acc else setAdd acc normalized) []
  resetSessionQueue { s with excludedTenses := added }

/-- Method `hasCards` (lines 84-92). -/
def hasCards (s : Engine) : Bool :=
  s.cards.any (fun e => !_isExcluded s.excludedTenses e.2.tenseId)

/-- Method `hasRegisteredCards` (lines 94-96). -/
def hasRegisteredCards (s : Engine) : Bool :=
  !s.cards.isEmpty

/-- The update of the stat in `recordAnswer` (lines 154-166).  The stage written by the correct
branch is at most `INTERVALS.length - 1`, so the read `INTERVALS[stat.stage]` is always inside
the array. -/
def answeredStat (stat : Stat) (now : Nat) (isCorrect : Bool) : Stat :=
  if isCorrect then
    let stage := min (stat.stage + 1) (INTERVALS.length - 1)
    { stat with
      correct := stat.correct + 1
      streak := stat.streak + 1
      stage := stage
      due := now + INTERVALS.getD stage 0
      lastReview := some now }
  else
    { stat with
      incorrect := stat.incorrect + 1
      streak := 0
      stage := 0
      due := now + RETRY_INTERVAL
      lastReview := some now }

/-- Method `recordAnswer` (lines 150-169). -/
def recordAnswer (s : Engine) (w : World) (cardId : Str) (isCorrect : Bool) : Engine × World :=
  let r := _ensureStat s.stats w cardId
  let stat := r.1
  let now := (dateNow r.2.2).1
  (_persistStats { s with stats := setKey r.2.1 cardId (answeredStat stat now isCorrect) },
    (dateNow r.2.2).2)

/-- Result of `getSummary`; the quotient `correct / attempts` is taken exactly. -/
structure Summary where
  totalCount : Nat
  dueCount : Nat
  accuracy : Option ℚ

/-- Local variables of `getSummary` that its loop updates, with the statistics and the world. -/
structure SummaryAcc where
  stats : List (Str × Stat)
  world : World
  total : Nat
  dueCount : Nat
  correct : Nat
  incorrect : Nat

/-- Body of the `forEach` of `getSummary` (lines 184-197). -/
def summaryStep (excludedTenses : List Str) (now : Nat) (acc : SummaryAcc) (e : Str × Card) :
    SummaryAcc :=
  if _isExcluded excludedTenses e.2.tenseId then acc
  else
    let r := _ensureStat acc.stats acc.world e.1
    { stats := r.2.1
      world := r.2.2
      total := acc.total + 1
      dueCount := if r.1.due ≤ now then acc.dueCount + 1 else acc.dueCount
      correct := acc.correct + r.1.correct
      incorrect := acc.incorrect + r.1.incorrect }

/-- Method `getSummary` (lines 177-207). -/
def getSummary (s : Engine) (w : World) : Summary × Engine × World :=
  let now := (dateNow w).1
  let acc := s.cards.foldl (summaryStep s.excludedTenses now)
    { stats := s.stats, world := (dateNow w).2, total := 0, dueCount := 0, correct := 0,
      incorrect := 0 }
  let attempts := acc.correct + acc.incorrect
  ({ totalCount := acc.total
     dueCount := acc.dueCount
     accuracy := if attempts = 0 then none else some ((acc.correct : ℚ) / (attempts : ℚ)) },
   { s with stats := acc.stats }, acc.world)

/-- Method `resetStats` (lines 209-218). -/
def resetStats (s : Engine) : Engine :=
  resetSessionQueue { s with stats := [], storage := none }

/-- Exchange of the entries at two positions of an array. -/
def swapAt {α : Type} (l : List α) (i j : Nat) : List α :=
  match l[i]?, l[j]? with
  | some a, some b => (l.set i b).set j a
  | _, _ => l

/-- The loop of `shuffle` from index `i` down to 1. -/
def shuffleLoop {α : Type} : Nat → List α → World → List α × World
  | 0, array, w => (array, w)
  | i + 1, array, w =>
    shuffleLoop i (swapAt array (i + 1) (randomBelow w (i + 2)).1) (randomBelow w (i + 2)).2

/-- Function `shuffle` (lines 425-432). -/
def shuffle {α : Type} (list : List α) (w : World) : List α × World :=
  shuffleLoop (list.length - 1) list w

/-- Entry of `candidates` in `_refillQueue` (lines 229-234). -/
structure Candidate where
  cardId : Str
  verbId : Str
  card : Card
  stat : Stat
  deriving DecidableEq, Repr

/-- Body of the `forEach` of `_refillQueue` (lines 224-235). -/
def candidateStep (excludedTenses : List Str)
    (acc : List Candidate × List (Str × Stat) × World) (e : Str × Card) :
    List Candidate × List (Str × Stat) × World :=
  if _isExcluded excludedTenses e.2.tenseId then acc
  else
    let r := _ensureStat acc.2.1 acc.2.2 e.1
    (acc.1 ++ [{ cardId := e.1, verbId := e.2.verbId, card := e.2, stat := r.1 }], r.2.1, r.2.2)

/-- Truthiness of `lastVerb` together with the comparison `entry.verbId === lastVerb`. -/
def isLastVerb (lastVerb : Option Str) (verbId : Str) : Bool :=
  match lastVerb with
  | none => false
  | some v => !v.isEmpty && verbId == v

/-- The `for ... of` loop of `_refillQueue` (lines 256-271) over the entries of the pool that
are still to be visited. -/
def fillQueue (lastVerb : Option Str) (poolLength : Nat) :
    List Candidate → List Card → List Str → List Card
  | [], queue, _ => queue
  | entry :: rest, queue, usedVerbs =>
    if queue.length ≥ BATCH_SIZE then queue
    else if queue.isEmpty && isLastVerb lastVerb entry.verbId && decide (poolLength > 1) then
      fillQueue lastVerb poolLength rest queue usedVerbs
    else if usedVerbs.contains entry.verbId && decide (poolLength > BATCH_SIZE) then
      fillQueue lastVerb poolLength rest queue usedVerbs
    else
      fillQueue lastVerb poolLength rest (queue ++ [entry.card]) (setAdd usedVerbs entry.verbId)

/-- The pool of `_refillQueue` before the shuffle (lines 242-248): the due candidates, or,
when none is due, the six candidates with the smallest due time (the sort is stable). -/
def choosePool (now : Nat) (candidates : List Candidate) : List Candidate :=
  let dueCards := candidates.filter (fun entry => decide (entry.stat.due ≤ now))
  if !dueCards.isEmpty then dueCards
  else (candidates.insertionSort (fun a b => a.stat.due ≤ b.stat.due)).take
    (min 6 candidates.length)

/-- The queue that `_refillQueue` builds from the shuffled pool (lines 252-275): the loop,
then the forced first entry when the loop left the queue empty. -/
def buildQueue (lastVerb : Option Str) (pool : List Candidate) : List Card :=
  match fillQueue lastVerb pool.length pool [] [], pool with
  | [], first :: _ => [first.card]
  | queue, _ => queue

/-- Method `_refillQueue` (lines 220-278). -/
def _refillQueue (s : Engine) (w : World) : Engine × World :=
  let now := (dateNow w).1
  let acc := s.cards.foldl (candidateStep s.excludedTenses) ([], s.stats, (dateNow w).2)
  let candidates := acc.1
  let s1 := { s with stats := acc.2.1 }
  if candidates.isEmpty then
    ({ s1 with session := { s1.session with queue := [] } }, acc.2.2)
  else
    let sh := shuffle (choosePool now candidates) acc.2.2
    ({ s1 with session := { s1.session with queue := buildQueue s.session.lastVerbId sh.1 } },
      sh.2)

/-- Body of the `forEach` of `_getSuggestionsFor` (lines 292-314). -/
def suggestionStep (excludedTenses : List Str) (card : Card) (endings : List Str)
    (e : Str × Card) : List Str :=
  let entry := e.2
  if _isExcluded excludedTenses entry.tenseId then endings
  else if entry.ending.isEmpty then endings
  else if !(entry.tenseId == card.tenseId) then endings
  else if !(if !card.verbFamily.isEmpty then entry.verbFamily == card.verbFamily
            else entry.verbId == card.verbId) then endings
  else if endings.contains entry.ending then endings
  else endings ++ [entry.ending]

/-- Method `_getSuggestionsFor` (lines 280-325). -/
def _getSuggestionsFor (s : Engine) (w : World) (card : Card) : List Str × World :=
  let endings := s.cards.foldl (suggestionStep s.excludedTenses card) []
  let endings :=
    if !card.ending.isEmpty then endings.erase card.ending ++ [card.ending] else endings
  shuffle endings w

/-- Field `stats` of the object returned by `getNextCard` (lines 140-146). -/
structure StatSnapshot where
  stage : Nat
  correct : Nat
  incorrect : Nat
  streak : Nat
  due : Nat
  deriving DecidableEq, Repr

/-- Object returned by `getNextCard` (lines 123-147). -/
structure NextCard where
  cardId : Str
  verbId : Str
  infinitive : Str
  rawInfinitive : Str
  tenseLabel : Str
  verbFamily : Str
  emoji : Str
  pronoun : Str
  stem : Str
  tail : Str
  ending : Str
  fullForm : Str
  description : Str
  contextRu : Str
  contextEng : Str
  suggestions : List Str
  stats : StatSnapshot
  deriving DecidableEq, Repr

/-- Method `getNextCard` (lines 98-148); `none` is the result `null`. -/
def getNextCard (s : Engine) (w : World) : Option NextCard × Engine × World :=
  if s.cards.isEmpty then (none, s, w)
  else
    let r := if s.session.queue.isEmpty then _refillQueue s w else (s, w)
    let s1 := r.1
    match s1.session.queue.dropWhile (fun c => _isExcluded s1.excludedTenses c.tenseId) with
    | [] => (none, { s1 with session := { s1.session with queue := [] } }, r.2)
    | next :: rest =>
      let e := _ensureStat s1.stats r.2 next.cardId
      let stat := e.1
      let s2 : Engine :=
        { s1 with
          stats := e.2.1
          session :=
            { queue := rest, currentCardId := some next.cardId, lastVerbId := some next.verbId } }
      let sg := _getSuggestionsFor s2 e.2.2 next
      (some
        { cardId := next.cardId
          verbId := next.verbId
          infinitive := next.infinitive
          rawInfinitive := next.rawInfinitive
          tenseLabel := next.tenseLabel
          verbFamily := next.verbFamily
          emoji := next.emoji
          pronoun := next.pronoun
          stem := next.stem
          tail := next.tail
          ending := next.ending
          fullForm := next.fullForm
          description := next.description
          contextRu := next.contextRu
          contextEng := next.contextEng
          suggestions := sg.1
          stats :=
            { stage := stat.stage, correct := stat.correct, incorrect := stat.incorrect,
              streak := stat.streak, due := stat.due } },
       s2, sg.2)

/-! ## The answer check (app.js) -/

/-- Function `normalizeAnswer` (app.js, lines 496-507) on a string. -/
def normalizeAnswer (P : Platform) (value : Str) : Str :=
  P.toLowerCase (trim (((P.normalizeNFD value).filter (fun c => !isCombiningMark c)).filter
    (fun c => !(c == Char.ofNat 0x2019 || c == Char.ofNat 0x27))))

/-- Function `composeFullForm` (app.js, lines 467-469). -/
def composeFullForm (card : NextCard) : Str :=
  card.stem ++ card.ending ++ card.tail

/-- The verdict computed by `onTrainingPrimary` (app.js, lines 274-279) for the trimmed
input. -/
def isCorrectAnswer (P : Platform) (card : NextCard) (rawInput : Str) : Bool :=
  let normalizedInput := normalizeAnswer P rawInput
  let expectedEnding := normalizeAnswer P card.ending
  let normalizedFull := normalizeAnswer P (composeFullForm card)
  normalizedInput == expectedEnding || normalizedInput == normalizedFull

/-- The branch of `onTrainingPrimary` (app.js, lines 267-281) that checks an answer: a
session is active, `card` is the current card and it is not answered yet; `inputValue` is the
content of the input field.  The result is the verdict, `none` when the handler returns
without judging, and the engine after the call of `recordAnswer`. -/
def onTrainingPrimary (P : Platform) (s : Engine) (w : World) (card : NextCard)
    (inputValue : Str) : Option Bool × Engine × World :=
  let rawInput := trim inputValue
  if rawInput.length = 0 then (none, s, w)
  else
    let isCorrect := isCorrectAnswer P card rawInput
    let r := recordAnswer s w card.cardId isCorrect
    (some isCorrect, r.1, r.2)

/-! ## The stored item as the constructor finds it (training.js, lines 359-371) -/

/-- Values that `JSON.parse` returns; integer literals stand for the numbers. -/
inductive Json where
  | null : Json
  | bool (b : Bool) : Json
  | num (n : Int) : Json
  | str (s : Str) : Json
  | arr (items : List Json) : Json
  | obj (fields : List (Str × Json)) : Json

/-- What `_loadStats` meets when it reads the storage: `getItem` throws, or returns no text
(null or the empty string), or returns a text that `JSON.parse` rejects, or returns a text
that parses to a value. -/
inductive StoredItem where
  | unavailable : StoredItem
  | absent : StoredItem
  | unparsable : StoredItem
  | parsed (value : Json) : StoredItem

/-- Truthiness of a parsed value, the left operand of `parsed && ...`. -/
def isTruthy : Json → Bool
  | Json.null => false
  | Json.bool b => b
  | Json.num n => n != 0
  | Json.str s => !s.isEmpty
  | Json.arr _ => true
  | Json.obj _ => true

/-- The test `typeof parsed === "object"`. -/
def typeofIsObject : Json → Bool
  | Json.null => true
  | Json.arr _ => true
  | Json.obj _ => true
  | _ => false

/-- Method `_loadStats` (lines 359-371) on the stored item: the value that the constructor
assigns to `this.stats`; `Json.obj []` is the empty object. -/
def _loadStatsValue : StoredItem → Json
  | StoredItem.unavailable => Json.obj []
  | StoredItem.absent => Json.obj []
  | StoredItem.unparsable => Json.obj []
  | StoredItem.parsed value => if isTruthy value && typeofIsObject value then value else Json.obj []

/-- The serialised form of a stat. -/
def encodeStat (st : Stat) : Json :=
  Json.obj
    [("stage".toList, Json.num st.stage), ("due".toList, Json.num st.due),
     ("correct".toList, Json.num st.correct), ("incorrect".toList, Json.num st.incorrect),
     ("streak".toList, Json.num st.streak),
     ("lastReview".toList, match st.lastReview with
       | none => Json.null
       | some t => Json.num t)]

/-- The serialised form of the statistics, the value written by `_persistStats`. -/
def encodeStats (stats : List (Str × Stat)) : Json :=
  Json.obj (stats.map (fun e => (e.1, encodeStat e.2)))

/-! ## Definitions used in the statements -/

/-- The stat a card has after `_ensureStat`: the one it had, or a fresh one. -/
def statOrFresh (stats : List (Str × Stat)) (w : World) (cardId : Str) : Stat :=
  (lookup stats cardId).getD (freshStat (w.clock w.reads))


/-- A form `habl[o]` whose pronoun is the empty string. -/
def blankForm1 : FormEntry :=
  { pronoun := some [], form := some "habl[o]".toList, ru := none, eng := none }

/-- A form `habl[as]` whose pronoun is the empty string. -/
def blankForm2 : FormEntry :=
  { pronoun := some [], form := some "habl[as]".toList, ru := none, eng := none }

/-- A tense with the two forms whose pronoun is the empty string. -/
def blankPronounTense : Tense :=
  { id := some "pres".toList, mood := none, tense := none, label := none, description := none,
    forms := [blankForm1, blankForm2] }

/-- Verb data with one tense whose two forms both have the empty pronoun. -/
def blankPronounData : VerbData :=
  { infinitive := some "hablar".toList, emoji := none, family := none,
    tenses := [blankPronounTense] }


/-- States of an engine that was constructed from the stored item `stored` and then driven by
any sequence of calls of its methods that change state. -/
inductive Reachable (P : Platform) (stored : Option (List (Str × Stat))) : Engine → Prop
  | new : Reachable P stored (Engine.new stored)
  | registerVerbData {s : Engine} (h : Reachable P stored s) (w : World) (verbId : Str)
      (verbData : Option VerbData) :
      Reachable P stored (registerVerbData P s w verbId verbData).1
  | setExcludedTenses {s : Engine} (h : Reachable P stored s)
      (excluded : Option (List (Option Str))) :
      Reachable P stored (setExcludedTenses P s excluded)
  | getNextCard {s : Engine} (h : Reachable P stored s) (w : World) :
      Reachable P stored (getNextCard s w).2.1
  | recordAnswer {s : Engine} (h : Reachable P stored s) (w : World) (cardId : Str)
      (isCorrect : Bool) :
      Reachable P stored (recordAnswer s w cardId isCorrect).1
  | getSummary {s : Engine} (h : Reachable P stored s) (w : World) :
      Reachable P stored (getSummary s w).2.1
  | resetSessionQueue {s : Engine} (h : Reachable P stored s) :
      Reachable P stored (resetSessionQueue s)
  | resetStats {s : Engine} (h : Reachable P stored s) :
      Reachable P stored (resetStats s)

/-- Every stat of the dictionary satisfies `p`. -/
def AllStats (p : Stat → Prop) (stats : List (Str × Stat)) : Prop :=
  ∀ e ∈ stats, p e.2

/-- A platform whose two built-ins act on ASCII strings as the real ones do: canonical
decomposition leaves such a string as it is, and lower-casing maps `A`-`Z` to `a`-`z`. -/
def asciiPlatform : Platform :=
  { normalizeNFD := fun s => s, toLowerCase := fun s => s.map Char.toLower }

/-- A world whose clock starts at 1000 and advances by one millisecond at every reading. -/
def fixedWorld : World :=
  { clock := fun k => 1000 + k, rand := fun k => k, reads := 0, draws := 0 }

/-- The registered cards whose tense is not excluded, in the order of the registry. -/
def eligibleCards (s : Engine) : List (Str × Card) :=
  s.cards.filter (fun e => !_isExcluded s.excludedTenses e.2.tenseId)

/-- The stat stored for a card id; the fresh stat stands for an absent entry. -/
def statOf (stats : List (Str × Stat)) (cardId : Str) : Stat :=
  (lookup stats cardId).getD (freshStat 0)

/-- Verb data of `hablar` with one tense and one form. -/
def hablarData : VerbData :=
  { infinitive := some "hablar".toList, emoji := none, family := none,
    tenses :=
      [{ id := some "pres".toList, mood := none, tense := none, label := none,
         description := none,
         forms := [{ pronoun := some "yo".toList, form := some "habl[o]".toList, ru := none,
                     eng := none }] }] }

/-- Verb data of `comer` with one tense and one form. -/
def comerData : VerbData :=
  { infinitive := some "comer".toList, emoji := none, family := none,
    tenses :=
      [{ id := some "pres".toList, mood := none, tense := none, label := none,
         description := none,
         forms := [{ pronoun := some "yo".toList, form := some "com[o]".toList, ru := none,
                     eng := none }] }] }

/-- Persisted stat of the card `hablar::pres::yo`. -/
def hablarStat : Stat :=
  { stage := 2, due := 500000, correct := 2, incorrect := 0, streak := 2,
    lastReview := some 200000 }

/-- Persisted stat of the card `comer::pres::yo`. -/
def comerStat : Stat :=
  { stage := 3, due := 900000, correct := 4, incorrect := 1, streak := 3,
    lastReview := some 300000 }

/-- Persisted statistics with an entry for the card of each of the two verbs. -/
def twoVerbStorage : List (Str × Stat) :=
  [("hablar::pres::yo".toList, hablarStat), ("comer::pres::yo".toList, comerStat)]

/-- The engine after a restart over `twoVerbStorage` and the registration of `hablar`. -/
def restartedHablar : Engine :=
  (registerVerbData asciiPlatform (Engine.new (some twoVerbStorage)) fixedWorld
    "hablar".toList (some hablarData)).1

/-- The engine after a restart over `twoVerbStorage` and the registration of `hablar` and then
of `comer`. -/
def restartedBoth : Engine :=
  (registerVerbData asciiPlatform restartedHablar fixedWorld "comer".toList (some comerData)).1

/-- A card as `getNextCard` returns it for the form `hablo`, registered without brackets: the
whole form is the stem and the ending is empty. -/
def plainCard : NextCard :=
  { cardId := "hablar::pres::yo".toList, verbId := "hablar".toList,
    infinitive := "hablar".toList, rawInfinitive := "hablar".toList,
    tenseLabel := "pres".toList, verbFamily := [], emoji := [], pronoun := "yo".toList,
    stem := "hablo".toList, tail := [], ending := [], fullForm := "hablo".toList,
    description := [], contextRu := [], contextEng := [], suggestions := [],
    stats := { stage := 0, correct := 0, incorrect := 0, streak := 0, due := 1000 } }

/-- A card as `getNextCard` returns it for the form `habl[o]`. -/
def bracketCard : NextCard :=
  { cardId := "hablar::pres::yo".toList, verbId := "hablar".toList,
    infinitive := "hablar".toList, rawInfinitive := "hablar".toList,
    tenseLabel := "pres".toList, verbFamily := [], emoji := [], pronoun := "yo".toList,
    stem := "habl".toList, tail := [], ending := "o".toList, fullForm := "habl[o]".toList,
    description := [], contextRu := [], contextEng := [], suggestions := ["o".toList],
    stats := { stage := 0, correct := 0, incorrect := 0, streak := 0, due := 1000 } }

/-- The engine and the world of `getNextCard` after its conditional call of `_refillQueue`
(lines 103-105). -/
def afterRefill (s : Engine) (w : World) : Engine × World :=
  if s.session.queue.isEmpty then _refillQueue s w else (s, w)

/-- Every queued card is the value of a registered card and its tense is not excluded. -/
def QueueOk (s : Engine) : Prop :=
  ∀ c ∈ s.session.queue,
    (∃ e ∈ s.cards, e.2 = c) ∧ _isExcluded s.excludedTenses c.tenseId = false

/-- The field `cardId` of every registered card is its key in the registry. -/
def CardsOk (s : Engine) : Prop :=
  ∀ e ∈ s.cards, e.2.cardId = e.1

/-- The cards that `registerVerbData` builds from the verb data, in the order in which its two
loops visit the forms. -/
def verbCards (P : Platform) (verbId : Str) (data : VerbData) : List Card :=
  (data.tenses.enum.map (fun te =>
    te.2.forms.enum.map (fun fe => formCard P verbId data te.1 te.2 fe.1 fe.2))).flatten

/-- The registry after the cards of a list were stored one after the other. -/
def upsertCards (cards : List (Str × Card)) (l : List Card) : List (Str × Card) :=
  l.foldl (fun m c => setKey m c.cardId c) cards

/-- The last card of a list that has the given id. -/
def lastVal : List Card → Str → Option Card
  | [], _ => none
  | c :: l, k =>
    match lastVal l k with
    | some v => some v
    | none => if c.cardId = k then some c else none

/-- Every stat belongs to a registered card. -/
def StatsKeysOk (s : Engine) : Prop :=
  ∀ e ∈ s.stats, hasKey s.cards e.1 = true

/-- States of an engine between a call `registerVerbData(verbId, verbData)`, made in a
reachable state, and a second call with the same arguments: any sequence of the other
state-changing methods, where answers are recorded for registered cards. -/
inductive AfterRegistration (P : Platform) (stored : Option (List (Str × Stat)))
    (verbId : Str) (verbData : Option VerbData) : Engine → Prop
  | register {s : Engine} (h : Reachable P stored s) (w : World) :
      AfterRegistration P stored verbId verbData (registerVerbData P s w verbId verbData).1
  | setExcludedTenses {s : Engine} (h : AfterRegistration P stored verbId verbData s)
      (excluded : Option (List (Option Str))) :
      AfterRegistration P stored verbId verbData (setExcludedTenses P s excluded)
  | getNextCard {s : Engine} (h : AfterRegistration P stored verbId verbData s) (w : World) :
      AfterRegistration P stored verbId verbData (getNextCard s w).2.1
  | recordAnswer {s : Engine} (h : AfterRegistration P stored verbId verbData s) (w : World)
      (cardId : Str) (isCorrect : Bool) (hcard : hasKey s.cards cardId = true) :
      AfterRegistration P stored verbId verbData (recordAnswer s w cardId isCorrect).1
  | getSummary {s : Engine} (h : AfterRegistration P stored verbId verbData s) (w : World) :
      AfterRegistration P stored verbId verbData (getSummary s w).2.1
  | resetSessionQueue {s : Engine} (h : AfterRegistration P stored verbId verbData s) :
      AfterRegistration P stored verbId verbData (resetSessionQueue s)
  | resetStats {s : Engine} (h : AfterRegistration P stored verbId verbData s) :
      AfterRegistration P stored verbId verbData (resetStats s)

/-- Whether `entry` has the tense id of `card` and its grouping: the verb family of `card` when
that is not empty, its verb id otherwise (training.js, lines 301-309). -/
def sharesGroup (card entry : Card) : Bool :=
  entry.tenseId == card.tenseId &&
    (if !card.verbFamily.isEmpty then entry.verbFamily == card.verbFamily
     else entry.verbId == card.verbId)

/-- The registered cards of a non-excluded tense that share the tense id and the grouping of
`card`. -/
def suggestionSources (s : Engine) (card : Card) : List (Str × Card) :=
  s.cards.filter (fun e => !_isExcluded s.excludedTenses e.2.tenseId && sharesGroup card e.2)

/-- Verb data of `hablar` whose only form `hablo` is written without brackets. -/
def plainData : VerbData :=
  { infinitive := some "hablar".toList, emoji := none, family := none,
    tenses :=
      [{ id := some "pres".toList, mood := none, tense := none, label := none,
         description := none,
         forms := [{ pronoun := some "yo".toList, form := some "hablo".toList, ru := none,
                     eng := none }] }] }

/-- The engine after the registration of `plainData` in a new engine. -/
def plainEngine : Engine :=
  (registerVerbData asciiPlatform (Engine.new none) fixedWorld "hablar".toList
    (some plainData)).1

/-- The card that `plainEngine` holds: its ending is empty. -/
def plainRegistered : Card :=
  { cardId := "hablar::pres::yo".toList, verbId := "hablar".toList,
    infinitive := "hablar".toList, rawInfinitive := "hablar".toList,
    tenseId := "pres".toList, tenseLabel := [], verbFamily := [], emoji := [],
    pronoun := "yo".toList, stem := "hablo".toList, tail := [], ending := [],
    fullForm := "hablo".toList, description := [], contextRu := [], contextEng := [] }

/-- The card of the form `habl[o]` of `hablar`, as `hablarData` registers it. -/
def hablarRegistered : Card :=
  { cardId := "hablar::pres::yo".toList, verbId := "hablar".toList,
    infinitive := "hablar".toList, rawInfinitive := "hablar".toList,
    tenseId := "pres".toList, tenseLabel := [], verbFamily := [], emoji := [],
    pronoun := "yo".toList, stem := "habl".toList, tail := [], ending := "o".toList,
    fullForm := "habl[o]".toList, description := [], contextRu := [], contextEng := [] }

/-- The largest delay that a stat of the given stage can have been given: the retry interval
at stage 0, the interval of the ladder above. -/
def stageBound (stage : Nat) : Nat :=
  if stage = 0 then RETRY_INTERVAL else INTERVALS.getD stage 0

/-- Every stat has a stage on the ladder and a due time that is at most the current reading of
the clock plus the bound of its stage. -/
def DueOk (stats : List (Str × Stat)) (w : World) : Prop :=
  ∀ e ∈ stats, e.2.stage ≤ INTERVALS.length - 1 ∧
    e.2.due ≤ w.clock w.reads + stageBound e.2.stage

/-- The world `w2` is `w` after some more readings of the same clock. -/
def Later (w w2 : World) : Prop :=
  w2.clock = w.clock ∧ w.reads ≤ w2.reads

/-- States of an engine together with the world it runs in: the engine is constructed from the
stored item in any world and driven by any sequence of its state-changing methods, each of
which consumes the readings and draws it makes; between two calls other code may read the
clock and draw random numbers. -/
inductive ReachableAt (P : Platform) (stored : Option (List (Str × Stat))) :
    Engine → World → Prop
  | new (w : World) : ReachableAt P stored (Engine.new stored) w
  | registerVerbData {s : Engine} {w : World} (h : ReachableAt P stored s w) (verbId : Str)
      (verbData : Option VerbData) :
      ReachableAt P stored (registerVerbData P s w verbId verbData).1
        (registerVerbData P s w verbId verbData).2
  | setExcludedTenses {s : Engine} {w : World} (h : ReachableAt P stored s w)
      (excluded : Option (List (Option Str))) :
      ReachableAt P stored (setExcludedTenses P s excluded) w
  | getNextCard {s : Engine} {w : World} (h : ReachableAt P stored s w) :
      ReachableAt P stored (getNextCard s w).2.1 (getNextCard s w).2.2
  | recordAnswer {s : Engine} {w : World} (h : ReachableAt P stored s w) (cardId : Str)
      (isCorrect : Bool) :
      ReachableAt P stored (recordAnswer s w cardId isCorrect).1
        (recordAnswer s w cardId isCorrect).2
  | getSummary {s : Engine} {w : World} (h : ReachableAt P stored s w) :
      ReachableAt P stored (getSummary s w).2.1 (getSummary s w).2.2
  | resetSessionQueue {s : Engine} {w : World} (h : ReachableAt P stored s w) :
      ReachableAt P stored (resetSessionQueue s) w
  | resetStats {s : Engine} {w : World} (h : ReachableAt P stored s w) :
      ReachableAt P stored (resetStats s) w
  | elapse {s : Engine} {w : World} (h : ReachableAt P stored s w) (readings drawn : Nat) :
      ReachableAt P stored s
        { w with reads := w.reads + readings, draws := w.draws + drawn }

/-- No card id occurs twice in the registry. -/
def KeysNodup (s : Engine) : Prop :=
  (s.cards.map (fun e => e.1)).Nodup

/-- The candidate that `_refillQueue` builds for a registered card, with the stat that the
card has in the given statistics. -/
def candidateOf (stats : List (Str × Stat)) (e : Str × Card) : Candidate :=
  { cardId := e.1, verbId := e.2.verbId, card := e.2, stat := statOf stats e.1 }

/-- The list `candidates` of `_refillQueue` (training.js, lines 222-235). -/
def refillCandidates (s : Engine) (w : World) : List Candidate :=
  (s.cards.foldl (candidateStep s.excludedTenses) ([], s.stats, (dateNow w).2)).1

/-- The pool of `_refillQueue` before it is shuffled (training.js, lines 242-248). -/
def refillPool (s : Engine) (w : World) : List Candidate :=
  choosePool (dateNow w).1 (refillCandidates s w)

/-- Every registered card belongs to a verb with a non-empty id, and the last verb of the
session, when there is one, has a non-empty id. -/
def VerbOk (s : Engine) : Prop :=
  (∀ e ∈ s.cards, e.2.verbId ≠ []) ∧
  (s.session.lastVerbId = none ∨ ∃ v : Str, v ≠ [] ∧ s.session.lastVerbId = some v)

/-- A world whose clock starts at 1000000, when both cards of `restartedBoth` are due. -/
def lateWorld : World :=
  { clock := fun k => 1000000 + k, rand := fun k => k, reads := 0, draws := 0 }

/-- The engine `restartedBoth` after two calls of `getNextCard`: the queue built by the first
call is used up and the session remembers the verb of the second card. -/
def twiceServed : Engine :=
  (getNextCard (getNextCard restartedBoth lateWorld).2.1
    (getNextCard restartedBoth lateWorld).2.2).2.1

/-- A world at the time of `lateWorld` whose every draw is 1, so that the shuffle of a pool of
two candidates leaves them in their order. -/
def keepWorld : World :=
  { clock := fun k => 1000000 + k, rand := fun _ => 1, reads := 0, draws := 0 }

/-- Verb data of `hablar` with one tense and two forms. -/
def twoFormData : VerbData :=
  { infinitive := some "hablar".toList, emoji := none, family := none,
    tenses :=
      [{ id := some "pres".toList, mood := none, tense := none, label := none,
         description := none,
         forms :=
           [{ pronoun := some "yo".toList, form := some "habl[o]".toList, ru := none,
              eng := none },
            { pronoun := some "tu".toList, form := some "habl[as]".toList, ru := none,
              eng := none }] }] }

/-- A new engine after the registration of `twoFormData` and two calls of `getNextCard`: both
cards were served, the queue is used up and the session remembers the verb `hablar`. -/
def twoFormServed : Engine :=
  (getNextCard
    (getNextCard (registerVerbData asciiPlatform (Engine.new none) fixedWorld "hablar".toList
      (some twoFormData)).1 lateWorld).2.1
    (getNextCard (registerVerbData asciiPlatform (Engine.new none) fixedWorld "hablar".toList
      (some twoFormData)).1 lateWorld).2.2).2.1

/-- Verb data of `hablar` that holds no tense any more. -/
def noTenseData : VerbData :=
  { infinitive := some "hablar".toList, emoji := none, family := none, tenses := [] }

/-- The engine `restartedBoth` after one call of `getNextCard`: one card is left in the
queue. -/
def onceServed : Engine :=
  (getNextCard restartedBoth lateWorld).2.1

/-- Persisted stat of a card that stands on the last stage of the ladder. -/
def topStat : Stat :=
  { stage := 5, due := 500000, correct := 7, incorrect := 0, streak := 7,
    lastReview := some 200000 }

/-- The engine after a restart over a storage that holds `topStat` for the card of `hablo`, and
the registration of `plainData`. -/
def topEngine : Engine :=
  (registerVerbData asciiPlatform (Engine.new (some [("hablar::pres::yo".toList, topStat)]))
    fixedWorld "hablar".toList (some plainData)).1

/-- An input that consists of one apostrophe U+0027. -/
def apostropheInput : Str := [Char.ofNat 0x27]

/-- The values `j` that the loop of `shuffle` draws when it runs from index `i` down to 1 in
the world `w`, in the order of the draws: the first one is the draw for index `i`. -/
def drawsOf : Nat → World → List Nat
  | 0, _ => []
  | i + 1, w => (randomBelow w (i + 2)).1 :: drawsOf i (randomBelow w (i + 2)).2

/-- The loop of `shuffle` from index `i` down to 1 with the draws given as a list. -/
def shuffleBy {α : Type} : Nat → List α → List Nat → List α
  | i + 1, array, j :: js => shuffleBy i (swapAt array (i + 1) j) js
  | _, array, _ => array

/-- A sequence of draws for the loop from index `i` down to 1: one draw for every index, the
draw for index `k` being one of `0..k`. -/
def validDraws : Nat → List Nat → Bool
  | 0, [] => true
  | i + 1, j :: js => decide (j ≤ i + 1) && validDraws i js
  | _, _ => false

/-- A world whose draws, reduced by the loop of `shuffle`, are the members of the list. -/
def worldOf (js : List Nat) : World :=
  { clock := fun k => k, rand := fun k => js.getD k 0, reads := 0, draws := 0 }

/-! # Theorems -/

/-! ## Lemmas on dictionaries -/

theorem hasKey_eq_isSome {β : Type} (m : List (Str × β)) (k : Str) :
    hasKey m k = (lookup m k).isSome := by
  induction m with
  | nil => rfl
  | cons e m ih =>
    by_cases h : e.1 = k
    · simp [hasKey, lookup, List.find?, h]
    · have h2 : (e.1 == k) = false := by simpa using h
      simp only [hasKey, lookup, List.any_cons, List.find?, h2, Bool.false_or] at ih ⊢
      exact ih

theorem lookup_cons {β : Type} (e : Str × β) (m : List (Str × β)) (k : Str) :
    lookup (e :: m) k = if e.1 = k then some e.2 else lookup m k := by
  by_cases h : e.1 = k
  · simp [lookup, List.find?, h]
  · have h2 : (e.1 == k) = false := by simpa using h
    simp [lookup, List.find?, h2, h]

theorem lookup_append {β : Type} (m n : List (Str × β)) (k : Str) :
    lookup (m ++ n) k = (lookup m k).orElse (fun _ => lookup n k) := by
  induction m with
  | nil => simp [lookup]
  | cons e m ih =>
    rw [List.cons_append, lookup_cons, lookup_cons, ih]
    split <;> simp

theorem lookup_map_replace {β : Type} (m : List (Str × β)) (k k2 : Str) (v : β) :
    lookup (m.map (fun e => if e.1 == k then (e.1, v) else e)) k2 =
      if k = k2 then (lookup m k2).map (fun _ => v) else lookup m k2 := by
  induction m with
  | nil => simp [lookup]
  | cons e m ih =>
    rw [List.map_cons, lookup_cons, lookup_cons, ih]
    by_cases h1 : e.1 = k
    · by_cases h2 : k = k2
      · subst h1; subst h2; simp
      · subst h1; simp [h2]
    · have h1b : (e.1 == k) = false := by simpa using h1
      by_cases h2 : k = k2
      · subst h2; simp [h1, h1b]
      · simp [h2, h1b]

theorem lookup_setKey {β : Type} (m : List (Str × β)) (k k2 : Str) (v : β) :
    lookup (setKey m k v) k2 = if k = k2 then some v else lookup m k2 := by
  unfold setKey
  by_cases h : hasKey m k = true
  · rw [if_pos h, lookup_map_replace]
    by_cases h2 : k = k2
    · subst h2
      rw [hasKey_eq_isSome] at h
      obtain ⟨x, hx⟩ := Option.isSome_iff_exists.mp h
      simp [hx]
    · simp [h2]
  · rw [if_neg h, lookup_append]
    have h3 : lookup m k = none := by
      rw [hasKey_eq_isSome] at h
      simpa using h
    by_cases h2 : k = k2
    · subst h2; rw [h3]; simp [lookup_cons]
    · rw [lookup_cons, if_neg h2]
      cases lookup m k2 <;> simp [lookup, h2]

theorem lookup_setKey_self {β : Type} (m : List (Str × β)) (k : Str) (v : β) :
    lookup (setKey m k v) k = some v := by
  rw [lookup_setKey]; simp

/-! ## Lemmas on `_ensureStat` -/

theorem ensureStat_fst (stats : List (Str × Stat)) (w : World) (cardId : Str) :
    (_ensureStat stats w cardId).1 = statOrFresh stats w cardId := by
  unfold _ensureStat statOrFresh
  cases h : lookup stats cardId <;> simp [dateNow]

theorem ensureStat_lookup (stats : List (Str × Stat)) (w : World) (cardId k : Str) :
    lookup (_ensureStat stats w cardId).2.1 k =
      if cardId = k then some (statOrFresh stats w cardId) else lookup stats k := by
  unfold _ensureStat statOrFresh
  cases h : lookup stats cardId with
  | none => simp [lookup_setKey, dateNow]
  | some st =>
    by_cases h2 : cardId = k
    · subst h2; simp [h]
    · simp [h2]

theorem ensureStat_world (stats : List (Str × Stat)) (w : World) (cardId : Str) :
    (_ensureStat stats w cardId).2.2 =
      if (lookup stats cardId).isSome then w else { w with reads := w.reads + 1 } := by
  unfold _ensureStat
  cases h : lookup stats cardId <;> simp [dateNow]

/-! ## C1: recordAnswer -/

/-- C1. After `recordAnswer(cardId, isCorrect)` the stat of the card, taken from the stat it
had before (a fresh one with stage 0 and zero counts when it had none), is: for a correct
answer `correct + 1`, `streak + 1`, stage `min (stage + 1) 5` and due `now + INTERVALS[stage]`
for the new stage; for an incorrect answer `incorrect + 1`, streak 0, stage 0 and due
`now + 30000`; `lastReview` is `now` in both cases.  Here `now` is the reading of `Date.now()`
that `recordAnswer` makes, and the ladder is `[0, 60000, 300000, 1500000, 14400000, 86400000]`. -/
theorem recordAnswer_updates_stat (s : Engine) (w : World) (cardId : Str) (isCorrect : Bool) :
    INTERVALS = [0, 60000, 300000, 1500000, 14400000, 86400000] ∧
    RETRY_INTERVAL = 30000 ∧
    lookup (recordAnswer s w cardId isCorrect).1.stats cardId =
      some
        (let old := statOrFresh s.stats w cardId
         let now := if (lookup s.stats cardId).isSome then w.clock w.reads
           else w.clock (w.reads + 1)
         if isCorrect then
           { stage := min (old.stage + 1) 5
             due := now + INTERVALS.getD (min (old.stage + 1) 5) 0
             correct := old.correct + 1
             incorrect := old.incorrect
             streak := old.streak + 1
             lastReview := some now }
         else
           { stage := 0
             due := now + 30000
             correct := old.correct
             incorrect := old.incorrect + 1
             streak := 0
             lastReview := some now }) := by
  refine ⟨by decide, by decide, ?_⟩
  unfold recordAnswer
  simp only [_persistStats, lookup_setKey_self, ensureStat_fst, ensureStat_world, answeredStat]
  have hlen : INTERVALS.length - 1 = 5 := by decide
  have hretry : RETRY_INTERVAL = 30000 := by decide
  cases h : (lookup s.stats cardId).isSome <;> cases isCorrect <;>
    simp [dateNow, hlen, hretry]

/-! ## C9: parseForm -/

theorem findSome?_unique {α β : Type} (f : α → Option β) (l : List α) (x : α) (y : β)
    (hx : x ∈ l) (hfx : f x = some y) (hne : ∀ z ∈ l, z ≠ x → f z = none) :
    l.findSome? f = some y := by
  induction l with
  | nil => cases hx
  | cons z l ih =>
    by_cases hz : z = x
    · subst hz; simp [List.findSome?, hfx]
    · have h1 : f z = none := hne z (List.mem_cons_self _ _) hz
      have h2 : x ∈ l := by
        rcases List.mem_cons.mp hx with h | h
        · exact absurd h.symm hz
        · exact h
      simp only [List.findSome?, h1]
      exact ih h2 (fun z' hz' => hne z' (List.mem_cons_of_mem _ hz'))

theorem getElem?_eq_sep {α : Type} (a r : List α) (x : α) (n : Nat)
    (ha : x ∉ a) (hr : x ∉ r) (h : (a ++ x :: r)[n]? = some x) : n = a.length := by
  rcases Nat.lt_trichotomy n a.length with hlt | heq | hgt
  · rw [List.getElem?_append_left hlt] at h
    exact absurd (List.getElem?_mem h) ha
  · exact heq
  · rw [List.getElem?_append_right (Nat.le_of_lt hgt)] at h
    obtain ⟨k, hk⟩ : ∃ k, n - a.length = k + 1 := ⟨n - a.length - 1, by omega⟩
    rw [hk, List.getElem?_cons_succ] at h
    exact absurd (List.getElem?_mem h) hr

theorem matchAfterOpen_closed (b c : Str) (hb : ']' ∉ b) (hc : ']' ∉ c)
    (hdb : dotStar b = true) (hdc : dotStar c = true) :
    matchAfterOpen (b ++ ']' :: c) = some (b, c) := by
  unfold matchAfterOpen
  apply findSome?_unique _ _ b.length
  · simp [List.mem_range]; omega
  · simp [hdb, hdc]
  · intro m _ hm
    have : ¬ ((b ++ ']' :: c)[m]? = some ']') := fun h => hm (getElem?_eq_sep b c ']' m hb hc h)
    simp [List.head?_drop, this]

theorem matchForm_bracketed (a b c : Str) (ha : '[' ∉ a) (hb1 : '[' ∉ b) (hb2 : ']' ∉ b)
    (hc1 : '[' ∉ c) (hc2 : ']' ∉ c)
    (hda : dotStar a = true) (hdb : dotStar b = true) (hdc : dotStar c = true) :
    matchForm (a ++ '[' :: (b ++ ']' :: c)) = some (a, b, c) := by
  unfold matchForm
  apply findSome?_unique _ _ a.length
  · simp [List.mem_range]; omega
  · simp [hda, matchAfterOpen_closed b c hb2 hc2 hdb hdc]
  · intro n _ hn
    have hr : '[' ∉ b ++ ']' :: c := by
      simp [hb1, hc1]
    have : ¬ ((a ++ '[' :: (b ++ ']' :: c))[n]? = some '[') :=
      fun h => hn (getElem?_eq_sep a _ '[' n ha hr h)
    simp [List.head?_drop, this]

theorem matchForm_no_open (s : Str) (h : '[' ∉ s) : matchForm s = none := by
  unfold matchForm
  rw [List.findSome?_eq_none_iff]
  intro n _
  have : ¬ (s[n]? = some '[') := fun h2 => h (List.getElem?_mem h2)
  simp [List.head?_drop, this]

/-- C9. For a form `a[b]c` without line breaks whose only `[` is the opening delimiter and
which has no `]` after it other than the closing delimiter, `parseForm` returns stem `a`, ending `b` and tail `c` (so `habl[a]` gives stem
`habl`, ending `a` and an empty tail); for a string with no bracket it returns the whole
string as stem, with empty ending and tail. -/
theorem parseForm_spec :
    (∀ a b c : Str, '[' ∉ a → '[' ∉ b → ']' ∉ b → '[' ∉ c → ']' ∉ c →
      (∀ ch ∈ a ++ '[' :: (b ++ ']' :: c), isLineTerminator ch = false) →
      parseForm (some (a ++ '[' :: (b ++ ']' :: c))) = { stem := a, ending := b, tail := c }) ∧
    parseForm (some "habl[a]".toList) =
      { stem := "habl".toList, ending := "a".toList, tail := [] } ∧
    (∀ s : Str, '[' ∉ s → ']' ∉ s →
      parseForm (some s) = { stem := s, ending := [], tail := [] }) := by
  refine ⟨?_, by decide, ?_⟩
  · intro a b c ha hb1 hb2 hc1 hc2 hline
    have hda : dotStar a = true := by
      simp only [dotStar, List.all_eq_true]
      intro x hx; simp [hline x (by simp [hx])]
    have hdb : dotStar b = true := by
      simp only [dotStar, List.all_eq_true]
      intro x hx; simp [hline x (by simp [hx])]
    have hdc : dotStar c = true := by
      simp only [dotStar, List.all_eq_true]
      intro x hx; simp [hline x (by simp [hx])]
    simp [parseForm, matchForm_bracketed a b c ha hb1 hb2 hc1 hc2 hda hdb hdc]
  · intro s h _
    simp [parseForm, matchForm_no_open s h]

/-- Witness of C9 on the forms `habl[as]` and `hablo`. -/
theorem parseForm_spec_witness :
    parseForm (some ("habl".toList ++ '[' :: ("as".toList ++ ']' :: []))) =
      { stem := "habl".toList, ending := "as".toList, tail := [] } ∧
    parseForm (some "hablo".toList) = { stem := "hablo".toList, ending := [], tail := [] } :=
  ⟨parseForm_spec.1 "habl".toList "as".toList [] (by decide) (by decide) (by decide)
      (by decide) (by decide) (by decide),
   parseForm_spec.2.2 "hablo".toList (by decide) (by decide)⟩

/-! ## C10: card ids of forms with a blank pronoun -/

/-- C10, evaluation. With the empty string as pronoun there is no positional fallback:
`buildCardId` returns `verbId::tenseId::` at every position, so two such forms get the same
card id, and registering a tense with two such forms leaves one card, the one of the second
form.  A pronoun made of blanks gives the same id, whereas a missing pronoun gives the
positional id. -/
theorem buildCardId_blank_pronoun_collides (P : Platform) (w : World) (verbId tenseId : Str)
    (N M : Nat) :
    buildCardId P verbId tenseId (some []) N = verbId ++ "::".toList ++ tenseId ++ "::".toList ∧
    buildCardId P verbId tenseId (some []) N = buildCardId P verbId tenseId (some []) M ∧
    ((registerVerbData P (Engine.new none) w "hablar".toList (some blankPronounData)).1.cards.map
      (fun e => e.2.ending)) = ["as".toList] ∧
    buildCardId asciiPlatform "hablar".toList "pres".toList (some "  ".toList) 0 =
      "hablar::pres::".toList ∧
    buildCardId asciiPlatform "hablar".toList "pres".toList (some "  ".toList) 1 =
      "hablar::pres::".toList ∧
    buildCardId asciiPlatform "hablar".toList "pres".toList none 1 =
      "hablar::pres::idx-1".toList := by
  refine ⟨by simp [buildCardId, slugify], by simp [buildCardId, slugify], ?_, by decide,
    by decide, by decide⟩
  have hset : ∀ (k : Str) (c1 c2 : Card), setKey (setKey [] k c1) k c2 = [(k, c2)] := by
    intro k c1 c2
    simp [setKey, hasKey]
  have hcards : (registerVerbData P (Engine.new none) w "hablar".toList
      (some blankPronounData)).1.cards =
      setKey (setKey [] (buildCardId P "hablar".toList (sanitizeId P (some "pres".toList))
          (some []) 0)
        (formCard P "hablar".toList blankPronounData 0 blankPronounTense 0 blankForm1))
        (buildCardId P "hablar".toList (sanitizeId P (some "pres".toList)) (some []) 1)
        (formCard P "hablar".toList blankPronounData 0 blankPronounTense 1 blankForm2) :=
    rfl
  have hid : buildCardId P "hablar".toList (sanitizeId P (some "pres".toList)) (some []) 1 =
      buildCardId P "hablar".toList (sanitizeId P (some "pres".toList)) (some []) 0 := by
    simp [buildCardId, slugify]
  have h1 : (parseForm blankForm2.form).ending = "as".toList := by decide
  rw [hcards, hid, hset]
  simp [formCard, h1]

/-! ## C2: the stage stays on the ladder -/

theorem foldl_preserves {α β : Type} (I : β → Prop) (f : β → α → β)
    (h : ∀ b a, I b → I (f b a)) : ∀ (l : List α) (b : β), I b → I (l.foldl f b) := by
  intro l
  induction l with
  | nil => intro b hb; exact hb
  | cons a l ih => intro b hb; exact ih (f b a) (h b a hb)

theorem mem_setKey {β : Type} (m : List (Str × β)) (k : Str) (v : β) (e : Str × β)
    (h : e ∈ setKey m k v) : e ∈ m ∨ e = (k, v) := by
  unfold setKey at h
  split at h
  · obtain ⟨x, hx, hxe⟩ := List.mem_map.mp h
    by_cases hk : x.1 = k
    · right
      have : (x.1 == k) = true := by simpa using hk
      rw [if_pos this] at hxe
      rw [← hxe, hk]
    · left
      have : ¬ ((x.1 == k) = true) := by simpa using hk
      rw [if_neg this] at hxe
      rw [← hxe]; exact hx
  · rcases List.mem_append.mp h with h | h
    · exact Or.inl h
    · right; simpa using h

theorem allStats_setKey (p : Stat → Prop) (stats : List (Str × Stat)) (k : Str) (v : Stat)
    (h : AllStats p stats) (hv : p v) : AllStats p (setKey stats k v) := by
  intro e he
  rcases mem_setKey stats k v e he with h1 | h1
  · exact h e h1
  · rw [h1]; exact hv

theorem mem_of_lookup {β : Type} (m : List (Str × β)) (k : Str) (v : β)
    (h : lookup m k = some v) : (k, v) ∈ m := by
  induction m with
  | nil => simp [lookup] at h
  | cons e m ih =>
    rw [lookup_cons] at h
    by_cases hk : e.1 = k
    · rw [if_pos hk] at h
      have : e = (k, v) := by
        cases e; simp at hk h; simp [hk, h]
      rw [this]; exact List.mem_cons_self _ _
    · rw [if_neg hk] at h
      exact List.mem_cons_of_mem _ (ih h)

theorem allStats_ensureStat (p : Stat → Prop) (stats : List (Str × Stat)) (w : World)
    (cardId : Str) (h : AllStats p stats)
    (hfresh : ∀ due, p (freshStat due)) :
    AllStats p (_ensureStat stats w cardId).2.1 ∧ p (_ensureStat stats w cardId).1 := by
  unfold _ensureStat
  cases hl : lookup stats cardId with
  | none => exact ⟨allStats_setKey p _ _ _ h (hfresh _), hfresh _⟩
  | some st => exact ⟨h, h _ (mem_of_lookup _ _ _ hl)⟩

theorem allStats_registerCard (p : Stat → Prop)
    (hfresh : ∀ due, p (freshStat due))
    (acc : List (Str × Card) × List (Str × Stat) × World) (card : Card)
    (h : AllStats p acc.2.1) : AllStats p (registerCard acc card).2.1 :=
  (allStats_ensureStat p _ _ _ h hfresh).1

theorem allStats_registerVerbData (P : Platform) (p : Stat → Prop)
    (hfresh : ∀ due, p (freshStat due))
    (s : Engine) (w : World) (verbId : Str) (verbData : Option VerbData)
    (h : AllStats p s.stats) : AllStats p (registerVerbData P s w verbId verbData).1.stats := by
  unfold registerVerbData
  cases verbData with
  | none => exact h
  | some data =>
    dsimp only
    split
    · exact h
    · simp only [resetSessionQueue, _persistStats, _cleanupStaleStats]
      intro e he
      have he2 := (List.mem_filter.mp he).1
      have hall : AllStats p (data.tenses.enum.foldl (fun acc te =>
          te.2.forms.enum.foldl (fun acc fe =>
            registerCard acc (formCard P verbId data te.1 te.2 fe.1 fe.2)) acc)
          (s.cards, s.stats, w)).2.1 := by
        refine foldl_preserves
          (fun (acc : List (Str × Card) × List (Str × Stat) × World) => AllStats p acc.2.1) _ ?_
          _ (s.cards, s.stats, w) h
        intro b te hb
        exact foldl_preserves
          (fun (acc : List (Str × Card) × List (Str × Stat) × World) => AllStats p acc.2.1) _
          (fun b2 fe hb2 => allStats_registerCard p hfresh b2 _ hb2) _ _ hb
      exact hall e he2

theorem allStats_summaryStep (p : Stat → Prop)
    (hfresh : ∀ due, p (freshStat due))
    (ex : List Str) (now : Nat) (acc : SummaryAcc) (e : Str × Card)
    (h : AllStats p acc.stats) : AllStats p (summaryStep ex now acc e).stats := by
  unfold summaryStep
  split
  · exact h
  · exact (allStats_ensureStat p _ _ _ h hfresh).1

theorem allStats_getSummary (p : Stat → Prop)
    (hfresh : ∀ due, p (freshStat due))
    (s : Engine) (w : World) (h : AllStats p s.stats) :
    AllStats p (getSummary s w).2.1.stats := by
  unfold getSummary
  exact foldl_preserves (fun (acc : SummaryAcc) => AllStats p acc.stats) _
    (fun b e hb => allStats_summaryStep p hfresh _ _ b e hb) _ _ h

theorem allStats_candidateStep (p : Stat → Prop)
    (hfresh : ∀ due, p (freshStat due))
    (ex : List Str) (acc : List Candidate × List (Str × Stat) × World) (e : Str × Card)
    (h : AllStats p acc.2.1) : AllStats p (candidateStep ex acc e).2.1 := by
  unfold candidateStep
  split
  · exact h
  · exact (allStats_ensureStat p _ _ _ h hfresh).1

theorem refillQueue_stats (s : Engine) (w : World) :
    (_refillQueue s w).1.stats =
      (s.cards.foldl (candidateStep s.excludedTenses) ([], s.stats, (dateNow w).2)).2.1 := by
  unfold _refillQueue
  dsimp only
  split <;> rfl

theorem allStats_refillQueue (p : Stat → Prop)
    (hfresh : ∀ due, p (freshStat due))
    (s : Engine) (w : World) (h : AllStats p s.stats) :
    AllStats p (_refillQueue s w).1.stats := by
  rw [refillQueue_stats]
  exact foldl_preserves
    (fun (acc : List Candidate × List (Str × Stat) × World) => AllStats p acc.2.1) _
    (fun b e hb => allStats_candidateStep p hfresh _ b e hb) _ _ h

theorem allStats_getNextCard (p : Stat → Prop)
    (hfresh : ∀ due, p (freshStat due))
    (s : Engine) (w : World) (h : AllStats p s.stats) :
    AllStats p (getNextCard s w).2.1.stats := by
  unfold getNextCard
  split
  · exact h
  · have h1 : AllStats p (if s.session.queue.isEmpty = true then _refillQueue s w
        else (s, w)).1.stats := by
      split
      · exact allStats_refillQueue p hfresh s w h
      · exact h
    dsimp only
    split
    · exact h1
    · exact (allStats_ensureStat p _ _ _ h1 hfresh).1

theorem allStats_recordAnswer (p : Stat → Prop) (s : Engine) (w : World) (cardId : Str)
    (isCorrect : Bool) (h : AllStats p s.stats)
    (hfresh : ∀ due, p (freshStat due))
    (hupd : ∀ st : Stat, p st → ∀ now b, p (answeredStat st now b)) :
    AllStats p (recordAnswer s w cardId isCorrect).1.stats := by
  unfold recordAnswer
  simp only [_persistStats]
  have h1 := allStats_ensureStat p s.stats w cardId h hfresh
  exact allStats_setKey p _ _ _ h1.1 (hupd _ h1.2 _ _)

/-- C2. In every state reachable from an engine constructed with empty persisted statistics,
through any sequence of `registerVerbData`, `setExcludedTenses`, `getNextCard`, `recordAnswer`,
`getSummary`, `resetSessionQueue` and `resetStats` calls, the stage of every stat is at most
`INTERVALS.length - 1`, which is 5. -/
theorem stage_within_ladder (P : Platform) (stored : Option (List (Str × Stat)))
    (hempty : _loadStats stored = []) (s : Engine) (h : Reachable P stored s) :
    INTERVALS.length - 1 = 5 ∧ ∀ e ∈ s.stats, e.2.stage ≤ INTERVALS.length - 1 := by
  refine ⟨by decide, ?_⟩
  have hfresh : ∀ due, (freshStat due).stage ≤ INTERVALS.length - 1 := fun _ => Nat.zero_le _
  have hupd : ∀ st : Stat, st.stage ≤ INTERVALS.length - 1 → ∀ now b,
      (answeredStat st now b).stage ≤ INTERVALS.length - 1 := by
    intro st _ now b
    cases b
    · exact Nat.zero_le _
    · exact Nat.min_le_right _ _
  show AllStats (fun st => st.stage ≤ INTERVALS.length - 1) s.stats
  induction h with
  | new => simp [Engine.new, hempty, AllStats]
  | registerVerbData _ w verbId verbData ih =>
    exact allStats_registerVerbData P _ hfresh _ w verbId verbData ih
  | setExcludedTenses _ excluded ih => exact ih
  | getNextCard _ w ih => exact allStats_getNextCard _ hfresh _ w ih
  | recordAnswer _ w cardId isCorrect ih =>
    exact allStats_recordAnswer _ _ w cardId isCorrect ih hfresh hupd
  | getSummary _ w ih => exact allStats_getSummary _ hfresh _ w ih
  | resetSessionQueue _ ih => exact ih
  | resetStats _ ih => simp [resetStats, resetSessionQueue, AllStats]

/-- Witness of C2: an engine constructed over an absent item, after one registration and one
correct answer. -/
theorem stage_within_ladder_witness :
    INTERVALS.length - 1 = 5 ∧
    ∀ e ∈ (recordAnswer (registerVerbData asciiPlatform (Engine.new none) fixedWorld
        "hablar".toList (some blankPronounData)).1 fixedWorld "hablar::pres::".toList true).1.stats,
      e.2.stage ≤ INTERVALS.length - 1 :=
  stage_within_ladder asciiPlatform none rfl _
    (Reachable.recordAnswer (Reachable.registerVerbData Reachable.new fixedWorld _ _)
      fixedWorld _ true)

/-! ## C6: getSummary -/

theorem ensureStat_keeps (stats : List (Str × Stat)) (w : World) (cardId k : Str) (st : Stat)
    (h : lookup stats k = some st) : lookup (_ensureStat stats w cardId).2.1 k = some st := by
  rw [ensureStat_lookup]
  by_cases hk : cardId = k
  · subst hk; simp [statOrFresh, h]
  · simp [hk, h]

theorem ensureStat_lookup_self (stats : List (Str × Stat)) (w : World) (cardId : Str) :
    lookup (_ensureStat stats w cardId).2.1 cardId = some (_ensureStat stats w cardId).1 := by
  rw [ensureStat_lookup, ensureStat_fst]; simp

theorem summary_fold (ex : List Str) (now : Nat) :
    ∀ (l : List (Str × Card)) (acc : SummaryAcc),
      (∀ k st, lookup acc.stats k = some st →
        lookup (l.foldl (summaryStep ex now) acc).stats k = some st) ∧
      (∀ e ∈ l.filter (fun e => !_isExcluded ex e.2.tenseId),
        (lookup (l.foldl (summaryStep ex now) acc).stats e.1).isSome = true) ∧
      (l.foldl (summaryStep ex now) acc).total =
        acc.total + (l.filter (fun e => !_isExcluded ex e.2.tenseId)).length ∧
      (l.foldl (summaryStep ex now) acc).dueCount =
        acc.dueCount + ((l.filter (fun e => !_isExcluded ex e.2.tenseId)).filter (fun e =>
          decide ((statOf (l.foldl (summaryStep ex now) acc).stats e.1).due ≤ now))).length ∧
      (l.foldl (summaryStep ex now) acc).correct =
        acc.correct + ((l.filter (fun e => !_isExcluded ex e.2.tenseId)).map (fun e =>
          (statOf (l.foldl (summaryStep ex now) acc).stats e.1).correct)).sum ∧
      (l.foldl (summaryStep ex now) acc).incorrect =
        acc.incorrect + ((l.filter (fun e => !_isExcluded ex e.2.tenseId)).map (fun e =>
          (statOf (l.foldl (summaryStep ex now) acc).stats e.1).incorrect)).sum := by
  intro l
  induction l with
  | nil => intro acc; simp
  | cons e l ih =>
    intro acc
    rw [List.foldl_cons]
    obtain ⟨ih1, ih2, ih3, ih4, ih5, ih6⟩ := ih (summaryStep ex now acc e)
    by_cases hex : _isExcluded ex e.2.tenseId = true
    · have hstep : summaryStep ex now acc e = acc := by simp [summaryStep, hex]
      rw [hstep] at ih1 ih2 ih3 ih4 ih5 ih6 ⊢
      have hf : (e :: l).filter (fun e => !_isExcluded ex e.2.tenseId) =
          l.filter (fun e => !_isExcluded ex e.2.tenseId) := by
        simp [List.filter_cons, hex]
      rw [hf]
      exact ⟨ih1, ih2, ih3, ih4, ih5, ih6⟩
    · have hex2 : _isExcluded ex e.2.tenseId = false := by simpa using hex
      have hf : (e :: l).filter (fun e => !_isExcluded ex e.2.tenseId) =
          e :: l.filter (fun e => !_isExcluded ex e.2.tenseId) := by
        simp [List.filter_cons, hex2]
      have hself : lookup (summaryStep ex now acc e).stats e.1 =
          some (_ensureStat acc.stats acc.world e.1).1 := by
        simp only [summaryStep, hex2]
        exact ensureStat_lookup_self _ _ _
      have hfinal := ih1 _ _ hself
      have hstat : statOf (l.foldl (summaryStep ex now) (summaryStep ex now acc e)).stats e.1 =
          (_ensureStat acc.stats acc.world e.1).1 := by
        simp [statOf, hfinal]
      rw [hf]
      refine ⟨?_, ?_, ?_, ?_, ?_, ?_⟩
      · intro k st hk
        apply ih1
        simp only [summaryStep, hex2]
        exact ensureStat_keeps _ _ _ _ _ hk
      · intro x hx
        rcases List.mem_cons.mp hx with hx | hx
        · rw [hx, hfinal]; rfl
        · exact ih2 x hx
      · rw [ih3]; simp [summaryStep, hex2]; omega
      · rw [ih4, List.filter_cons, hstat]
        simp only [summaryStep, hex2]
        by_cases hd : (_ensureStat acc.stats acc.world e.1).1.due ≤ now
        · simp [hd]; omega
        · simp [hd]
      · rw [ih5, List.map_cons, List.sum_cons, hstat]
        simp [summaryStep, hex2]; omega
      · rw [ih6, List.map_cons, List.sum_cons, hstat]
        simp [summaryStep, hex2]; omega

theorem getSummary_totalCount (s : Engine) (w : World) :
    (getSummary s w).1.totalCount = (eligibleCards s).length := by
  have h := (summary_fold s.excludedTenses (dateNow w).1 s.cards
    { stats := s.stats, world := (dateNow w).2, total := 0, dueCount := 0, correct := 0,
      incorrect := 0 }).2.2.1
  simp only [Nat.zero_add] at h
  exact h

/-- C6. `getSummary()` at time `now` (its reading of `Date.now()`) returns as `totalCount` the
number of registered cards whose tense is not excluded, as `dueCount` the number of those
cards whose stat has `due ≤ now`, and as `accuracy` null exactly when the sum of
`correct + incorrect` over those cards is 0, and otherwise the sum of `correct` divided by the
sum of `correct + incorrect`.  The stats are those the cards have after the call: every
counted card has one, and a stat that existed before the call is unchanged. -/
theorem getSummary_spec (s : Engine) (w : World) :
    (∀ k st, lookup s.stats k = some st → lookup (getSummary s w).2.1.stats k = some st) ∧
    (∀ e ∈ eligibleCards s, (lookup (getSummary s w).2.1.stats e.1).isSome = true) ∧
    (getSummary s w).1.totalCount = (eligibleCards s).length ∧
    (getSummary s w).1.dueCount = ((eligibleCards s).filter (fun e =>
      decide ((statOf (getSummary s w).2.1.stats e.1).due ≤ w.clock w.reads))).length ∧
    ((getSummary s w).1.accuracy = none ↔
      ((eligibleCards s).map (fun e => (statOf (getSummary s w).2.1.stats e.1).correct +
        (statOf (getSummary s w).2.1.stats e.1).incorrect)).sum = 0) ∧
    (((eligibleCards s).map (fun e => (statOf (getSummary s w).2.1.stats e.1).correct +
        (statOf (getSummary s w).2.1.stats e.1).incorrect)).sum ≠ 0 →
      (getSummary s w).1.accuracy = some
        ((((eligibleCards s).map (fun e =>
            (statOf (getSummary s w).2.1.stats e.1).correct)).sum : ℚ) /
          ((((eligibleCards s).map (fun e =>
            (statOf (getSummary s w).2.1.stats e.1).correct)).sum : ℚ) +
           (((eligibleCards s).map (fun e =>
            (statOf (getSummary s w).2.1.stats e.1).incorrect)).sum : ℚ)))) := by
  obtain ⟨h1, h2, h3, h4, h5, h6⟩ := summary_fold s.excludedTenses (dateNow w).1 s.cards
    { stats := s.stats, world := (dateNow w).2, total := 0, dueCount := 0, correct := 0,
      incorrect := 0 }
  have hsum : ∀ (l : List (Str × Card)) (f g : Str × Card → Nat),
      (l.map (fun e => f e + g e)).sum = (l.map f).sum + (l.map g).sum := by
    intro l f g
    induction l with
    | nil => rfl
    | cons a l ih => simp [ih]; omega
  simp only [Nat.zero_add] at h3 h4 h5 h6
  have h5b : (s.cards.foldl (summaryStep s.excludedTenses (dateNow w).1)
      { stats := s.stats, world := (dateNow w).2, total := 0, dueCount := 0, correct := 0,
        incorrect := 0 }).correct =
      ((eligibleCards s).map (fun e =>
        (statOf (getSummary s w).2.1.stats e.1).correct)).sum := h5
  have h6b : (s.cards.foldl (summaryStep s.excludedTenses (dateNow w).1)
      { stats := s.stats, world := (dateNow w).2, total := 0, dueCount := 0, correct := 0,
        incorrect := 0 }).incorrect =
      ((eligibleCards s).map (fun e =>
        (statOf (getSummary s w).2.1.stats e.1).incorrect)).sum := h6
  have hacc : (getSummary s w).1.accuracy =
      if (s.cards.foldl (summaryStep s.excludedTenses (dateNow w).1)
          { stats := s.stats, world := (dateNow w).2, total := 0, dueCount := 0, correct := 0,
            incorrect := 0 }).correct +
        (s.cards.foldl (summaryStep s.excludedTenses (dateNow w).1)
          { stats := s.stats, world := (dateNow w).2, total := 0, dueCount := 0, correct := 0,
            incorrect := 0 }).incorrect = 0 then none
      else some (((s.cards.foldl (summaryStep s.excludedTenses (dateNow w).1)
          { stats := s.stats, world := (dateNow w).2, total := 0, dueCount := 0, correct := 0,
            incorrect := 0 }).correct : ℚ) /
        (((s.cards.foldl (summaryStep s.excludedTenses (dateNow w).1)
          { stats := s.stats, world := (dateNow w).2, total := 0, dueCount := 0, correct := 0,
            incorrect := 0 }).correct +
        (s.cards.foldl (summaryStep s.excludedTenses (dateNow w).1)
          { stats := s.stats, world := (dateNow w).2, total := 0, dueCount := 0, correct := 0,
            incorrect := 0 }).incorrect : ℕ) : ℚ)) := rfl
  rw [h5b, h6b] at hacc
  refine ⟨h1, h2, h3, h4, ?_, ?_⟩
  · rw [hsum, hacc]
    split
    · rename_i hx
      exact ⟨fun _ => hx, fun _ => rfl⟩
    · rename_i hx
      exact ⟨fun h => Option.noConfusion h, fun h => absurd h hx⟩
  · intro hne
    rw [hsum] at hne
    rw [hacc, if_neg hne]
    push_cast
    rfl

/-- Excluded cards take no part in the summary: the result is the one obtained from the
registry without them. -/
theorem summary_fold_filter (ex : List Str) (now : Nat) :
    ∀ (l : List (Str × Card)) (acc : SummaryAcc),
      l.foldl (summaryStep ex now) acc =
        (l.filter (fun e => !_isExcluded ex e.2.tenseId)).foldl (summaryStep ex now) acc := by
  intro l
  induction l with
  | nil => intro acc; rfl
  | cons e l ih =>
    intro acc
    by_cases hex : _isExcluded ex e.2.tenseId = true
    · have hstep : summaryStep ex now acc e = acc := by simp [summaryStep, hex]
      simp [List.filter_cons, hex, hstep, ih]
    · have hex2 : _isExcluded ex e.2.tenseId = false := by simpa using hex
      simp [List.filter_cons, hex2, ih]

/-! ## C7: setExcludedTenses -/

theorem mem_setAdd (l : List Str) (x t : Str) : t ∈ setAdd l x ↔ t ∈ l ∨ t = x := by
  unfold setAdd
  split
  · rename_i h
    have hx : x ∈ l := by simpa using h
    constructor
    · exact fun h => Or.inl h
    · rintro (h | h)
      · exact h
      · rw [h]; exact hx
  · simp

theorem excluded_fold_mem (P : Platform) (L : List (Option Str)) :
    ∀ (init : List Str) (t : Str),
      t ∈ L.foldl (fun acc value =>
          match value with
          | none => acc
          | some v =>
            if (trim v).isEmpty then acc
            else
              let normalized := slugify P (trim v)
              if normalized.isEmpty then acc else setAdd acc normalized) init ↔
        t ∈ init ∨ ∃ v, some v ∈ L ∧ slugify P (trim v) = t ∧ t ≠ [] := by
  induction L with
  | nil => intro init t; simp
  | cons value L ih =>
    intro init t
    rw [List.foldl_cons, ih]
    cases value with
    | none =>
      simp only [List.mem_cons, reduceCtorEq, false_or]
    | some v =>
      simp only [List.mem_cons, Option.some.injEq]
      by_cases h1 : (trim v).isEmpty = true
      · have h1b : trim v = [] := by simpa using h1
        have h2 : slugify P (trim v) = [] := by simp [slugify, h1b]
        simp only [h1, if_true]
        constructor
        · rintro (h | ⟨u, hu, hs, hne⟩)
          · exact Or.inl h
          · exact Or.inr ⟨u, Or.inr hu, hs, hne⟩
        · rintro (h | ⟨u, hu | hu, hs, hne⟩)
          · exact Or.inl h
          · subst hu; rw [h2] at hs; exact absurd hs.symm hne
          · exact Or.inr ⟨u, hu, hs, hne⟩
      · simp only [h1, Bool.false_eq_true, if_false]
        by_cases h3 : (slugify P (trim v)).isEmpty = true
        · have h3b : slugify P (trim v) = [] := by simpa using h3
          simp only [h3, if_true]
          constructor
          · rintro (h | ⟨u, hu, hs, hne⟩)
            · exact Or.inl h
            · exact Or.inr ⟨u, Or.inr hu, hs, hne⟩
          · rintro (h | ⟨u, hu | hu, hs, hne⟩)
            · exact Or.inl h
            · subst hu; rw [h3b] at hs; exact absurd hs.symm hne
            · exact Or.inr ⟨u, hu, hs, hne⟩
        · have h3b : slugify P (trim v) ≠ [] := by simpa using h3
          simp only [h3, Bool.false_eq_true, if_false, mem_setAdd]
          constructor
          · rintro ((h | h) | ⟨u, hu, hs, hne⟩)
            · exact Or.inl h
            · exact Or.inr ⟨v, Or.inl rfl, h.symm, by rw [h]; exact h3b⟩
            · exact Or.inr ⟨u, Or.inr hu, hs, hne⟩
          · rintro (h | ⟨u, hu | hu, hs, hne⟩)
            · exact Or.inl (Or.inl h)
            · subst hu; exact Or.inl (Or.inr hs.symm)
            · exact Or.inr ⟨u, hu, hs, hne⟩

theorem isExcluded_iff (ex : List Str) (t : Str) :
    _isExcluded ex t = true ↔ t ≠ [] ∧ t ∈ ex := by
  unfold _isExcluded
  cases t with
  | nil => simp
  | cons c t => simp

theorem getSummary_ignores_excluded (s : Engine) (w : World) :
    (getSummary s w).1 = (getSummary { s with cards := eligibleCards s } w).1 := by
  have h1 := summary_fold_filter s.excludedTenses (dateNow w).1 s.cards
    { stats := s.stats, world := (dateNow w).2, total := 0, dueCount := 0, correct := 0,
      incorrect := 0 }
  have h2 := summary_fold_filter s.excludedTenses (dateNow w).1 (eligibleCards s)
    { stats := s.stats, world := (dateNow w).2, total := 0, dueCount := 0, correct := 0,
      incorrect := 0 }
  have h3 : (eligibleCards s).filter (fun e => !_isExcluded s.excludedTenses e.2.tenseId) =
      eligibleCards s := by
    unfold eligibleCards
    rw [List.filter_filter]
    congr 1
    funext e
    simp
  rw [h3] at h2
  unfold getSummary
  simp only []
  rw [h1]
  rfl

/-- C7. After `setExcludedTenses(L)` the exclusion set holds exactly the non-empty slugs
`slugify(trim(v))` of the string members `v` of `L`, whatever it held before (and nothing when
the argument is neither an array nor a `Set`); a tense id is excluded exactly when it is such
a slug; the cards and the stats are unchanged; `hasCards()` is true exactly when some
registered card is not excluded; and the summary is the one of the registry without the
excluded cards, so these are counted in none of `totalCount`, `dueCount` and `accuracy`. -/
theorem setExcludedTenses_spec (P : Platform) (s : Engine) (L : List (Option Str)) :
    (∀ t, t ∈ (setExcludedTenses P s (some L)).excludedTenses ↔
      ∃ v, some v ∈ L ∧ slugify P (trim v) = t ∧ t ≠ []) ∧
    (setExcludedTenses P s none).excludedTenses = [] ∧
    (∀ e ∈ (setExcludedTenses P s (some L)).cards,
      _isExcluded (setExcludedTenses P s (some L)).excludedTenses e.2.tenseId = true ↔
        ∃ v, some v ∈ L ∧ slugify P (trim v) = e.2.tenseId ∧ slugify P (trim v) ≠ []) ∧
    (setExcludedTenses P s (some L)).cards = s.cards ∧
    (setExcludedTenses P s (some L)).stats = s.stats ∧
    (hasCards (setExcludedTenses P s (some L)) = true ↔
      ∃ e ∈ s.cards,
        _isExcluded (setExcludedTenses P s (some L)).excludedTenses e.2.tenseId = false) ∧
    (∀ w, (getSummary (setExcludedTenses P s (some L)) w).1.totalCount =
      (eligibleCards (setExcludedTenses P s (some L))).length) ∧
    (∀ w, (getSummary (setExcludedTenses P s (some L)) w).1 =
      (getSummary { setExcludedTenses P s (some L) with
        cards := eligibleCards (setExcludedTenses P s (some L)) } w).1) := by
  have hmem : ∀ t, t ∈ (setExcludedTenses P s (some L)).excludedTenses ↔
      ∃ v, some v ∈ L ∧ slugify P (trim v) = t ∧ t ≠ [] := by
    intro t
    have := excluded_fold_mem P L [] t
    simp only [List.not_mem_nil, false_or] at this
    exact this
  refine ⟨hmem, rfl, ?_, rfl, rfl, ?_, ?_, ?_⟩
  · intro e _
    rw [isExcluded_iff, hmem]
    constructor
    · rintro ⟨_, v, hv, hs, hne⟩
      exact ⟨v, hv, hs, by rw [hs]; exact hne⟩
    · rintro ⟨v, hv, hs, hne⟩
      exact ⟨by rw [← hs]; exact hne, v, hv, hs, by rw [← hs]; exact hne⟩
  · unfold hasCards
    rw [List.any_eq_true]
    constructor
    · rintro ⟨e, he, hx⟩
      exact ⟨e, he, by simpa using hx⟩
    · rintro ⟨e, he, hx⟩
      exact ⟨e, he, by simpa using hx⟩
  · intro w
    exact getSummary_totalCount _ w
  · intro w
    exact getSummary_ignores_excluded _ w

/-! ## C4: statistics across a restart -/

/-- C4, evaluation. The storage holds a stat for the card of `hablar` and one for the card of
`comer`.  A new engine is constructed from it and the two verbs are registered one after the
other.  The registration of `hablar` deletes the stat of the card of `comer`, whose card is
not registered yet, and writes the storage without it; the registration of `comer` then gives
that card a fresh stat.  The stat of the card of `hablar` is the persisted one. -/
theorem restart_loses_stats_of_later_verb :
    restartedBoth.cards.map (fun e => e.1) =
      ["hablar::pres::yo".toList, "comer::pres::yo".toList] ∧
    lookup (Engine.new (some twoVerbStorage)).stats "comer::pres::yo".toList = some comerStat ∧
    restartedHablar.storage = some [("hablar::pres::yo".toList, hablarStat)] ∧
    lookup restartedBoth.stats "hablar::pres::yo".toList = some hablarStat ∧
    lookup restartedBoth.stats "comer::pres::yo".toList = some (freshStat 1000) ∧
    lookup restartedBoth.stats "comer::pres::yo".toList ≠ some comerStat := by
  decide

/-! ## C8: the answer check -/

/-- C8 as stated fails on a blank input.  The card `hablo` has the empty ending, so the empty
input equals the card's own ending and its normal form equals the normal form of the ending;
the handler returns without a verdict and leaves the engine as it was, whereas a call of
`recordAnswer` changes the statistics. -/
theorem onTrainingPrimary_blank_input_not_judged :
    normalizeAnswer asciiPlatform [] = normalizeAnswer asciiPlatform plainCard.ending ∧
    (onTrainingPrimary asciiPlatform restartedHablar fixedWorld plainCard []).1 = none ∧
    (onTrainingPrimary asciiPlatform restartedHablar fixedWorld plainCard "  ".toList).1 = none ∧
    (onTrainingPrimary asciiPlatform restartedHablar fixedWorld plainCard []).2.1 =
      restartedHablar ∧
    (recordAnswer restartedHablar fixedWorld plainCard.cardId true).1 ≠ restartedHablar := by
  decide

/-- C8, amended. For every card and every input that is not blank, the handler judges the
trimmed input correct exactly when its normal form equals the normal form of the card's
ending or the normal form of stem + ending + tail, and it calls
`recordAnswer(card.cardId, verdict)` with that verdict; `normalizeAnswer` decomposes (NFD),
removes the combining marks U+0300..U+036F and the apostrophes U+0027 and U+2019, trims and
lower-cases.  So an input whose trimmed value is the card's ending or its full form is judged
correct. -/
theorem onTrainingPrimary_judges_nonblank (P : Platform) (s : Engine) (w : World)
    (card : NextCard) (inputValue : Str) (hinput : trim inputValue ≠ []) :
    (∀ x : Str, normalizeAnswer P x =
      P.toLowerCase (trim ((P.normalizeNFD x).filter (fun c =>
        !(0x0300 ≤ c.toNat && c.toNat ≤ 0x036F) && !(c.toNat == 0x27 || c.toNat == 0x2019))))) ∧
    ((onTrainingPrimary P s w card inputValue).1 = some true ↔
      (normalizeAnswer P (trim inputValue) = normalizeAnswer P card.ending ∨
       normalizeAnswer P (trim inputValue) =
         normalizeAnswer P (card.stem ++ card.ending ++ card.tail))) ∧
    ((onTrainingPrimary P s w card inputValue).1 = some false ↔
      ¬ (normalizeAnswer P (trim inputValue) = normalizeAnswer P card.ending ∨
         normalizeAnswer P (trim inputValue) =
           normalizeAnswer P (card.stem ++ card.ending ++ card.tail))) ∧
    (∀ verdict, (onTrainingPrimary P s w card inputValue).1 = some verdict →
      (onTrainingPrimary P s w card inputValue).2 = recordAnswer s w card.cardId verdict) ∧
    (trim inputValue = card.ending → (onTrainingPrimary P s w card inputValue).1 = some true) ∧
    (trim inputValue = card.stem ++ card.ending ++ card.tail →
      (onTrainingPrimary P s w card inputValue).1 = some true) := by
  have hlen : ¬ ((trim inputValue).length = 0) := by
    intro h; exact hinput (List.length_eq_zero.mp h)
  have hres : onTrainingPrimary P s w card inputValue =
      (some (isCorrectAnswer P card (trim inputValue)),
        (recordAnswer s w card.cardId (isCorrectAnswer P card (trim inputValue))).1,
        (recordAnswer s w card.cardId (isCorrectAnswer P card (trim inputValue))).2) := by
    unfold onTrainingPrimary
    simp only [hlen, if_false]
  have hverdict : isCorrectAnswer P card (trim inputValue) = true ↔
      (normalizeAnswer P (trim inputValue) = normalizeAnswer P card.ending ∨
       normalizeAnswer P (trim inputValue) =
         normalizeAnswer P (card.stem ++ card.ending ++ card.tail)) := by
    simp [isCorrectAnswer, composeFullForm]
  refine ⟨?_, ?_, ?_, ?_, ?_, ?_⟩
  · intro x
    unfold normalizeAnswer
    rw [List.filter_filter]
    congr 3
    funext c
    have h1 : (c == Char.ofNat 0x2019) = (c.toNat == 0x2019) := by
      rw [Bool.eq_iff_iff]
      simp only [beq_iff_eq]
      constructor
      · intro h; rw [h]; rfl
      · intro h; exact (Char.ofNat_toNat c).symm.trans (congrArg Char.ofNat h)
    have h2 : (c == Char.ofNat 0x27) = (c.toNat == 0x27) := by
      rw [Bool.eq_iff_iff]
      simp only [beq_iff_eq]
      constructor
      · intro h; rw [h]; rfl
      · intro h; exact (Char.ofNat_toNat c).symm.trans (congrArg Char.ofNat h)
    rw [h1, h2]
    simp only [isCombiningMark]
    cases (0x0300 ≤ c.toNat && c.toNat ≤ 0x036F) <;> cases (c.toNat == 0x2019) <;>
      cases (c.toNat == 0x27) <;> rfl
  · rw [hres]
    simp only [Option.some.injEq]
    exact hverdict
  · rw [hres]
    simp only [Option.some.injEq]
    rw [← hverdict]
    simp
  · intro verdict hv
    rw [hres] at hv ⊢
    simp only [Option.some.injEq] at hv
    rw [hv]
  · intro h
    rw [hres]
    simp only [Option.some.injEq]
    exact hverdict.mpr (Or.inl (by rw [h]))
  · intro h
    rw [hres]
    simp only [Option.some.injEq]
    exact hverdict.mpr (Or.inr (by rw [h]))

/-- Witness of C8 (amended): the input `O` padded with blanks, for the card `habl[o]`. -/
theorem onTrainingPrimary_judges_nonblank_witness :
    trim " O ".toList ≠ [] ∧
    (onTrainingPrimary asciiPlatform restartedHablar fixedWorld bracketCard " O ".toList).1 =
      some true :=
  ⟨by decide,
   ((onTrainingPrimary_judges_nonblank asciiPlatform restartedHablar fixedWorld bracketCard
      " O ".toList (by decide)).2.1).mpr (Or.inl (by decide))⟩

/-! ## C3: getNextCard returns null exactly when no card is eligible -/

theorem perm_cons_set {α : Type} :
    ∀ (l : List α) (j : Nat) (b x : α), l[j]? = some b → (b :: l.set j x).Perm (x :: l) := by
  intro l
  induction l with
  | nil => intro j b x h; simp at h
  | cons y l ih =>
    intro j b x h
    cases j with
    | zero =>
      simp only [List.getElem?_cons_zero, Option.some.injEq] at h
      subst h
      simp only [List.set_cons_zero]
      exact List.Perm.swap _ _ _
    | succ j =>
      simp only [List.getElem?_cons_succ] at h
      simp only [List.set_cons_succ]
      exact (List.Perm.swap y b _).trans (((ih j b x h).cons y).trans (List.Perm.swap x y _))

theorem swapAt_perm {α : Type} : ∀ (l : List α) (i j : Nat), (swapAt l i j).Perm l := by
  intro l
  induction l with
  | nil => intro i j; simp [swapAt]
  | cons y l ih =>
    intro i j
    cases i with
    | zero =>
      cases j with
      | zero => simp [swapAt]
      | succ j =>
        cases hj : l[j]? with
        | none => simp [swapAt, hj]
        | some b =>
          simp only [swapAt, List.getElem?_cons_zero, List.getElem?_cons_succ, hj,
            List.set_cons_zero, List.set_cons_succ]
          exact perm_cons_set l j b y hj
    | succ i =>
      cases j with
      | zero =>
        cases hi : l[i]? with
        | none => simp [swapAt, hi]
        | some a =>
          simp only [swapAt, List.getElem?_cons_zero, List.getElem?_cons_succ, hi,
            List.set_cons_zero, List.set_cons_succ]
          exact perm_cons_set l i a y hi
      | succ j =>
        have h := ih i j
        unfold swapAt at h ⊢
        simp only [List.getElem?_cons_succ]
        cases hi : l[i]? with
        | none => simp
        | some a =>
          cases hj : l[j]? with
          | none => simp
          | some b =>
            simp only [hi, hj] at h
            simp only [List.set_cons_succ]
            exact h.cons y

theorem shuffleLoop_perm {α : Type} :
    ∀ (i : Nat) (array : List α) (w : World), (shuffleLoop i array w).1.Perm array := by
  intro i
  induction i with
  | zero => intro array w; exact List.Perm.refl _
  | succ i ih =>
    intro array w
    unfold shuffleLoop
    exact (ih _ _).trans (swapAt_perm _ _ _)

theorem shuffle_perm {α : Type} (list : List α) (w : World) : (shuffle list w).1.Perm list :=
  shuffleLoop_perm _ _ _

theorem candidates_fold (ex : List Str) :
    ∀ (l : List (Str × Card)) (acc : List Candidate × List (Str × Stat) × World),
      (l.foldl (candidateStep ex) acc).1.map (fun c => c.card) =
        acc.1.map (fun c => c.card) ++
          (l.filter (fun e => !_isExcluded ex e.2.tenseId)).map (fun e => e.2) := by
  intro l
  induction l with
  | nil => intro acc; simp
  | cons e l ih =>
    intro acc
    rw [List.foldl_cons, ih]
    by_cases hex : _isExcluded ex e.2.tenseId = true
    · simp [candidateStep, hex, List.filter_cons]
    · have hex2 : _isExcluded ex e.2.tenseId = false := by simpa using hex
      simp [candidateStep, hex2, List.filter_cons]

theorem fillQueue_mem (lastVerb : Option Str) (n : Nat) :
    ∀ (pool : List Candidate) (queue : List Card) (used : List Str) (c : Card),
      c ∈ fillQueue lastVerb n pool queue used → c ∈ queue ∨ ∃ x ∈ pool, x.card = c := by
  intro pool
  induction pool with
  | nil => intro queue used c h; exact Or.inl h
  | cons entry rest ih =>
    intro queue used c h
    unfold fillQueue at h
    split at h
    · exact Or.inl h
    · split at h
      · rcases ih _ _ _ h with h1 | ⟨x, hx, hc⟩
        · exact Or.inl h1
        · exact Or.inr ⟨x, List.mem_cons_of_mem _ hx, hc⟩
      · split at h
        · rcases ih _ _ _ h with h1 | ⟨x, hx, hc⟩
          · exact Or.inl h1
          · exact Or.inr ⟨x, List.mem_cons_of_mem _ hx, hc⟩
        · rcases ih _ _ _ h with h1 | ⟨x, hx, hc⟩
          · rcases List.mem_append.mp h1 with h2 | h2
            · exact Or.inl h2
            · exact Or.inr ⟨entry, List.mem_cons_self _ _, (List.mem_singleton.mp h2).symm⟩
          · exact Or.inr ⟨x, List.mem_cons_of_mem _ hx, hc⟩

theorem hasCards_iff (s : Engine) : hasCards s = true ↔ eligibleCards s ≠ [] := by
  unfold hasCards eligibleCards
  rw [List.any_eq_true]
  constructor
  · rintro ⟨e, he, hx⟩ h
    have : e ∈ s.cards.filter (fun e => !_isExcluded s.excludedTenses e.2.tenseId) :=
      List.mem_filter.mpr ⟨he, hx⟩
    rw [h] at this
    cases this
  · intro h
    obtain ⟨e, he⟩ := List.exists_mem_of_ne_nil _ h
    exact ⟨e, (List.mem_filter.mp he).1, (List.mem_filter.mp he).2⟩

theorem refillQueue_frame (s : Engine) (w : World) :
    (_refillQueue s w).1.cards = s.cards ∧
    (_refillQueue s w).1.excludedTenses = s.excludedTenses := by
  unfold _refillQueue
  dsimp only
  split <;> exact ⟨rfl, rfl⟩

theorem choosePool_mem (now : Nat) (candidates : List Candidate) (x : Candidate)
    (h : x ∈ choosePool now candidates) : x ∈ candidates := by
  unfold choosePool at h
  dsimp only at h
  split at h
  · exact (List.mem_filter.mp h).1
  · exact (List.perm_insertionSort _ _).subset (List.mem_of_mem_take h)

theorem choosePool_ne_nil (now : Nat) (candidates : List Candidate) (h : candidates ≠ []) :
    choosePool now candidates ≠ [] := by
  unfold choosePool
  dsimp only
  split
  · rename_i hd
    intro h2
    rw [h2] at hd
    simp at hd
  · intro h2
    have hlen := congrArg List.length h2
    rw [List.length_take, List.length_insertionSort, List.length_nil] at hlen
    have : 0 < candidates.length := List.length_pos.mpr h
    omega

theorem buildQueue_cons (lastVerb : Option Str) (first : Candidate) (rest : List Candidate) :
    buildQueue lastVerb (first :: rest) =
      if fillQueue lastVerb (first :: rest).length (first :: rest) [] [] = [] then [first.card]
      else fillQueue lastVerb (first :: rest).length (first :: rest) [] [] := by
  unfold buildQueue
  cases hf : fillQueue lastVerb (first :: rest).length (first :: rest) [] [] with
  | nil => simp
  | cons q qs => simp

theorem buildQueue_mem (lastVerb : Option Str) (pool : List Candidate) (c : Card)
    (h : c ∈ buildQueue lastVerb pool) : ∃ x ∈ pool, x.card = c := by
  cases pool with
  | nil => simp [buildQueue, fillQueue] at h
  | cons first rest =>
    rw [buildQueue_cons] at h
    split at h
    · exact ⟨first, List.mem_cons_self _ _, (List.mem_singleton.mp h).symm⟩
    · rcases fillQueue_mem lastVerb _ _ [] [] c h with h1 | h1
      · cases h1
      · exact h1

theorem buildQueue_ne_nil (lastVerb : Option Str) (pool : List Candidate) (h : pool ≠ []) :
    buildQueue lastVerb pool ≠ [] := by
  cases pool with
  | nil => exact absurd rfl h
  | cons first rest =>
    rw [buildQueue_cons]
    split
    · simp
    · rename_i hne; exact hne

theorem refillQueue_queue_mem (s : Engine) (w : World) (c : Card)
    (h : c ∈ (_refillQueue s w).1.session.queue) : ∃ e ∈ eligibleCards s, e.2 = c := by
  unfold _refillQueue at h
  dsimp only at h
  split at h
  · cases h
  · obtain ⟨x, hx, hxc⟩ := buildQueue_mem _ _ _ h
    have hx2 := choosePool_mem _ _ _ ((shuffle_perm _ _).subset hx)
    have hmap := candidates_fold s.excludedTenses s.cards ([], s.stats, (dateNow w).2)
    have hc : c ∈ (s.cards.foldl (candidateStep s.excludedTenses)
        ([], s.stats, (dateNow w).2)).1.map (fun c => c.card) :=
      List.mem_map.mpr ⟨x, hx2, hxc⟩
    rw [hmap] at hc
    simp only [List.map_nil, List.nil_append] at hc
    obtain ⟨e, he, hec⟩ := List.mem_map.mp hc
    exact ⟨e, he, hec⟩

theorem refillQueue_queue_ne_nil (s : Engine) (w : World) (h : eligibleCards s ≠ []) :
    (_refillQueue s w).1.session.queue ≠ [] := by
  have hmap := candidates_fold s.excludedTenses s.cards ([], s.stats, (dateNow w).2)
  simp only [List.map_nil, List.nil_append] at hmap
  have hne : (s.cards.foldl (candidateStep s.excludedTenses)
      ([], s.stats, (dateNow w).2)).1 ≠ [] := by
    intro h0
    rw [h0] at hmap
    simp only [List.map_nil] at hmap
    exact h (List.map_eq_nil_iff.mp hmap.symm)
  unfold _refillQueue
  dsimp only
  split
  · rename_i hemp
    exact absurd (List.isEmpty_iff.mp hemp) hne
  · apply buildQueue_ne_nil
    intro hp
    have hperm := shuffle_perm (choosePool (dateNow w).1 (s.cards.foldl
      (candidateStep s.excludedTenses) ([], s.stats, (dateNow w).2)).1)
      (s.cards.foldl (candidateStep s.excludedTenses) ([], s.stats, (dateNow w).2)).2.2
    rw [hp] at hperm
    exact choosePool_ne_nil _ _ hne (List.Perm.nil_eq hperm).symm

theorem refillQueue_queue_nil (s : Engine) (w : World) (h : eligibleCards s = []) :
    (_refillQueue s w).1.session.queue = [] := by
  cases hq : (_refillQueue s w).1.session.queue with
  | nil => rfl
  | cons c rest =>
    obtain ⟨e, he, _⟩ := refillQueue_queue_mem s w c (by rw [hq]; exact List.mem_cons_self _ _)
    rw [h] at he
    cases he

theorem getNextCard_of_no_cards (s : Engine) (w : World) (h : s.cards = []) :
    getNextCard s w = (none, s, w) := by
  unfold getNextCard
  simp [h]

theorem getNextCard_none_iff (s : Engine) (w : World) (h : s.cards ≠ []) :
    (getNextCard s w).1 = none ↔
      (afterRefill s w).1.session.queue.dropWhile
        (fun c => _isExcluded (afterRefill s w).1.excludedTenses c.tenseId) = [] := by
  have hc : s.cards.isEmpty = false := by
    cases hs : s.cards with
    | nil => exact absurd hs h
    | cons a l => rfl
  unfold getNextCard afterRefill
  simp only [hc, Bool.false_eq_true, if_false]
  split
  · rename_i heq
    exact ⟨fun _ => heq, fun _ => rfl⟩
  · rename_i next rest heq
    constructor
    · intro h2; cases h2
    · intro h2; rw [heq] at h2; cases h2

theorem getNextCard_frame (s : Engine) (w : World) :
    (getNextCard s w).2.1.cards = s.cards ∧
    (getNextCard s w).2.1.excludedTenses = s.excludedTenses := by
  unfold getNextCard
  split
  · exact ⟨rfl, rfl⟩
  · have h1 : (if s.session.queue.isEmpty = true then _refillQueue s w else (s, w)).1.cards =
        s.cards ∧
      (if s.session.queue.isEmpty = true then _refillQueue s w else (s, w)).1.excludedTenses =
        s.excludedTenses := by
      split
      · exact refillQueue_frame s w
      · exact ⟨rfl, rfl⟩
    dsimp only
    split <;> exact h1

theorem getNextCard_queue_mem (s : Engine) (w : World) (c : Card)
    (h : c ∈ (getNextCard s w).2.1.session.queue) : c ∈ (afterRefill s w).1.session.queue := by
  unfold getNextCard at h
  unfold afterRefill
  split at h
  · split
    · rename_i hq
      rw [List.isEmpty_iff.mp hq] at h
      cases h
    · exact h
  · dsimp only at h
    split at h
    · cases h
    · rename_i next rest heq
      have hsub : c ∈ next :: rest := List.mem_cons_of_mem _ h
      rw [← heq] at hsub
      exact (List.dropWhile_sublist _).subset hsub

theorem afterRefill_frame (s : Engine) (w : World) :
    (afterRefill s w).1.cards = s.cards ∧
    (afterRefill s w).1.excludedTenses = s.excludedTenses := by
  unfold afterRefill
  split
  · exact refillQueue_frame s w
  · exact ⟨rfl, rfl⟩

theorem mem_eligibleCards (s : Engine) (e : Str × Card) :
    e ∈ eligibleCards s ↔ e ∈ s.cards ∧ _isExcluded s.excludedTenses e.2.tenseId = false := by
  unfold eligibleCards
  rw [List.mem_filter]
  simp

theorem queueOk_afterRefill (s : Engine) (w : World) (h : QueueOk s) :
    QueueOk (afterRefill s w).1 := by
  intro c hc
  rw [(afterRefill_frame s w).1, (afterRefill_frame s w).2]
  unfold afterRefill at hc
  split at hc
  · obtain ⟨e, he, hec⟩ := refillQueue_queue_mem s w c hc
    rw [mem_eligibleCards] at he
    exact ⟨⟨e, he.1, hec⟩, by rw [← hec]; exact he.2⟩
  · exact h c hc

theorem queueOk_getNextCard (s : Engine) (w : World) (h : QueueOk s) :
    QueueOk (getNextCard s w).2.1 := by
  intro c hc
  rw [(getNextCard_frame s w).1, (getNextCard_frame s w).2]
  have h1 := queueOk_afterRefill s w h c (getNextCard_queue_mem s w c hc)
  rw [(afterRefill_frame s w).1, (afterRefill_frame s w).2] at h1
  exact h1

theorem registerVerbData_session (P : Platform) (s : Engine) (w : World) (verbId : Str)
    (verbData : Option VerbData) :
    (registerVerbData P s w verbId verbData).1 = s ∨
    (registerVerbData P s w verbId verbData).1.session.queue = [] := by
  unfold registerVerbData
  cases verbData with
  | none => exact Or.inl rfl
  | some data =>
    dsimp only
    split
    · exact Or.inl rfl
    · exact Or.inr rfl

theorem reachable_queueOk (P : Platform) (stored : Option (List (Str × Stat))) (s : Engine)
    (h : Reachable P stored s) : QueueOk s := by
  induction h with
  | new => intro c hc; cases hc
  | registerVerbData _ w verbId verbData ih =>
    rcases registerVerbData_session P _ w verbId verbData with h1 | h1
    · rw [h1]; exact ih
    · intro c hc; rw [h1] at hc; cases hc
  | setExcludedTenses _ excluded ih => intro c hc; cases hc
  | getNextCard _ w ih => exact queueOk_getNextCard _ w ih
  | recordAnswer _ w cardId isCorrect ih => exact ih
  | getSummary _ w ih => exact ih
  | resetSessionQueue _ ih => intro c hc; cases hc
  | resetStats _ ih => intro c hc; cases hc

/-- C3. In every reachable state `getNextCard()` returns null exactly when `hasCards()` is
false, that is, when every registered card has an excluded tense (in particular when the only
registered tense id is excluded); whenever a registered card has a tense that is not excluded,
`getNextCard()` returns a card. -/
theorem getNextCard_null_iff_no_cards (P : Platform) (stored : Option (List (Str × Stat)))
    (s : Engine) (h : Reachable P stored s) (w : World) :
    ((getNextCard s w).1 = none ↔ hasCards s = false) ∧
    (hasCards s = false ↔ ∀ e ∈ s.cards, _isExcluded s.excludedTenses e.2.tenseId = true) ∧
    ((∃ e ∈ s.cards, _isExcluded s.excludedTenses e.2.tenseId = false) →
      (getNextCard s w).1.isSome = true) := by
  have hq := reachable_queueOk P stored s h
  have hhas : hasCards s = false ↔
      ∀ e ∈ s.cards, _isExcluded s.excludedTenses e.2.tenseId = true := by
    unfold hasCards
    rw [List.any_eq_false]
    constructor
    · intro h1 e he; simpa using h1 e he
    · intro h1 e he; simpa using h1 e he
  have hmain : (getNextCard s w).1 = none ↔ hasCards s = false := by
    by_cases hc : s.cards = []
    · rw [getNextCard_of_no_cards s w hc]
      simp [hasCards, hc]
    · rw [getNextCard_none_iff s w hc]
      have hok := queueOk_afterRefill s w hq
      have hdrop : (afterRefill s w).1.session.queue.dropWhile
          (fun c => _isExcluded (afterRefill s w).1.excludedTenses c.tenseId) =
          (afterRefill s w).1.session.queue := by
        cases hl : (afterRefill s w).1.session.queue with
        | nil => rfl
        | cons c rest =>
          have := (hok c (by rw [hl]; exact List.mem_cons_self _ _)).2
          simp [List.dropWhile, this]
      rw [hdrop]
      constructor
      · intro hnil
        by_contra hne
        have htrue : hasCards s = true := by simpa using hne
        have hel := (hasCards_iff s).mp htrue
        unfold afterRefill at hnil
        split at hnil
        · exact refillQueue_queue_ne_nil s w hel hnil
        · rename_i hq2
          exact hq2 (by rw [hnil]; rfl)
      · intro hfalse
        have hel : eligibleCards s = [] := by
          by_contra hne
          have := (hasCards_iff s).mpr hne
          rw [hfalse] at this
          cases this
        cases hl : (afterRefill s w).1.session.queue with
        | nil => rfl
        | cons c rest =>
          obtain ⟨⟨e, he, hec⟩, hx⟩ := hok c (by rw [hl]; exact List.mem_cons_self _ _)
          rw [(afterRefill_frame s w).1] at he
          rw [(afterRefill_frame s w).2] at hx
          have : e ∈ eligibleCards s := (mem_eligibleCards s e).mpr ⟨he, by rw [hec]; exact hx⟩
          rw [hel] at this
          cases this
  refine ⟨hmain, hhas, ?_⟩
  rintro ⟨e, he, hx⟩
  cases hr : (getNextCard s w).1 with
  | some c => rfl
  | none =>
    have h1 := hhas.mp (hmain.mp hr) e he
    rw [hx] at h1
    cases h1

/-- Witness of C3: after a restart and the registration of one verb a card is returned. -/
theorem getNextCard_null_iff_no_cards_witness :
    ((getNextCard restartedHablar fixedWorld).1 = none ↔ hasCards restartedHablar = false) ∧
    (hasCards restartedHablar = false ↔
      ∀ e ∈ restartedHablar.cards,
        _isExcluded restartedHablar.excludedTenses e.2.tenseId = true) ∧
    ((∃ e ∈ restartedHablar.cards,
        _isExcluded restartedHablar.excludedTenses e.2.tenseId = false) →
      (getNextCard restartedHablar fixedWorld).1.isSome = true) :=
  getNextCard_null_iff_no_cards asciiPlatform (some twoVerbStorage) restartedHablar
    (Reachable.registerVerbData Reachable.new fixedWorld _ _) fixedWorld

/-! ## C5: registration is idempotent -/

theorem foldl_nested {α β γ : Type} (f : β → γ → β) (g : α → List γ) :
    ∀ (l : List α) (b : β),
      l.foldl (fun acc a => (g a).foldl f acc) b = (l.map g).flatten.foldl f b := by
  intro l
  induction l with
  | nil => intro b; rfl
  | cons a l ih =>
    intro b
    simp only [List.foldl_cons, List.map_cons, List.flatten_cons, List.foldl_append]
    exact ih _

theorem register_fold_eq (P : Platform) (verbId : Str) (data : VerbData)
    (acc : List (Str × Card) × List (Str × Stat) × World) :
    data.tenses.enum.foldl (fun acc te =>
        te.2.forms.enum.foldl (fun acc fe =>
          registerCard acc (formCard P verbId data te.1 te.2 fe.1 fe.2)) acc) acc =
      (verbCards P verbId data).foldl registerCard acc := by
  unfold verbCards
  rw [← foldl_nested registerCard
    (fun te : Nat × Tense =>
      te.2.forms.enum.map (fun fe => formCard P verbId data te.1 te.2 fe.1 fe.2))]
  congr 1
  funext acc te
  rw [List.foldl_map]

theorem registerCard_fold_cards :
    ∀ (l : List Card) (acc : List (Str × Card) × List (Str × Stat) × World),
      (l.foldl registerCard acc).1 = upsertCards acc.1 l := by
  intro l
  induction l with
  | nil => intro acc; rfl
  | cons c l ih =>
    intro acc
    rw [List.foldl_cons, ih]
    rfl

theorem registerCard_fold_keeps :
    ∀ (l : List Card) (acc : List (Str × Card) × List (Str × Stat) × World) (k : Str)
      (st : Stat), lookup acc.2.1 k = some st →
      lookup (l.foldl registerCard acc).2.1 k = some st := by
  intro l
  induction l with
  | nil => intro acc k st h; exact h
  | cons c l ih =>
    intro acc k st h
    rw [List.foldl_cons]
    exact ih _ k st (ensureStat_keeps _ _ _ _ _ h)

theorem registerVerbData_eq (P : Platform) (s : Engine) (w : World) (verbId : Str)
    (data : VerbData) (h : verbId ≠ []) :
    (registerVerbData P s w verbId (some data)).1.cards =
      upsertCards s.cards (verbCards P verbId data) ∧
    (registerVerbData P s w verbId (some data)).1.stats =
      ((verbCards P verbId data).foldl registerCard (s.cards, s.stats, w)).2.1.filter
        (fun e => hasKey (upsertCards s.cards (verbCards P verbId data)) e.1) := by
  have hv : verbId.isEmpty = false := by
    cases verbId with
    | nil => exact absurd rfl h
    | cons a l => rfl
  unfold registerVerbData
  simp only [hv, Bool.false_eq_true, if_false, register_fold_eq, resetSessionQueue,
    _persistStats, _cleanupStaleStats, registerCard_fold_cards]
  exact ⟨trivial, trivial⟩

theorem hasKey_setKey {β : Type} (m : List (Str × β)) (k k2 : Str) (v : β) :
    hasKey (setKey m k v) k2 = (hasKey m k2 || k == k2) := by
  rw [hasKey_eq_isSome, hasKey_eq_isSome, lookup_setKey]
  by_cases h : k = k2
  · simp [h]
  · have h2 : (k == k2) = false := by simpa using h
    simp [h, h2]

theorem mem_setKey_same_key {β : Type} (m : List (Str × β)) (k : Str) (v : β) (e : Str × β)
    (h : e ∈ setKey m k v) (hk : e.1 = k) : e.2 = v := by
  have h1 : lookup (setKey m k v) k = some v := lookup_setKey_self m k v
  unfold setKey at h
  split at h
  · obtain ⟨x, _, hxe⟩ := List.mem_map.mp h
    by_cases hx : x.1 = k
    · have : (x.1 == k) = true := by simpa using hx
      rw [if_pos this] at hxe
      rw [← hxe]
    · have : ¬ ((x.1 == k) = true) := by simpa using hx
      rw [if_neg this] at hxe
      rw [← hxe] at hk
      exact absurd hk hx
  · rename_i hno
    rcases List.mem_append.mp h with h2 | h2
    · exfalso
      apply hno
      unfold hasKey
      rw [List.any_eq_true]
      exact ⟨e, h2, by simpa using hk⟩
    · rw [List.mem_singleton.mp h2]

theorem hasKey_upsertCards :
    ∀ (l : List Card) (cards : List (Str × Card)) (k : Str),
      hasKey (upsertCards cards l) k = (hasKey cards k || l.any (fun c => c.cardId == k)) := by
  intro l
  induction l with
  | nil => intro cards k; simp [upsertCards]
  | cons c l ih =>
    intro cards k
    have : upsertCards cards (c :: l) = upsertCards (setKey cards c.cardId c) l := rfl
    rw [this, ih, hasKey_setKey, List.any_cons, Bool.or_assoc]

theorem lastVal_none (l : List Card) (k : Str) (h : lastVal l k = none) :
    ∀ c ∈ l, c.cardId ≠ k := by
  induction l with
  | nil => intro c hc; cases hc
  | cons a l ih =>
    intro c hc
    unfold lastVal at h
    cases hl : lastVal l k with
    | some v => rw [hl] at h; cases h
    | none =>
      rw [hl] at h
      rcases List.mem_cons.mp hc with h1 | h1
      · rw [h1]
        intro ha
        rw [if_pos ha] at h
        cases h
      · exact ih hl c h1

theorem upsertCards_untouched :
    ∀ (l : List Card) (cards : List (Str × Card)) (e : Str × Card),
      (∀ c ∈ l, c.cardId ≠ e.1) → e ∈ upsertCards cards l → e ∈ cards := by
  intro l
  induction l with
  | nil => intro cards e _ h; exact h
  | cons c l ih =>
    intro cards e hne h
    have h1 : e ∈ setKey cards c.cardId c :=
      ih _ e (fun c2 hc2 => hne c2 (List.mem_cons_of_mem _ hc2)) h
    rcases mem_setKey cards c.cardId c e h1 with h2 | h2
    · exact h2
    · exfalso
      apply hne c (List.mem_cons_self _ _)
      rw [h2]

theorem upsertCards_last :
    ∀ (l : List Card) (cards : List (Str × Card)) (e : Str × Card) (v : Card),
      e ∈ upsertCards cards l → lastVal l e.1 = some v → e.2 = v := by
  intro l
  induction l with
  | nil => intro cards e v _ h; cases h
  | cons c l ih =>
    intro cards e v he hv
    have he2 : e ∈ upsertCards (setKey cards c.cardId c) l := he
    unfold lastVal at hv
    cases hl : lastVal l e.1 with
    | some v2 =>
      rw [hl] at hv
      simp only [Option.some.injEq] at hv
      rw [← hv]
      exact ih _ e v2 he2 hl
    | none =>
      rw [hl] at hv
      by_cases hc : c.cardId = e.1
      · rw [if_pos hc] at hv
        simp only [Option.some.injEq] at hv
        rw [← hv]
        have h3 := upsertCards_untouched l _ e (lastVal_none l e.1 hl) he2
        exact mem_setKey_same_key cards c.cardId c e h3 hc.symm
      · rw [if_neg hc] at hv
        cases hv

theorem upsertCards_present :
    ∀ (l : List Card) (cards : List (Str × Card)),
      (∀ c ∈ l, hasKey cards c.cardId = true) →
      upsertCards cards l = cards.map (fun e => (e.1, (lastVal l e.1).getD e.2)) := by
  intro l
  induction l with
  | nil => intro cards _; simp [upsertCards, lastVal]
  | cons c l ih =>
    intro cards h
    have hstep : upsertCards cards (c :: l) = upsertCards (setKey cards c.cardId c) l := rfl
    have hc : hasKey cards c.cardId = true := h c (List.mem_cons_self _ _)
    have hkeys : ∀ c2 ∈ l, hasKey (setKey cards c.cardId c) c2.cardId = true := by
      intro c2 hc2
      rw [hasKey_setKey, h c2 (List.mem_cons_of_mem _ hc2)]
      rfl
    rw [hstep, ih _ hkeys]
    unfold setKey
    rw [if_pos hc, List.map_map]
    apply List.map_congr_left
    intro e _
    simp only [Function.comp]
    by_cases hk : e.1 = c.cardId
    · have hb : (e.1 == c.cardId) = true := by simpa using hk
      rw [if_pos hb]
      simp only [lastVal]
      cases lastVal l e.1 with
      | some v => rfl
      | none => simp [hk]
    · have hb : ¬ ((e.1 == c.cardId) = true) := by simpa using hk
      rw [if_neg hb]
      simp only [lastVal]
      cases lastVal l e.1 with
      | some v => rfl
      | none =>
        have : ¬ (c.cardId = e.1) := fun h2 => hk h2.symm
        simp [this]

theorem upsertCards_idem (cards : List (Str × Card)) (l : List Card) :
    upsertCards (upsertCards cards l) l = upsertCards cards l := by
  rw [upsertCards_present l (upsertCards cards l)]
  · conv => rhs; rw [← List.map_id (upsertCards cards l)]
    apply List.map_congr_left
    intro e he
    cases hl : lastVal l e.1 with
    | none => rfl
    | some v =>
      have := upsertCards_last l cards e v he hl
      simp [← this]
  · intro c hc
    rw [hasKey_upsertCards]
    have : l.any (fun c2 => c2.cardId == c.cardId) = true :=
      List.any_eq_true.mpr ⟨c, hc, by simp⟩
    rw [this, Bool.or_true]

theorem foldl_preserves_mem {α β : Type} (I : β → Prop) (f : β → α → β) :
    ∀ (l : List α) (b : β), (∀ b a, a ∈ l → I b → I (f b a)) → I b → I (l.foldl f b) := by
  intro l
  induction l with
  | nil => intro b _ hb; exact hb
  | cons a l ih =>
    intro b h hb
    exact ih (f b a) (fun b2 a2 ha2 => h b2 a2 (List.mem_cons_of_mem _ ha2))
      (h b a (List.mem_cons_self _ _) hb)

theorem lookup_filter_key {β : Type} (q : Str → Bool) (m : List (Str × β)) (k : Str) :
    lookup (m.filter (fun e => q e.1)) k = if q k = true then lookup m k else none := by
  induction m with
  | nil => simp [lookup]
  | cons e m ih =>
    by_cases hq : q e.1 = true
    · rw [List.filter_cons_of_pos (by simpa using hq), lookup_cons, lookup_cons, ih]
      by_cases hk : e.1 = k
      · subst hk; simp [hq]
      · simp [hk]
    · rw [List.filter_cons_of_neg (by simpa using hq), lookup_cons, ih]
      by_cases hk : e.1 = k
      · subst hk; simp [hq]
      · simp [hk]

theorem hasKey_of_mem {β : Type} (m : List (Str × β)) (e : Str × β) (h : e ∈ m) :
    hasKey m e.1 = true := by
  unfold hasKey
  rw [List.any_eq_true]
  exact ⟨e, h, by simp⟩

theorem ensureStat_mem (stats : List (Str × Stat)) (w : World) (cardId : Str) (e : Str × Stat)
    (h : e ∈ (_ensureStat stats w cardId).2.1) : e ∈ stats ∨ e.1 = cardId := by
  unfold _ensureStat at h
  cases hl : lookup stats cardId with
  | some st => rw [hl] at h; exact Or.inl h
  | none =>
    rw [hl] at h
    rcases mem_setKey _ _ _ _ h with h1 | h1
    · exact Or.inl h1
    · exact Or.inr (by rw [h1])

theorem registerVerbData_noop (P : Platform) (s : Engine) (w : World) (verbId : Str)
    (verbData : Option VerbData) (h : verbId = [] ∨ verbData = none) :
    registerVerbData P s w verbId verbData = (s, w) := by
  unfold registerVerbData
  cases verbData with
  | none => rfl
  | some data =>
    rcases h with h | h
    · simp [h]
    · cases h

theorem cardsOk_upsertCards (cards : List (Str × Card)) (l : List Card)
    (h : ∀ e ∈ cards, e.2.cardId = e.1) : ∀ e ∈ upsertCards cards l, e.2.cardId = e.1 := by
  unfold upsertCards
  refine foldl_preserves (fun (m : List (Str × Card)) => ∀ e ∈ m, e.2.cardId = e.1) _ ?_ l
    cards h
  intro m c hm e he
  rcases mem_setKey m c.cardId c e he with h1 | h1
  · exact hm e h1
  · rw [h1]

theorem cardsOk_registerVerbData (P : Platform) (s : Engine) (w : World) (verbId : Str)
    (verbData : Option VerbData) (h : CardsOk s) :
    CardsOk (registerVerbData P s w verbId verbData).1 := by
  by_cases hd : verbId = [] ∨ verbData = none
  · rw [registerVerbData_noop P s w verbId verbData hd]; exact h
  · cases verbData with
    | none => exact absurd (Or.inr rfl) hd
    | some data =>
      have hv : verbId ≠ [] := fun h2 => hd (Or.inl h2)
      unfold CardsOk
      rw [(registerVerbData_eq P s w verbId data hv).1]
      exact cardsOk_upsertCards _ _ h

theorem reachable_cardsOk (P : Platform) (stored : Option (List (Str × Stat))) (s : Engine)
    (h : Reachable P stored s) : CardsOk s := by
  induction h with
  | new => intro e he; cases he
  | registerVerbData _ w verbId verbData ih =>
    exact cardsOk_registerVerbData P _ w verbId verbData ih
  | setExcludedTenses _ excluded ih => exact ih
  | getNextCard _ w ih =>
    unfold CardsOk
    rw [(getNextCard_frame _ w).1]
    exact ih
  | recordAnswer _ w cardId isCorrect ih => exact ih
  | getSummary _ w ih => exact ih
  | resetSessionQueue _ ih => exact ih
  | resetStats _ ih => exact ih

theorem afterRegistration_reachable (P : Platform) (stored : Option (List (Str × Stat)))
    (verbId : Str) (verbData : Option VerbData) (s : Engine)
    (h : AfterRegistration P stored verbId verbData s) : Reachable P stored s := by
  induction h with
  | register h w => exact Reachable.registerVerbData h w verbId verbData
  | setExcludedTenses _ excluded ih => exact Reachable.setExcludedTenses ih excluded
  | getNextCard _ w ih => exact Reachable.getNextCard ih w
  | recordAnswer _ w cardId isCorrect _ ih => exact Reachable.recordAnswer ih w cardId isCorrect
  | getSummary _ w ih => exact Reachable.getSummary ih w
  | resetSessionQueue _ ih => exact Reachable.resetSessionQueue ih
  | resetStats _ ih => exact Reachable.resetStats ih

theorem statsKeys_candidates (s : Engine) (w : World) (h : StatsKeysOk s) :
    ∀ e ∈ (s.cards.foldl (candidateStep s.excludedTenses) ([], s.stats, w)).2.1,
      hasKey s.cards e.1 = true := by
  refine foldl_preserves_mem
    (fun (acc : List Candidate × List (Str × Stat) × World) =>
      ∀ e ∈ acc.2.1, hasKey s.cards e.1 = true) _ s.cards ([], s.stats, w) ?_ h
  intro acc a ha hacc e he
  unfold candidateStep at he
  split at he
  · exact hacc e he
  · rcases ensureStat_mem _ _ _ _ he with h1 | h1
    · exact hacc e h1
    · rw [h1]; exact hasKey_of_mem _ _ ha

theorem statsKeys_afterRefill (s : Engine) (w : World) (h : StatsKeysOk s) :
    StatsKeysOk (afterRefill s w).1 := by
  unfold StatsKeysOk
  rw [(afterRefill_frame s w).1]
  unfold afterRefill
  split
  · rw [refillQueue_stats]
    exact statsKeys_candidates s _ h
  · exact h

theorem getNextCard_stats_mem (s : Engine) (w : World) (e : Str × Stat)
    (h : e ∈ (getNextCard s w).2.1.stats) :
    e ∈ (afterRefill s w).1.stats ∨
      ∃ next ∈ (afterRefill s w).1.session.queue, e.1 = next.cardId := by
  unfold getNextCard at h
  split at h
  · left
    unfold afterRefill
    split
    · rw [refillQueue_stats]
      rename_i hc _
      have hc2 : s.cards = [] := List.isEmpty_iff.mp hc
      rw [hc2]
      exact h
    · exact h
  · dsimp only at h
    split at h
    · exact Or.inl h
    · rename_i next rest heq
      rcases ensureStat_mem _ _ _ _ h with h1 | h1
      · exact Or.inl h1
      · right
        refine ⟨next, ?_, h1⟩
        have hsub : next ∈ next :: rest := List.mem_cons_self _ _
        rw [← heq] at hsub
        exact (List.dropWhile_sublist _).subset hsub

theorem statsKeys_getNextCard (s : Engine) (w : World) (h : StatsKeysOk s) (hq : QueueOk s)
    (hc : CardsOk s) : StatsKeysOk (getNextCard s w).2.1 := by
  intro e he
  rw [(getNextCard_frame s w).1]
  rcases getNextCard_stats_mem s w e he with h1 | ⟨next, hn, hk⟩
  · have := statsKeys_afterRefill s w h e h1
    rw [(afterRefill_frame s w).1] at this
    exact this
  · obtain ⟨⟨x, hx, hxn⟩, _⟩ := queueOk_afterRefill s w hq next hn
    rw [(afterRefill_frame s w).1] at hx
    have h2 := hasKey_of_mem _ _ hx
    rw [← hc x hx, hxn, ← hk] at h2
    exact h2

theorem statsKeys_getSummary (s : Engine) (w : World) (h : StatsKeysOk s) :
    StatsKeysOk (getSummary s w).2.1 := by
  unfold StatsKeysOk getSummary
  refine foldl_preserves_mem
    (fun (acc : SummaryAcc) => ∀ e ∈ acc.stats, hasKey s.cards e.1 = true) _ s.cards _ ?_ h
  intro acc a ha hacc e he
  unfold summaryStep at he
  split at he
  · exact hacc e he
  · rcases ensureStat_mem _ _ _ _ he with h1 | h1
    · exact hacc e h1
    · rw [h1]; exact hasKey_of_mem _ _ ha

theorem statsKeys_recordAnswer (s : Engine) (w : World) (cardId : Str) (isCorrect : Bool)
    (h : StatsKeysOk s) (hcard : hasKey s.cards cardId = true) :
    StatsKeysOk (recordAnswer s w cardId isCorrect).1 := by
  intro e he
  have he2 : e ∈ setKey (_ensureStat s.stats w cardId).2.1 cardId
      (answeredStat (_ensureStat s.stats w cardId).1
        (dateNow (_ensureStat s.stats w cardId).2.2).1 isCorrect) := he
  show hasKey s.cards e.1 = true
  rcases mem_setKey _ _ _ _ he2 with h1 | h1
  · rcases ensureStat_mem _ _ _ _ h1 with h2 | h2
    · exact h e h2
    · rw [h2]; exact hcard
  · rw [h1]; exact hcard

theorem afterRegistration_inv (P : Platform) (stored : Option (List (Str × Stat)))
    (verbId : Str) (data : VerbData) (hv : verbId ≠ []) (s : Engine)
    (h : AfterRegistration P stored verbId (some data) s) :
    StatsKeysOk s ∧ upsertCards s.cards (verbCards P verbId data) = s.cards := by
  induction h with
  | register h w =>
    rename_i s0
    obtain ⟨hc, hs⟩ := registerVerbData_eq P s0 w verbId data hv
    constructor
    · intro e he
      rw [hs] at he
      rw [hc]
      exact (List.mem_filter.mp he).2
    · rw [hc]
      exact upsertCards_idem _ _
  | setExcludedTenses _ excluded ih => exact ih
  | getNextCard h0 w ih =>
    have hr := afterRegistration_reachable P stored verbId (some data) _ h0
    refine ⟨statsKeys_getNextCard _ w ih.1 (reachable_queueOk P stored _ hr)
      (reachable_cardsOk P stored _ hr), ?_⟩
    rw [(getNextCard_frame _ w).1]
    exact ih.2
  | recordAnswer _ w cardId isCorrect hcard ih =>
    exact ⟨statsKeys_recordAnswer _ w cardId isCorrect ih.1 hcard, ih.2⟩
  | getSummary _ w ih => exact ⟨statsKeys_getSummary _ w ih.1, ih.2⟩
  | resetSessionQueue _ ih => exact ih
  | resetStats _ ih =>
    refine ⟨?_, ih.2⟩
    intro e he
    cases he

/-- C5. Registration is idempotent: when `registerVerbData(verbId, data)` was called in a
reachable state and then, after any sequence of `setExcludedTenses`, `getNextCard`,
`recordAnswer` (for registered cards), `getSummary`, `resetSessionQueue` and `resetStats`
calls, it is called a second time with the same arguments, the second call leaves the registry
as it was (the same card ids, in the same order, each with the same card) and leaves every
existing stat as it was. -/
theorem registerVerbData_idempotent (P : Platform) (stored : Option (List (Str × Stat)))
    (verbId : Str) (verbData : Option VerbData) (s : Engine)
    (h : AfterRegistration P stored verbId verbData s) (w : World) :
    (registerVerbData P s w verbId verbData).1.cards = s.cards ∧
    ∀ k st, lookup s.stats k = some st →
      lookup (registerVerbData P s w verbId verbData).1.stats k = some st := by
  by_cases hd : verbId = [] ∨ verbData = none
  · rw [registerVerbData_noop P s w verbId verbData hd]
    exact ⟨rfl, fun _ _ h2 => h2⟩
  · cases verbData with
    | none => exact absurd (Or.inr rfl) hd
    | some data =>
      have hv : verbId ≠ [] := fun h2 => hd (Or.inl h2)
      obtain ⟨hkeys, hfix⟩ := afterRegistration_inv P stored verbId data hv s h
      obtain ⟨hc, hs⟩ := registerVerbData_eq P s w verbId data hv
      refine ⟨by rw [hc, hfix], ?_⟩
      intro k st hk
      rw [hs, lookup_filter_key (fun k2 => hasKey (upsertCards s.cards
        (verbCards P verbId data)) k2), hfix]
      have hmem := hkeys _ (mem_of_lookup _ _ _ hk)
      rw [if_pos hmem]
      exact registerCard_fold_keeps _ _ k st hk

/-- Witness of C5: `hablar` is registered after a restart, a correct answer is recorded for
its card, and `hablar` is registered again. -/
theorem registerVerbData_idempotent_witness :
    (registerVerbData asciiPlatform
        (recordAnswer restartedHablar fixedWorld "hablar::pres::yo".toList true).1 fixedWorld
        "hablar".toList (some hablarData)).1.cards =
      (recordAnswer restartedHablar fixedWorld "hablar::pres::yo".toList true).1.cards ∧
    ∀ k st,
      lookup (recordAnswer restartedHablar fixedWorld "hablar::pres::yo".toList true).1.stats k =
        some st →
      lookup (registerVerbData asciiPlatform
        (recordAnswer restartedHablar fixedWorld "hablar::pres::yo".toList true).1 fixedWorld
        "hablar".toList (some hablarData)).1.stats k = some st :=
  registerVerbData_idempotent asciiPlatform (some twoVerbStorage) "hablar".toList
    (some hablarData) _
    (AfterRegistration.recordAnswer (AfterRegistration.register Reachable.new fixedWorld)
      fixedWorld _ true (by decide)) fixedWorld

/-! ## C11: the stored item at construction -/

/-- On well-formed statistics `_loadStatsValue` returns the statistics that were stored, as the
typed `_loadStats` does. -/
theorem loadStatsValue_encodeStats (stats : List (Str × Stat)) :
    _loadStatsValue (StoredItem.parsed (encodeStats stats)) = encodeStats (_loadStats (some stats)) :=
  rfl

/-- C11, evaluation. An item that is unavailable, absent or unparsable, and one that parses to
null, a boolean, a number or a string, gives the empty object.  An item that parses to the
array `[1, 2]` is returned as it is, and so is the object whose only value is the number 5:
the engine does not start with empty statistics from them. -/
theorem loadStats_keeps_malformed_values :
    _loadStatsValue StoredItem.unavailable = Json.obj [] ∧
    _loadStatsValue StoredItem.absent = Json.obj [] ∧
    _loadStatsValue StoredItem.unparsable = Json.obj [] ∧
    _loadStatsValue (StoredItem.parsed Json.null) = Json.obj [] ∧
    (∀ b, _loadStatsValue (StoredItem.parsed (Json.bool b)) = Json.obj []) ∧
    (∀ n, _loadStatsValue (StoredItem.parsed (Json.num n)) = Json.obj []) ∧
    (∀ t, _loadStatsValue (StoredItem.parsed (Json.str t)) = Json.obj []) ∧
    _loadStatsValue (StoredItem.parsed (Json.arr [Json.num 1, Json.num 2])) =
      Json.arr [Json.num 1, Json.num 2] ∧
    _loadStatsValue (StoredItem.parsed (Json.arr [Json.num 1, Json.num 2])) ≠ Json.obj [] ∧
    _loadStatsValue (StoredItem.parsed (Json.obj [("hablar::pres::yo".toList, Json.num 5)])) =
      Json.obj [("hablar::pres::yo".toList, Json.num 5)] ∧
    _loadStatsValue (StoredItem.parsed (Json.obj [("hablar::pres::yo".toList, Json.num 5)])) ≠
      Json.obj [] := by
  refine ⟨rfl, rfl, rfl, rfl, ?_, ?_, ?_, rfl, ?_, rfl, ?_⟩
  · intro b; cases b <;> rfl
  · intro n; simp [_loadStatsValue, typeofIsObject]
  · intro t; simp [_loadStatsValue, typeofIsObject]
  · intro h; cases h
  · intro h
    simp [_loadStatsValue, isTruthy, typeofIsObject] at h

/-! ## C12, C13: the suggestion list -/

theorem suggestion_fold (ex : List Str) (card : Card) :
    ∀ (l : List (Str × Card)) (init : List Str), init.Nodup →
      (l.foldl (suggestionStep ex card) init).Nodup ∧
      ∀ x, x ∈ l.foldl (suggestionStep ex card) init ↔
        x ∈ init ∨ (x ≠ [] ∧ ∃ e ∈ l, _isExcluded ex e.2.tenseId = false ∧
          sharesGroup card e.2 = true ∧ e.2.ending = x) := by
  intro l
  induction l with
  | nil =>
    intro init h
    refine ⟨h, fun x => ⟨fun hx => Or.inl hx, ?_⟩⟩
    rintro (hx | ⟨_, e, he, _⟩)
    · exact hx
    · cases he
  | cons e l ih =>
    intro init hinit
    rw [List.foldl_cons]
    by_cases hadd : _isExcluded ex e.2.tenseId = false ∧ e.2.ending ≠ [] ∧
        sharesGroup card e.2 = true
    · obtain ⟨h1, h2, h3⟩ := hadd
      have h2b : e.2.ending.isEmpty = false := by
        cases hE : e.2.ending with
        | nil => exact absurd hE h2
        | cons a t => rfl
      have h3b := h3
      unfold sharesGroup at h3b
      rw [Bool.and_eq_true] at h3b
      by_cases hin : e.2.ending ∈ init
      · have hstep : suggestionStep ex card init e = init := by
          unfold suggestionStep
          simp only [h1, h2b, h3b.1, h3b.2, Bool.false_eq_true, if_false, Bool.not_true]
          simp [hin]
        rw [hstep]
        refine ⟨(ih init hinit).1, fun x => ?_⟩
        rw [(ih init hinit).2 x]
        constructor
        · rintro (h | ⟨hx, e2, he2, hp⟩)
          · exact Or.inl h
          · exact Or.inr ⟨hx, e2, List.mem_cons_of_mem _ he2, hp⟩
        · rintro (h | ⟨hx, e2, he2, hp⟩)
          · exact Or.inl h
          · rcases List.mem_cons.mp he2 with h4 | h4
            · subst h4; left; rw [← hp.2.2]; exact hin
            · exact Or.inr ⟨hx, e2, h4, hp⟩
      · have hstep : suggestionStep ex card init e = init ++ [e.2.ending] := by
          unfold suggestionStep
          simp only [h1, h2b, h3b.1, h3b.2, Bool.false_eq_true, if_false, Bool.not_true]
          simp [hin]
        have hnd : (init ++ [e.2.ending]).Nodup := by
          rw [List.nodup_append]
          refine ⟨hinit, List.nodup_singleton _, ?_⟩
          intro a ha hb
          rw [List.mem_singleton.mp hb] at ha
          exact hin ha
        rw [hstep]
        refine ⟨(ih _ hnd).1, fun x => ?_⟩
        rw [(ih _ hnd).2 x]
        constructor
        · rintro (h | ⟨hx, e2, he2, hp⟩)
          · rcases List.mem_append.mp h with h5 | h5
            · exact Or.inl h5
            · have hxe := List.mem_singleton.mp h5
              exact Or.inr ⟨by rw [hxe]; exact h2, e, List.mem_cons_self _ _, h1, h3, hxe.symm⟩
          · exact Or.inr ⟨hx, e2, List.mem_cons_of_mem _ he2, hp⟩
        · rintro (h | ⟨hx, e2, he2, hp⟩)
          · exact Or.inl (List.mem_append.mpr (Or.inl h))
          · rcases List.mem_cons.mp he2 with h4 | h4
            · subst h4
              exact Or.inl (List.mem_append.mpr (Or.inr (List.mem_singleton.mpr hp.2.2.symm)))
            · exact Or.inr ⟨hx, e2, h4, hp⟩
    · have hstep : suggestionStep ex card init e = init := by
        unfold suggestionStep
        by_cases c1 : _isExcluded ex e.2.tenseId = true
        · simp [c1]
        · have c1b : _isExcluded ex e.2.tenseId = false := by simpa using c1
          by_cases c2 : e.2.ending = []
          · simp [c1b, c2]
          · have c3 : ¬ (sharesGroup card e.2 = true) := fun h => hadd ⟨c1b, c2, h⟩
            unfold sharesGroup at c3
            rw [Bool.and_eq_true] at c3
            by_cases c4 : (e.2.tenseId == card.tenseId) = true
            · have c5 : ¬ ((if (!card.verbFamily.isEmpty) = true then
                  e.2.verbFamily == card.verbFamily else e.2.verbId == card.verbId) = true) :=
                fun h => c3 ⟨c4, h⟩
              simp only [c1b, Bool.false_eq_true, if_false, c4, Bool.not_true]
              have c2b : e.2.ending.isEmpty = false := by
                cases hE : e.2.ending with
                | nil => exact absurd hE c2
                | cons a t => rfl
              simp only [c2b, Bool.false_eq_true, if_false]
              have c6 : (!(if (!card.verbFamily.isEmpty) = true then
                  e.2.verbFamily == card.verbFamily else e.2.verbId == card.verbId)) = true := by
                rw [Bool.not_eq_true']
                exact Bool.eq_false_iff.mpr c5
              rw [if_pos c6]
            · have c4b : (e.2.tenseId == card.tenseId) = false := by simpa using c4
              have c2b : e.2.ending.isEmpty = false := by
                cases hE : e.2.ending with
                | nil => exact absurd hE c2
                | cons a t => rfl
              simp [c1b, c2b, c4b]
      rw [hstep]
      refine ⟨(ih init hinit).1, fun x => ?_⟩
      rw [(ih init hinit).2 x]
      constructor
      · rintro (h | ⟨hx, e2, he2, hp⟩)
        · exact Or.inl h
        · exact Or.inr ⟨hx, e2, List.mem_cons_of_mem _ he2, hp⟩
      · rintro (h | ⟨hx, e2, he2, hp⟩)
        · exact Or.inl h
        · rcases List.mem_cons.mp he2 with h4 | h4
          · subst h4
            exfalso
            exact hadd ⟨hp.1, by rw [hp.2.2]; exact hx, hp.2.1⟩
          · exact Or.inr ⟨hx, e2, h4, hp⟩

theorem getSuggestionsFor_perm (s : Engine) (w : World) (card : Card) :
    (_getSuggestionsFor s w card).1.Perm
      (if !card.ending.isEmpty then
        (s.cards.foldl (suggestionStep s.excludedTenses card) []).erase card.ending ++
          [card.ending]
       else s.cards.foldl (suggestionStep s.excludedTenses card) []) :=
  shuffle_perm _ _

theorem getSuggestionsFor_nodup (s : Engine) (w : World) (card : Card) :
    (_getSuggestionsFor s w card).1.Nodup := by
  rw [(getSuggestionsFor_perm s w card).nodup_iff]
  have hnd := (suggestion_fold s.excludedTenses card s.cards [] List.nodup_nil).1
  split
  · rw [List.nodup_append]
    refine ⟨hnd.erase _, List.nodup_singleton _, ?_⟩
    intro a ha hb
    rw [List.mem_singleton.mp hb] at ha
    exact hnd.not_mem_erase ha
  · exact hnd

theorem getSuggestionsFor_mem (s : Engine) (w : World) (card : Card) (x : Str) :
    x ∈ (_getSuggestionsFor s w card).1 ↔
      x ≠ [] ∧ (x = card.ending ∨ ∃ e ∈ suggestionSources s card, e.2.ending = x) := by
  rw [(getSuggestionsFor_perm s w card).mem_iff]
  have hnd := (suggestion_fold s.excludedTenses card s.cards [] List.nodup_nil).1
  have hmem := (suggestion_fold s.excludedTenses card s.cards [] List.nodup_nil).2
  have hsrc : ∀ y, y ∈ s.cards.foldl (suggestionStep s.excludedTenses card) [] ↔
      y ≠ [] ∧ ∃ e ∈ suggestionSources s card, e.2.ending = y := by
    intro y
    rw [hmem y]
    simp only [List.not_mem_nil, false_or]
    constructor
    · rintro ⟨hy, e, he, h1, h2, h3⟩
      refine ⟨hy, e, ?_, h3⟩
      unfold suggestionSources
      rw [List.mem_filter]
      exact ⟨he, by simp [h1, h2]⟩
    · rintro ⟨hy, e, he, h3⟩
      unfold suggestionSources at he
      rw [List.mem_filter] at he
      have h4 := he.2
      rw [Bool.and_eq_true] at h4
      exact ⟨hy, e, he.1, by simpa using h4.1, h4.2, h3⟩
  by_cases hc : card.ending = []
  · have hE : card.ending.isEmpty = true := by rw [hc]; rfl
    simp only [hE, Bool.not_true, Bool.false_eq_true, if_false]
    rw [hsrc x]
    constructor
    · rintro ⟨hx, h⟩; exact ⟨hx, Or.inr h⟩
    · rintro ⟨hx, h | h⟩
      · rw [hc] at h; exact absurd h hx
      · exact ⟨hx, h⟩
  · have hE : card.ending.isEmpty = false := by
      cases hE2 : card.ending with
      | nil => exact absurd hE2 hc
      | cons a t => rfl
    simp only [hE, Bool.not_false, if_true]
    rw [List.mem_append, hnd.mem_erase_iff, hsrc x, List.mem_singleton]
    constructor
    · rintro (⟨_, hx, h⟩ | h)
      · exact ⟨hx, Or.inr h⟩
      · exact ⟨by rw [h]; exact hc, Or.inl h⟩
    · rintro ⟨hx, h | h⟩
      · exact Or.inr h
      · by_cases hxe : x = card.ending
        · exact Or.inr hxe
        · exact Or.inl ⟨hxe, hx, h⟩

/-- C12. For every engine state, every card and every sequence of shuffle draws, the suggestion
list `_getSuggestionsFor(card)` contains no string twice and does not contain the empty
string. -/
theorem getSuggestionsFor_distinct_nonempty (s : Engine) (w : World) (card : Card) :
    (_getSuggestionsFor s w card).1.Nodup ∧ [] ∉ (_getSuggestionsFor s w card).1 := by
  refine ⟨getSuggestionsFor_nodup s w card, ?_⟩
  intro h
  exact ((getSuggestionsFor_mem s w card []).mp h).1 rfl

/-- C13 as stated fails in both directions.  The registered card `hablo` has the empty ending
and shares its tense and verb with itself, yet the list of its suggestions does not contain
its ending; and in an engine without cards the list for the card `habl[o]` contains its ending
although no registered card shares its tense and grouping. -/
theorem own_ending_not_iff_shared :
    plainEngine.cards = [("hablar::pres::yo".toList, plainRegistered)] ∧
    ¬ (plainRegistered.ending ∈ (_getSuggestionsFor plainEngine fixedWorld plainRegistered).1 ↔
        ∃ e ∈ plainEngine.cards, _isExcluded plainEngine.excludedTenses e.2.tenseId = false ∧
          sharesGroup plainRegistered e.2 = true) ∧
    ¬ (hablarRegistered.ending ∈
          (_getSuggestionsFor (Engine.new none) fixedWorld hablarRegistered).1 ↔
        ∃ e ∈ (Engine.new none).cards,
          _isExcluded (Engine.new none).excludedTenses e.2.tenseId = false ∧
          sharesGroup hablarRegistered e.2 = true) := by
  decide

/-- C13, amended. For every engine state and every card, the suggestion list contains the
card's own ending exactly when that ending is not empty, whether or not a registered card
shares its tense id and grouping.  A registered card of a non-excluded tense shares them with
itself, so for such a card with a non-empty ending both hold: a card shares its tense id and
grouping, and the list contains its ending. -/
theorem own_ending_iff_nonempty (s : Engine) (w : World) (card : Card) :
    (card.ending ∈ (_getSuggestionsFor s w card).1 ↔ card.ending ≠ []) ∧
    ((∃ e ∈ s.cards, e.2 = card) → _isExcluded s.excludedTenses card.tenseId = false →
      card.ending ≠ [] →
      (∃ e ∈ s.cards, _isExcluded s.excludedTenses e.2.tenseId = false ∧
        sharesGroup card e.2 = true) ∧
      card.ending ∈ (_getSuggestionsFor s w card).1) := by
  have h1 : card.ending ∈ (_getSuggestionsFor s w card).1 ↔ card.ending ≠ [] := by
    rw [getSuggestionsFor_mem]
    exact ⟨fun h => h.1, fun h => ⟨h, Or.inl rfl⟩⟩
  refine ⟨h1, ?_⟩
  rintro ⟨e, he, hec⟩ hex hne
  refine ⟨⟨e, he, by rw [hec]; exact hex, ?_⟩, h1.mpr hne⟩
  rw [hec]
  unfold sharesGroup
  by_cases hf : card.verbFamily.isEmpty = true
  · simp [hf]
  · simp [hf]

/-- Witness of C13 (amended): the card `habl[o]` in the engine that registered it. -/
theorem own_ending_iff_nonempty_witness :
    (∃ e ∈ restartedHablar.cards, e.2 = hablarRegistered) ∧
    _isExcluded restartedHablar.excludedTenses hablarRegistered.tenseId = false ∧
    hablarRegistered.ending ≠ [] ∧
    hablarRegistered.ending ∈
      (_getSuggestionsFor restartedHablar fixedWorld hablarRegistered).1 :=
  ⟨by decide, by decide, by decide,
   ((own_ending_iff_nonempty restartedHablar fixedWorld hablarRegistered).2 (by decide)
      (by decide) (by decide)).2⟩

/-! ## C17: the state right after a registration -/

theorem registerCard_fold_has :
    ∀ (l : List Card) (acc : List (Str × Card) × List (Str × Stat) × World) (c : Card),
      c ∈ l → (lookup (l.foldl registerCard acc).2.1 c.cardId).isSome = true := by
  intro l
  induction l with
  | nil => intro acc c hc; cases hc
  | cons a l ih =>
    intro acc c hc
    rw [List.foldl_cons]
    rcases List.mem_cons.mp hc with h | h
    · subst h
      have h1 : lookup (registerCard acc c).2.1 c.cardId =
          some (_ensureStat acc.2.1 acc.2.2 c.cardId).1 := ensureStat_lookup_self _ _ _
      rw [registerCard_fold_keeps l _ _ _ h1]
      rfl
    · exact ih _ c h

theorem registerVerbData_session_reset (P : Platform) (s : Engine) (w : World) (verbId : Str)
    (data : VerbData) (h : verbId ≠ []) :
    (registerVerbData P s w verbId (some data)).1.session =
      { queue := [], lastVerbId := none, currentCardId := none } := by
  have hv : verbId.isEmpty = false := by
    cases verbId with
    | nil => exact absurd rfl h
    | cons a l => rfl
  unfold registerVerbData
  simp only [hv, Bool.false_eq_true, if_false, resetSessionQueue]

/-- C17. Right after `registerVerbData(verbId, data)` with a non-empty verb id and data, every
key of the statistics is the id of a registered card, every card derived from the data is
registered under its id and has a stat, and the session queue is empty with `lastVerbId` and
`currentCardId` null. -/
theorem registerVerbData_postcondition (P : Platform) (s : Engine) (w : World) (verbId : Str)
    (data : VerbData) (hverb : verbId ≠ []) :
    (∀ e ∈ (registerVerbData P s w verbId (some data)).1.stats,
      hasKey (registerVerbData P s w verbId (some data)).1.cards e.1 = true) ∧
    (∀ c ∈ verbCards P verbId data,
      hasKey (registerVerbData P s w verbId (some data)).1.cards c.cardId = true ∧
      (lookup (registerVerbData P s w verbId (some data)).1.stats c.cardId).isSome = true) ∧
    (registerVerbData P s w verbId (some data)).1.session.queue = [] ∧
    (registerVerbData P s w verbId (some data)).1.session.lastVerbId = none ∧
    (registerVerbData P s w verbId (some data)).1.session.currentCardId = none := by
  obtain ⟨hc, hs⟩ := registerVerbData_eq P s w verbId data hverb
  have hsess := registerVerbData_session_reset P s w verbId data hverb
  refine ⟨?_, ?_, by rw [hsess], by rw [hsess], by rw [hsess]⟩
  · intro e he
    rw [hs] at he
    rw [hc]
    exact (List.mem_filter.mp he).2
  · intro c hcard
    have hkey : hasKey (upsertCards s.cards (verbCards P verbId data)) c.cardId = true := by
      rw [hasKey_upsertCards]
      have : (verbCards P verbId data).any (fun c2 => c2.cardId == c.cardId) = true :=
        List.any_eq_true.mpr ⟨c, hcard, by simp⟩
      rw [this, Bool.or_true]
    refine ⟨by rw [hc]; exact hkey, ?_⟩
    rw [hs, lookup_filter_key (fun k2 => hasKey (upsertCards s.cards
      (verbCards P verbId data)) k2), if_pos hkey]
    exact registerCard_fold_has _ _ c hcard

/-- Witness of C17: the registration of `hablar` after a restart. -/
theorem registerVerbData_postcondition_witness :
    (∀ e ∈ restartedHablar.stats, hasKey restartedHablar.cards e.1 = true) ∧
    (∀ c ∈ verbCards asciiPlatform "hablar".toList hablarData,
      hasKey restartedHablar.cards c.cardId = true ∧
      (lookup restartedHablar.stats c.cardId).isSome = true) ∧
    restartedHablar.session.queue = [] ∧
    restartedHablar.session.lastVerbId = none ∧
    restartedHablar.session.currentCardId = none :=
  registerVerbData_postcondition asciiPlatform (Engine.new (some twoVerbStorage)) fixedWorld
    "hablar".toList hablarData (by decide)

/-! ## C16: the summary after a reset -/

theorem summaryStep_constant_clock (ex : List Str) (now t : Nat) (clock : Nat → Nat)
    (hclock : ∀ k, clock k = t) (acc : SummaryAcc) (e : Str × Card)
    (h : acc.world.clock = clock ∧ AllStats (fun st => st.due = t) acc.stats) :
    (summaryStep ex now acc e).world.clock = clock ∧
      AllStats (fun st => st.due = t) (summaryStep ex now acc e).stats := by
  unfold summaryStep
  split
  · exact h
  · dsimp only
    unfold _ensureStat
    cases hl : lookup acc.stats e.1 with
    | some st => exact h
    | none =>
      refine ⟨h.1, ?_⟩
      apply allStats_setKey _ _ _ _ h.2
      show (dateNow acc.world).1 = t
      unfold dateNow
      rw [h.1]
      exact hclock _

theorem statOf_of_allStats (p : Stat → Prop) (stats : List (Str × Stat)) (k : Str)
    (h : AllStats p stats) (hk : (lookup stats k).isSome = true) : p (statOf stats k) := by
  obtain ⟨st, hst⟩ := Option.isSome_iff_exists.mp hk
  unfold statOf
  rw [hst]
  exact h _ (mem_of_lookup _ _ _ hst)

theorem getSummary_has_stats (s : Engine) (w : World) :
    ∀ e ∈ eligibleCards s, (lookup (getSummary s w).2.1.stats e.1).isSome = true :=
  (summary_fold s.excludedTenses (dateNow w).1 s.cards
    { stats := s.stats, world := (dateNow w).2, total := 0, dueCount := 0, correct := 0,
      incorrect := 0 }).2.1

theorem getSummary_dueCount (s : Engine) (w : World) :
    (getSummary s w).1.dueCount = ((eligibleCards s).filter (fun e =>
      decide ((statOf (getSummary s w).2.1.stats e.1).due ≤ (dateNow w).1))).length := by
  have h := (summary_fold s.excludedTenses (dateNow w).1 s.cards
    { stats := s.stats, world := (dateNow w).2, total := 0, dueCount := 0, correct := 0,
      incorrect := 0 }).2.2.2.1
  simp only [Nat.zero_add] at h
  exact h

theorem getSummary_accuracy_none (s : Engine) (w : World)
    (h : ∀ e ∈ eligibleCards s, (statOf (getSummary s w).2.1.stats e.1).correct = 0 ∧
      (statOf (getSummary s w).2.1.stats e.1).incorrect = 0) :
    (getSummary s w).1.accuracy = none := by
  obtain ⟨_, _, _, _, h5, h6⟩ := summary_fold s.excludedTenses (dateNow w).1 s.cards
    { stats := s.stats, world := (dateNow w).2, total := 0, dueCount := 0, correct := 0,
      incorrect := 0 }
  simp only [Nat.zero_add] at h5 h6
  have h5b : (s.cards.foldl (summaryStep s.excludedTenses (dateNow w).1)
      { stats := s.stats, world := (dateNow w).2, total := 0, dueCount := 0, correct := 0,
        incorrect := 0 }).correct =
      ((eligibleCards s).map (fun e =>
        (statOf (getSummary s w).2.1.stats e.1).correct)).sum := h5
  have h6b : (s.cards.foldl (summaryStep s.excludedTenses (dateNow w).1)
      { stats := s.stats, world := (dateNow w).2, total := 0, dueCount := 0, correct := 0,
        incorrect := 0 }).incorrect =
      ((eligibleCards s).map (fun e =>
        (statOf (getSummary s w).2.1.stats e.1).incorrect)).sum := h6
  have hc : ((eligibleCards s).map (fun e =>
      (statOf (getSummary s w).2.1.stats e.1).correct)).sum = 0 := by
    apply List.sum_eq_zero
    intro x hx
    obtain ⟨e, he, hxe⟩ := List.mem_map.mp hx
    rw [← hxe]
    exact (h e he).1
  have hi : ((eligibleCards s).map (fun e =>
      (statOf (getSummary s w).2.1.stats e.1).incorrect)).sum = 0 := by
    apply List.sum_eq_zero
    intro x hx
    obtain ⟨e, he, hxe⟩ := List.mem_map.mp hx
    rw [← hxe]
    exact (h e he).2
  rw [hc] at h5b
  rw [hi] at h6b
  show (if _ = 0 then none else some _) = none
  rw [if_pos]
  rw [h5b, h6b]

/-- C16, evaluation. After `resetStats()` the statistics are empty, the session is reset and
the stored item is removed, and the next `getSummary()` returns null as accuracy.  With a
clock that returns the same value at every reading, `dueCount` equals `totalCount`.  With the
clock of `fixedWorld`, which advances by one millisecond between the reading at the start of
`getSummary` and the reading that `_ensureStat` makes for the fresh stat, the one registered
card is counted in `totalCount` and not in `dueCount`. -/
theorem resetStats_summary_clock_tick :
    (∀ s : Engine, (resetStats s).stats = [] ∧
      (resetStats s).session = { queue := [], lastVerbId := none, currentCardId := none }) ∧
    (∀ (s : Engine) (w : World), (getSummary (resetStats s) w).1.accuracy = none) ∧
    (∀ (s : Engine) (t r d : Nat) (rand : Nat → Nat),
      (getSummary (resetStats s)
          { clock := fun _ => t, rand := rand, reads := r, draws := d }).1.dueCount =
        (getSummary (resetStats s)
          { clock := fun _ => t, rand := rand, reads := r, draws := d }).1.totalCount) ∧
    (getSummary (resetStats restartedHablar) fixedWorld).1.totalCount = 1 ∧
    (getSummary (resetStats restartedHablar) fixedWorld).1.dueCount = 0 ∧
    lookup (getSummary (resetStats restartedHablar) fixedWorld).2.1.stats
      "hablar::pres::yo".toList = some (freshStat 1001) := by
  refine ⟨fun s => ⟨rfl, rfl⟩, ?_, ?_, by decide, by decide, by decide⟩
  · intro s w
    have hall : AllStats (fun st => st.correct = 0 ∧ st.incorrect = 0)
        (getSummary (resetStats s) w).2.1.stats :=
      allStats_getSummary _ (fun _ => ⟨rfl, rfl⟩) (resetStats s) w
        (fun e he => by cases he)
    apply getSummary_accuracy_none
    intro e he
    exact statOf_of_allStats _ _ _ hall (getSummary_has_stats _ w e he)
  · intro s t r d rand
    have hinv := foldl_preserves
      (fun (acc : SummaryAcc) => acc.world.clock = (fun _ => t) ∧
        AllStats (fun st => st.due = t) acc.stats) _
      (fun acc e hacc => summaryStep_constant_clock (resetStats s).excludedTenses t t
        (fun _ => t) (fun _ => rfl) acc e hacc)
      (resetStats s).cards
      { stats := (resetStats s).stats,
        world := (dateNow { clock := fun _ => t, rand := rand, reads := r, draws := d }).2,
        total := 0, dueCount := 0, correct := 0, incorrect := 0 }
      ⟨rfl, fun e he => by cases he⟩
    have hall : AllStats (fun st => st.due = t)
        (getSummary (resetStats s)
          { clock := fun _ => t, rand := rand, reads := r, draws := d }).2.1.stats := hinv.2
    rw [getSummary_dueCount, getSummary_totalCount]
    congr 1
    rw [List.filter_eq_self]
    intro e he
    have := statOf_of_allStats _ _ _ hall (getSummary_has_stats _ _ e he)
    simp only [decide_eq_true_eq]
    exact Nat.le_of_eq this

/-! ## C15: a correct answer postpones the due time -/

theorem later_refl (w : World) : Later w w := ⟨rfl, Nat.le_refl _⟩

theorem later_trans {w1 w2 w3 : World} (h1 : Later w1 w2) (h2 : Later w2 w3) : Later w1 w3 :=
  ⟨h2.1.trans h1.1, Nat.le_trans h1.2 h2.2⟩

theorem dueOk_later (stats : List (Str × Stat)) (w w2 : World) (hmono : Monotone w.clock)
    (hl : Later w w2) (h : DueOk stats w) : DueOk stats w2 := by
  intro e he
  refine ⟨(h e he).1, ?_⟩
  have h1 := (h e he).2
  have h2 : w.clock w.reads ≤ w2.clock w2.reads := by
    rw [hl.1]
    exact hmono hl.2
  omega

theorem dateNow_later (w : World) : Later w (dateNow w).2 :=
  ⟨rfl, Nat.le_succ _⟩

theorem ensureStat_later (stats : List (Str × Stat)) (w : World) (cardId : Str) :
    Later w (_ensureStat stats w cardId).2.2 := by
  rw [ensureStat_world]
  split
  · exact later_refl w
  · exact ⟨rfl, Nat.le_succ _⟩

theorem dueOk_ensureStat (stats : List (Str × Stat)) (w : World) (cardId : Str)
    (hmono : Monotone w.clock) (h : DueOk stats w) :
    DueOk (_ensureStat stats w cardId).2.1 (_ensureStat stats w cardId).2.2 := by
  unfold _ensureStat
  cases hl : lookup stats cardId with
  | some st => exact h
  | none =>
    intro e he
    rcases mem_setKey _ _ _ _ he with h1 | h1
    · exact dueOk_later stats w _ hmono (dateNow_later w) h e h1
    · rw [h1]
      refine ⟨Nat.zero_le _, ?_⟩
      show w.clock w.reads ≤ w.clock (w.reads + 1) + _
      have hle : w.clock w.reads ≤ w.clock (w.reads + 1) := hmono (Nat.le_succ w.reads)
      exact Nat.le_trans hle (Nat.le_add_right _ _)

theorem shuffleLoop_later {α : Type} :
    ∀ (i : Nat) (array : List α) (w : World), Later w (shuffleLoop i array w).2 := by
  intro i
  induction i with
  | zero => intro array w; exact later_refl w
  | succ i ih =>
    intro array w
    unfold shuffleLoop
    exact later_trans ⟨rfl, Nat.le_refl _⟩ (ih _ _)

theorem shuffle_later {α : Type} (list : List α) (w : World) : Later w (shuffle list w).2 :=
  shuffleLoop_later _ _ _

theorem monotone_of_later {w w2 : World} (hl : Later w w2) (hmono : Monotone w.clock) :
    Monotone w2.clock := by
  rw [hl.1]; exact hmono

theorem dueOk_registerCard (w0 : World) (hmono : Monotone w0.clock)
    (acc : List (Str × Card) × List (Str × Stat) × World) (card : Card)
    (h : Later w0 acc.2.2 ∧ DueOk acc.2.1 acc.2.2) :
    Later w0 (registerCard acc card).2.2 ∧
      DueOk (registerCard acc card).2.1 (registerCard acc card).2.2 :=
  ⟨later_trans h.1 (ensureStat_later _ _ _),
    dueOk_ensureStat _ _ _ (monotone_of_later h.1 hmono) h.2⟩

theorem dueOk_registerVerbData (P : Platform) (s : Engine) (w : World) (verbId : Str)
    (verbData : Option VerbData) (hmono : Monotone w.clock) (h : DueOk s.stats w) :
    Later w (registerVerbData P s w verbId verbData).2 ∧
      DueOk (registerVerbData P s w verbId verbData).1.stats
        (registerVerbData P s w verbId verbData).2 := by
  by_cases hd : verbId = [] ∨ verbData = none
  · rw [registerVerbData_noop P s w verbId verbData hd]
    exact ⟨later_refl w, h⟩
  · cases verbData with
    | none => exact absurd (Or.inr rfl) hd
    | some data =>
      have hv : verbId ≠ [] := fun h2 => hd (Or.inl h2)
      have hv2 : verbId.isEmpty = false := by
        cases verbId with
        | nil => exact absurd rfl hv
        | cons a l => rfl
      have hfold := foldl_preserves
        (fun (acc : List (Str × Card) × List (Str × Stat) × World) =>
          Later w acc.2.2 ∧ DueOk acc.2.1 acc.2.2) registerCard
        (fun acc c hacc => dueOk_registerCard w hmono acc c hacc)
        (verbCards P verbId data) (s.cards, s.stats, w) ⟨later_refl w, h⟩
      have hw : (registerVerbData P s w verbId (some data)).2 =
          ((verbCards P verbId data).foldl registerCard (s.cards, s.stats, w)).2.2 := by
        unfold registerVerbData
        simp only [hv2, Bool.false_eq_true, if_false, register_fold_eq]
      rw [hw, (registerVerbData_eq P s w verbId data hv).2]
      refine ⟨hfold.1, ?_⟩
      intro e he
      exact hfold.2 e (List.mem_filter.mp he).1

theorem dueOk_summaryStep (w0 : World) (hmono : Monotone w0.clock) (ex : List Str) (now : Nat)
    (acc : SummaryAcc) (e : Str × Card) (h : Later w0 acc.world ∧ DueOk acc.stats acc.world) :
    Later w0 (summaryStep ex now acc e).world ∧
      DueOk (summaryStep ex now acc e).stats (summaryStep ex now acc e).world := by
  unfold summaryStep
  split
  · exact h
  · exact ⟨later_trans h.1 (ensureStat_later _ _ _),
      dueOk_ensureStat _ _ _ (monotone_of_later h.1 hmono) h.2⟩

theorem dueOk_getSummary (s : Engine) (w : World) (hmono : Monotone w.clock)
    (h : DueOk s.stats w) :
    Later w (getSummary s w).2.2 ∧ DueOk (getSummary s w).2.1.stats (getSummary s w).2.2 := by
  unfold getSummary
  exact foldl_preserves
    (fun (acc : SummaryAcc) => Later w acc.world ∧ DueOk acc.stats acc.world) _
    (fun acc e hacc => dueOk_summaryStep w hmono _ _ acc e hacc) _ _
    ⟨dateNow_later w, dueOk_later _ _ _ hmono (dateNow_later w) h⟩

theorem dueOk_candidateStep (w0 : World) (hmono : Monotone w0.clock) (ex : List Str)
    (acc : List Candidate × List (Str × Stat) × World) (e : Str × Card)
    (h : Later w0 acc.2.2 ∧ DueOk acc.2.1 acc.2.2) :
    Later w0 (candidateStep ex acc e).2.2 ∧
      DueOk (candidateStep ex acc e).2.1 (candidateStep ex acc e).2.2 := by
  unfold candidateStep
  split
  · exact h
  · exact ⟨later_trans h.1 (ensureStat_later _ _ _),
      dueOk_ensureStat _ _ _ (monotone_of_later h.1 hmono) h.2⟩

theorem dueOk_refillQueue (s : Engine) (w : World) (hmono : Monotone w.clock)
    (h : DueOk s.stats w) :
    Later w (_refillQueue s w).2 ∧ DueOk (_refillQueue s w).1.stats (_refillQueue s w).2 := by
  have hfold := foldl_preserves
    (fun (acc : List Candidate × List (Str × Stat) × World) =>
      Later w acc.2.2 ∧ DueOk acc.2.1 acc.2.2) (candidateStep s.excludedTenses)
    (fun acc e hacc => dueOk_candidateStep w hmono _ acc e hacc) s.cards
    ([], s.stats, (dateNow w).2)
    ⟨dateNow_later w, dueOk_later _ _ _ hmono (dateNow_later w) h⟩
  rw [refillQueue_stats]
  unfold _refillQueue
  dsimp only
  split
  · exact hfold
  · have hl := shuffle_later
      (choosePool (dateNow w).1
        (s.cards.foldl (candidateStep s.excludedTenses) ([], s.stats, (dateNow w).2)).1)
      (s.cards.foldl (candidateStep s.excludedTenses) ([], s.stats, (dateNow w).2)).2.2
    exact ⟨later_trans hfold.1 hl,
      dueOk_later _ _ _ (monotone_of_later hfold.1 hmono) hl hfold.2⟩

theorem dueOk_getNextCard (s : Engine) (w : World) (hmono : Monotone w.clock)
    (h : DueOk s.stats w) :
    Later w (getNextCard s w).2.2 ∧
      DueOk (getNextCard s w).2.1.stats (getNextCard s w).2.2 := by
  unfold getNextCard
  split
  · exact ⟨later_refl w, h⟩
  · have h1 : Later w (if s.session.queue.isEmpty = true then _refillQueue s w else (s, w)).2 ∧
        DueOk (if s.session.queue.isEmpty = true then _refillQueue s w else (s, w)).1.stats
          (if s.session.queue.isEmpty = true then _refillQueue s w else (s, w)).2 := by
      split
      · exact dueOk_refillQueue s w hmono h
      · exact ⟨later_refl w, h⟩
    dsimp only
    split
    · exact h1
    · have h2 := ensureStat_later
        (if s.session.queue.isEmpty = true then _refillQueue s w else (s, w)).1.stats
        (if s.session.queue.isEmpty = true then _refillQueue s w else (s, w)).2
      rename_i next rest _
      have h3 := dueOk_ensureStat
        (if s.session.queue.isEmpty = true then _refillQueue s w else (s, w)).1.stats
        (if s.session.queue.isEmpty = true then _refillQueue s w else (s, w)).2 next.cardId
        (monotone_of_later h1.1 hmono) h1.2
      have h4 := later_trans h1.1 (h2 next.cardId)
      unfold _getSuggestionsFor
      dsimp only
      exact ⟨later_trans h4 (shuffle_later _ _),
        dueOk_later _ _ _ (monotone_of_later h4 hmono) (shuffle_later _ _) h3⟩

theorem answeredStat_stage_le (st : Stat) (now : Nat) (b : Bool) :
    (answeredStat st now b).stage ≤ INTERVALS.length - 1 := by
  cases b
  · exact Nat.zero_le _
  · exact Nat.min_le_right _ _

theorem answeredStat_due_le (st : Stat) (now : Nat) (b : Bool) :
    (answeredStat st now b).due = now + stageBound (answeredStat st now b).stage := by
  cases b
  · rfl
  · show now + INTERVALS.getD (min (st.stage + 1) (INTERVALS.length - 1)) 0 =
      now + stageBound (min (st.stage + 1) (INTERVALS.length - 1))
    have hpos : min (st.stage + 1) (INTERVALS.length - 1) ≠ 0 := by
      have : INTERVALS.length - 1 = 5 := by decide
      rw [this]
      omega
    unfold stageBound
    rw [if_neg hpos]

theorem dueOk_recordAnswer (s : Engine) (w : World) (cardId : Str) (isCorrect : Bool)
    (hmono : Monotone w.clock) (h : DueOk s.stats w) :
    Later w (recordAnswer s w cardId isCorrect).2 ∧
      DueOk (recordAnswer s w cardId isCorrect).1.stats
        (recordAnswer s w cardId isCorrect).2 := by
  have h1 := ensureStat_later s.stats w cardId
  have h2 := dueOk_ensureStat s.stats w cardId hmono h
  have h3 := dateNow_later (_ensureStat s.stats w cardId).2.2
  have hm := monotone_of_later h1 hmono
  refine ⟨later_trans h1 h3, ?_⟩
  intro e he
  have he2 : e ∈ setKey (_ensureStat s.stats w cardId).2.1 cardId
      (answeredStat (_ensureStat s.stats w cardId).1
        (dateNow (_ensureStat s.stats w cardId).2.2).1 isCorrect) := he
  rcases mem_setKey _ _ _ _ he2 with h4 | h4
  · exact dueOk_later _ _ _ hm h3 h2 e h4
  · rw [h4]
    refine ⟨answeredStat_stage_le _ _ _, ?_⟩
    show (answeredStat _ _ _).due ≤ _
    rw [answeredStat_due_le]
    apply Nat.add_le_add_right
    exact hm (Nat.le_succ _)

theorem reachableAt_dueOk (P : Platform) (stored : Option (List (Str × Stat)))
    (hempty : _loadStats stored = []) (s : Engine) (w : World)
    (h : ReachableAt P stored s w) : Monotone w.clock → DueOk s.stats w := by
  induction h with
  | new w =>
    intro _ e he
    have : (Engine.new stored).stats = [] := hempty
    rw [this] at he
    cases he
  | registerVerbData h verbId verbData ih =>
    rename_i s0 w0
    intro hmono
    have hl0 : (registerVerbData P s0 w0 verbId verbData).2.clock = w0.clock := by
      by_cases hd : verbId = [] ∨ verbData = none
      · rw [registerVerbData_noop P s0 w0 verbId verbData hd]
      · cases verbData with
        | none => exact absurd (Or.inr rfl) hd
        | some data =>
          have hv2 : verbId.isEmpty = false := by
            cases verbId with
            | nil => exact absurd (Or.inl rfl) hd
            | cons a l => rfl
          have hfold := foldl_preserves
            (fun (acc : List (Str × Card) × List (Str × Stat) × World) =>
              acc.2.2.clock = w0.clock) registerCard
            (fun acc c hacc => (ensureStat_later _ _ _).1.trans hacc)
            (verbCards P verbId data) (s0.cards, s0.stats, w0) rfl
          unfold registerVerbData
          simp only [hv2, Bool.false_eq_true, if_false, register_fold_eq]
          exact hfold
    have hm0 : Monotone w0.clock := by rw [← hl0]; exact hmono
    exact (dueOk_registerVerbData P s0 w0 verbId verbData hm0 (ih hm0)).2
  | setExcludedTenses h excluded ih => intro hmono; exact ih hmono
  | getNextCard h ih =>
    rename_i s0 w0
    intro hmono
    have hl0 : (getNextCard s0 w0).2.2.clock = w0.clock := by
      unfold getNextCard
      split
      · rfl
      · have h1 : (if s0.session.queue.isEmpty = true then _refillQueue s0 w0
            else (s0, w0)).2.clock = w0.clock := by
          split
          · unfold _refillQueue
            have hfold := foldl_preserves
              (fun (acc : List Candidate × List (Str × Stat) × World) =>
                acc.2.2.clock = w0.clock) (candidateStep s0.excludedTenses)
              (fun acc e hacc => by
                unfold candidateStep
                split
                · exact hacc
                · exact (ensureStat_later _ _ _).1.trans hacc) s0.cards
              ([], s0.stats, (dateNow w0).2) rfl
            dsimp only
            split
            · exact hfold
            · exact (shuffle_later _ _).1.trans hfold
          · rfl
        dsimp only
        split
        · exact h1
        · unfold _getSuggestionsFor
          dsimp only
          exact ((shuffle_later _ _).1.trans (ensureStat_later _ _ _).1).trans h1
    have hm0 : Monotone w0.clock := by rw [← hl0]; exact hmono
    exact (dueOk_getNextCard s0 w0 hm0 (ih hm0)).2
  | recordAnswer h cardId isCorrect ih =>
    rename_i s0 w0
    intro hmono
    have hl0 : (recordAnswer s0 w0 cardId isCorrect).2.clock = w0.clock :=
      (ensureStat_later s0.stats w0 cardId).1
    have hm0 : Monotone w0.clock := by rw [← hl0]; exact hmono
    exact (dueOk_recordAnswer s0 w0 cardId isCorrect hm0 (ih hm0)).2
  | getSummary h ih =>
    rename_i s0 w0
    intro hmono
    have hl0 : (getSummary s0 w0).2.2.clock = w0.clock := by
      unfold getSummary
      exact foldl_preserves (fun (acc : SummaryAcc) => acc.world.clock = w0.clock) _
        (fun acc e hacc => by
          unfold summaryStep
          split
          · exact hacc
          · exact (ensureStat_later _ _ _).1.trans hacc) _ _ rfl
    have hm0 : Monotone w0.clock := by rw [← hl0]; exact hmono
    exact (dueOk_getSummary s0 w0 hm0 (ih hm0)).2
  | resetSessionQueue h ih => intro hmono; exact ih hmono
  | resetStats h ih =>
    intro _ e he
    cases he
  | elapse h readings drawn ih =>
    rename_i s0 w0
    intro hmono
    exact dueOk_later _ w0 _ hmono ⟨rfl, Nat.le_add_right _ _⟩ (ih hmono)

theorem ladder_step (k d now : Nat) (hk : k ≤ INTERVALS.length - 1)
    (hd : d ≤ now + stageBound k) :
    now < now + INTERVALS.getD (min (k + 1) (INTERVALS.length - 1)) 0 ∧
    d ≤ now + INTERVALS.getD (min (k + 1) (INTERVALS.length - 1)) 0 ∧
    (k ≠ 5 → d < now + INTERVALS.getD (min (k + 1) (INTERVALS.length - 1)) 0) := by
  have hlen : INTERVALS.length - 1 = 5 := by decide
  rw [hlen] at hk ⊢
  interval_cases k <;> simp [stageBound, INTERVALS, RETRY_INTERVAL] at hd ⊢ <;> omega

/-- C15. In every state reachable from empty statistics, under a non-decreasing clock,
`recordAnswer(cardId, true)` at time `now` (its reading of the clock) leaves the card with a
due time that is greater than `now`, not smaller than the due time the card had before the
update, and greater than it unless the card was at the top stage 5;
`recordAnswer(cardId, false)` leaves the card with stage 0 and streak 0. -/
theorem correct_answer_postpones_due (P : Platform) (stored : Option (List (Str × Stat)))
    (hempty : _loadStats stored = []) (s : Engine) (w : World)
    (h : ReachableAt P stored s w) (hmono : Monotone w.clock) (cardId : Str) :
    (∃ st, lookup (recordAnswer s w cardId true).1.stats cardId = some st ∧
      (if (lookup s.stats cardId).isSome then w.clock w.reads else w.clock (w.reads + 1)) <
        st.due ∧
      (statOrFresh s.stats w cardId).due ≤ st.due ∧
      ((statOrFresh s.stats w cardId).stage ≠ 5 →
        (statOrFresh s.stats w cardId).due < st.due)) ∧
    (∃ st, lookup (recordAnswer s w cardId false).1.stats cardId = some st ∧
      st.stage = 0 ∧ st.streak = 0) := by
  have hdue := reachableAt_dueOk P stored hempty s w h hmono
  have h2 := dueOk_ensureStat s.stats w cardId hmono hdue
  have hself := ensureStat_lookup_self s.stats w cardId
  have hold := h2 _ (mem_of_lookup _ _ _ hself)
  rw [ensureStat_fst] at hold
  have hnow : (if (lookup s.stats cardId).isSome then w.clock w.reads
      else w.clock (w.reads + 1)) =
      (_ensureStat s.stats w cardId).2.2.clock (_ensureStat s.stats w cardId).2.2.reads := by
    rw [ensureStat_world]
    split <;> rfl
  constructor
  · refine ⟨answeredStat (_ensureStat s.stats w cardId).1
      (dateNow (_ensureStat s.stats w cardId).2.2).1 true, lookup_setKey_self _ _ _, ?_⟩
    rw [hnow]
    have hstep := ladder_step _ _ _ hold.1 hold.2
    rw [← ensureStat_fst s.stats w cardId] at hstep ⊢
    exact hstep
  · exact ⟨answeredStat (_ensureStat s.stats w cardId).1
      (dateNow (_ensureStat s.stats w cardId).2.2).1 false, lookup_setKey_self _ _ _, rfl, rfl⟩

/-- Witness of C15: a new engine over an absent item, in the world whose clock advances by one
millisecond at every reading. -/
theorem correct_answer_postpones_due_witness :
    (∃ st, lookup (recordAnswer (Engine.new none) fixedWorld "hablar::pres::yo".toList
        true).1.stats "hablar::pres::yo".toList = some st ∧
      (if (lookup (Engine.new none).stats "hablar::pres::yo".toList).isSome then
          fixedWorld.clock fixedWorld.reads
        else fixedWorld.clock (fixedWorld.reads + 1)) < st.due ∧
      (statOrFresh (Engine.new none).stats fixedWorld "hablar::pres::yo".toList).due ≤ st.due ∧
      ((statOrFresh (Engine.new none).stats fixedWorld "hablar::pres::yo".toList).stage ≠ 5 →
        (statOrFresh (Engine.new none).stats fixedWorld "hablar::pres::yo".toList).due <
          st.due)) ∧
    (∃ st, lookup (recordAnswer (Engine.new none) fixedWorld "hablar::pres::yo".toList
        false).1.stats "hablar::pres::yo".toList = some st ∧ st.stage = 0 ∧ st.streak = 0) :=
  correct_answer_postpones_due asciiPlatform none rfl (Engine.new none) fixedWorld
    (ReachableAt.new fixedWorld) (fun _ _ hab => Nat.add_le_add_left hab 1000)
    "hablar::pres::yo".toList

/-! ## C14: the suggestions attached to the returned card -/

theorem keys_setKey {β : Type} (m : List (Str × β)) (k : Str) (v : β) :
    (setKey m k v).map (fun e => e.1) =
      if hasKey m k = true then m.map (fun e => e.1) else m.map (fun e => e.1) ++ [k] := by
  unfold setKey
  split
  · rw [List.map_map]
    apply List.map_congr_left
    intro e _
    simp only [Function.comp]
    split <;> rfl
  · simp

theorem not_mem_keys_of_not_hasKey {β : Type} (m : List (Str × β)) (k : Str)
    (h : ¬ hasKey m k = true) : k ∉ m.map (fun e => e.1) := by
  intro hk
  obtain ⟨e, he, hek⟩ := List.mem_map.mp hk
  apply h
  rw [← hek]
  exact hasKey_of_mem m e he

theorem nodup_keys_setKey {β : Type} (m : List (Str × β)) (k : Str) (v : β)
    (h : (m.map (fun e => e.1)).Nodup) : ((setKey m k v).map (fun e => e.1)).Nodup := by
  rw [keys_setKey]
  split
  · exact h
  · rename_i hk
    rw [List.nodup_append]
    refine ⟨h, List.nodup_singleton _, ?_⟩
    intro a ha hb
    rw [List.mem_singleton.mp hb] at ha
    exact not_mem_keys_of_not_hasKey m k hk ha

theorem nodup_keys_upsertCards (cards : List (Str × Card)) (l : List Card)
    (h : (cards.map (fun e => e.1)).Nodup) :
    ((upsertCards cards l).map (fun e => e.1)).Nodup := by
  unfold upsertCards
  exact foldl_preserves (fun (m : List (Str × Card)) => (m.map (fun e => e.1)).Nodup) _
    (fun m c hm => nodup_keys_setKey m c.cardId c hm) l cards h

theorem keysNodup_registerVerbData (P : Platform) (s : Engine) (w : World) (verbId : Str)
    (verbData : Option VerbData) (h : KeysNodup s) :
    KeysNodup (registerVerbData P s w verbId verbData).1 := by
  by_cases hd : verbId = [] ∨ verbData = none
  · rw [registerVerbData_noop P s w verbId verbData hd]; exact h
  · cases verbData with
    | none => exact absurd (Or.inr rfl) hd
    | some data =>
      have hv : verbId ≠ [] := fun h2 => hd (Or.inl h2)
      unfold KeysNodup
      rw [(registerVerbData_eq P s w verbId data hv).1]
      exact nodup_keys_upsertCards _ _ h

theorem reachable_keysNodup (P : Platform) (stored : Option (List (Str × Stat))) (s : Engine)
    (h : Reachable P stored s) : KeysNodup s := by
  induction h with
  | new => exact List.nodup_nil
  | registerVerbData _ w verbId verbData ih =>
    exact keysNodup_registerVerbData P _ w verbId verbData ih
  | setExcludedTenses _ excluded ih => exact ih
  | getNextCard _ w ih =>
    unfold KeysNodup
    rw [(getNextCard_frame _ w).1]
    exact ih
  | recordAnswer _ w cardId isCorrect ih => exact ih
  | getSummary _ w ih => exact ih
  | resetSessionQueue _ ih => exact ih
  | resetStats _ ih => exact ih

theorem lookup_of_mem_nodup {β : Type} (m : List (Str × β)) (e : Str × β)
    (h : (m.map (fun e => e.1)).Nodup) (he : e ∈ m) : lookup m e.1 = some e.2 := by
  induction m with
  | nil => cases he
  | cons a m ih =>
    rw [lookup_cons]
    rw [List.map_cons, List.nodup_cons] at h
    rcases List.mem_cons.mp he with h1 | h1
    · rw [h1]; simp
    · have hne : a.1 ≠ e.1 := by
        intro heq
        apply h.1
        rw [heq]
        exact List.mem_map.mpr ⟨e, h1, rfl⟩
      rw [if_neg hne]
      exact ih h.2 h1

theorem getNextCard_some (s : Engine) (w : World) (nc : NextCard)
    (h : (getNextCard s w).1 = some nc) :
    ∃ (next : Card) (rest : List Card) (s2 : Engine) (w2 : World),
      (afterRefill s w).1.session.queue.dropWhile
        (fun c => _isExcluded (afterRefill s w).1.excludedTenses c.tenseId) = next :: rest ∧
      s2.cards = s.cards ∧ s2.excludedTenses = s.excludedTenses ∧
      nc.suggestions = (_getSuggestionsFor s2 w2 next).1 ∧
      nc.cardId = next.cardId ∧ nc.verbId = next.verbId ∧ nc.verbFamily = next.verbFamily ∧
      nc.ending = next.ending ∧ nc.stem = next.stem ∧ nc.tail = next.tail := by
  unfold getNextCard at h
  unfold afterRefill
  split at h
  · cases h
  · dsimp only at h
    split at h
    · cases h
    · rename_i next rest heq
      simp only [Option.some.injEq] at h
      have hf := afterRefill_frame s w
      unfold afterRefill at hf
      subst h
      exact ⟨next, rest, _, _, heq, hf.1, hf.2, rfl, rfl, rfl, rfl, rfl, rfl, rfl⟩

theorem suggestionSources_congr (s s2 : Engine) (card : Card) (h1 : s2.cards = s.cards)
    (h2 : s2.excludedTenses = s.excludedTenses) :
    suggestionSources s2 card = suggestionSources s card := by
  unfold suggestionSources
  rw [h1, h2]

theorem mem_suggestionSources (s : Engine) (card : Card) (e : Str × Card) :
    e ∈ suggestionSources s card ↔
      e ∈ s.cards ∧ _isExcluded s.excludedTenses e.2.tenseId = false ∧
      e.2.tenseId = card.tenseId ∧
      (if card.verbFamily ≠ [] then e.2.verbFamily = card.verbFamily
       else e.2.verbId = card.verbId) := by
  unfold suggestionSources sharesGroup
  rw [List.mem_filter]
  by_cases hf : card.verbFamily = []
  · simp [hf]
  · have hf2 : card.verbFamily.isEmpty = false := by
      cases hE : card.verbFamily with
      | nil => exact absurd hE hf
      | cons a t => rfl
    simp [hf, hf2]

/-- C14. In every reachable state, when `getNextCard()` returns a card, that card is the
registered card with the returned id, its tense is not excluded, and a string is among the
attached suggestions exactly when it is not empty and is the ending of a registered card of a
non-excluded tense that has the tense id of the card and its verb family (when that is not
empty) or its verb id (when it is). -/
theorem getNextCard_suggestions (P : Platform) (stored : Option (List (Str × Stat)))
    (s : Engine) (h : Reachable P stored s) (w : World) (nc : NextCard)
    (hnc : (getNextCard s w).1 = some nc) :
    ∃ c : Card, lookup s.cards nc.cardId = some c ∧
      _isExcluded s.excludedTenses c.tenseId = false ∧
      nc.verbId = c.verbId ∧ nc.verbFamily = c.verbFamily ∧ nc.ending = c.ending ∧
      ∀ x : Str, x ∈ nc.suggestions ↔
        (x ≠ [] ∧ ∃ e ∈ s.cards, _isExcluded s.excludedTenses e.2.tenseId = false ∧
          e.2.tenseId = c.tenseId ∧
          (if c.verbFamily ≠ [] then e.2.verbFamily = c.verbFamily
           else e.2.verbId = c.verbId) ∧
          e.2.ending = x) := by
  obtain ⟨next, rest, s2, w2, hdrop, hc2, hx2, hsug, hid, hverb, hfam, hend, _, _⟩ :=
    getNextCard_some s w nc hnc
  have hq := queueOk_afterRefill s w (reachable_queueOk P stored s h)
  have hmem : next ∈ (afterRefill s w).1.session.queue := by
    have : next ∈ next :: rest := List.mem_cons_self _ _
    rw [← hdrop] at this
    exact (List.dropWhile_sublist _).subset this
  obtain ⟨⟨e, he, hen⟩, hex⟩ := hq next hmem
  rw [(afterRefill_frame s w).1] at he
  rw [(afterRefill_frame s w).2] at hex
  have hkey : e.2.cardId = e.1 := reachable_cardsOk P stored s h e he
  have hlook := lookup_of_mem_nodup s.cards e (reachable_keysNodup P stored s h) he
  refine ⟨next, ?_, hex, hverb, hfam, hend, ?_⟩
  · rw [hid, ← hen, hkey, hlook]
  · intro x
    rw [hsug, getSuggestionsFor_mem, suggestionSources_congr s s2 next hc2 hx2]
    constructor
    · rintro ⟨hx, h1 | ⟨e2, he2, h2⟩⟩
      · refine ⟨hx, e, he, by rw [hen]; exact hex, by rw [hen], ?_, by rw [hen, h1]⟩
        rw [hen]
        split <;> rfl
      · rw [mem_suggestionSources] at he2
        exact ⟨hx, e2, he2.1, he2.2.1, he2.2.2.1, he2.2.2.2, h2⟩
    · rintro ⟨hx, e2, he2, h1, h2, h3, h4⟩
      exact ⟨hx, Or.inr ⟨e2, (mem_suggestionSources s next e2).mpr ⟨he2, h1, h2, h3⟩, h4⟩⟩

/-- Witness of C14: the card returned after a restart and the registration of `hablar`. -/
theorem getNextCard_suggestions_witness :
    ∃ nc, (getNextCard restartedHablar fixedWorld).1 = some nc ∧
      ∃ c : Card, lookup restartedHablar.cards nc.cardId = some c ∧
        _isExcluded restartedHablar.excludedTenses c.tenseId = false ∧
        nc.verbId = c.verbId ∧ nc.verbFamily = c.verbFamily ∧ nc.ending = c.ending ∧
        ∀ x : Str, x ∈ nc.suggestions ↔
          (x ≠ [] ∧ ∃ e ∈ restartedHablar.cards,
            _isExcluded restartedHablar.excludedTenses e.2.tenseId = false ∧
            e.2.tenseId = c.tenseId ∧
            (if c.verbFamily ≠ [] then e.2.verbFamily = c.verbFamily
             else e.2.verbId = c.verbId) ∧
            e.2.ending = x) :=
  ⟨_, rfl, getNextCard_suggestions asciiPlatform (some twoVerbStorage) restartedHablar
    (Reachable.registerVerbData Reachable.new fixedWorld _ _) fixedWorld _ rfl⟩

/-! ## C18: the pool of a rebuilt queue -/

theorem candidateStep_fold_keeps (ex : List Str) :
    ∀ (l : List (Str × Card)) (acc : List Candidate × List (Str × Stat) × World) (k : Str)
      (st : Stat), lookup acc.2.1 k = some st →
      lookup (l.foldl (candidateStep ex) acc).2.1 k = some st := by
  intro l
  induction l with
  | nil => intro acc k st h; exact h
  | cons e l ih =>
    intro acc k st h
    rw [List.foldl_cons]
    apply ih
    unfold candidateStep
    split
    · exact h
    · exact ensureStat_keeps _ _ _ _ _ h

theorem candidates_full (ex : List Str) :
    ∀ (l : List (Str × Card)) (acc : List Candidate × List (Str × Stat) × World),
      (l.foldl (candidateStep ex) acc).1 =
        acc.1 ++ (l.filter (fun e => !_isExcluded ex e.2.tenseId)).map
          (candidateOf (l.foldl (candidateStep ex) acc).2.1) := by
  intro l
  induction l with
  | nil => intro acc; simp
  | cons e l ih =>
    intro acc
    rw [List.foldl_cons, ih]
    by_cases hex : _isExcluded ex e.2.tenseId = true
    · have hstep : candidateStep ex acc e = acc := by simp [candidateStep, hex]
      rw [hstep]
      simp [List.filter_cons, hex]
    · have hex2 : _isExcluded ex e.2.tenseId = false := by simpa using hex
      have hself : lookup (candidateStep ex acc e).2.1 e.1 =
          some (_ensureStat acc.2.1 acc.2.2 e.1).1 := by
        simp only [candidateStep, hex2]
        exact ensureStat_lookup_self _ _ _
      have hfinal := candidateStep_fold_keeps ex l _ _ _ hself
      have hstat : statOf (l.foldl (candidateStep ex) (candidateStep ex acc e)).2.1 e.1 =
          (_ensureStat acc.2.1 acc.2.2 e.1).1 := by
        simp [statOf, hfinal]
      have hfst : (candidateStep ex acc e).1 =
          acc.1 ++ [candidateOf (l.foldl (candidateStep ex) (candidateStep ex acc e)).2.1 e] := by
        unfold candidateOf
        rw [hstat]
        simp [candidateStep, hex2]
      rw [hfst, List.filter_cons]
      simp [hex2]

theorem refillCandidates_eq (s : Engine) (w : World) :
    refillCandidates s w = (eligibleCards s).map (candidateOf (_refillQueue s w).1.stats) := by
  rw [refillQueue_stats]
  unfold refillCandidates eligibleCards
  rw [candidates_full]
  rfl

theorem choosePool_nil (now : Nat) : choosePool now [] = [] := rfl

theorem refillQueue_queue_perm (s : Engine) (w : World) :
    ∃ pool : List Candidate, pool.Perm (refillPool s w) ∧
      (_refillQueue s w).1.session.queue = buildQueue s.session.lastVerbId pool := by
  unfold _refillQueue refillPool refillCandidates
  dsimp only
  split
  · rename_i hemp
    rw [List.isEmpty_iff.mp hemp]
    exact ⟨[], List.Perm.refl _, rfl⟩
  · exact ⟨_, shuffle_perm _ _, rfl⟩

theorem sorted_take_count (l : List Candidate) (n : Nat) (x : Candidate)
    (hx : x ∈ (l.insertionSort (fun a b => a.stat.due ≤ b.stat.due)).take n) :
    (l.filter (fun y => decide (y.stat.due < x.stat.due))).length < n := by
  have hperm := List.perm_insertionSort (fun a b : Candidate => a.stat.due ≤ b.stat.due) l
  haveI : IsTotal Candidate (fun a b => a.stat.due ≤ b.stat.due) :=
    ⟨fun a b => Nat.le_total a.stat.due b.stat.due⟩
  haveI : IsTrans Candidate (fun a b => a.stat.due ≤ b.stat.due) :=
    ⟨fun _ _ _ hab hbc => Nat.le_trans hab hbc⟩
  have hsorted := List.sorted_insertionSort (fun a b : Candidate => a.stat.due ≤ b.stat.due) l
  rw [← (hperm.filter _).length_eq]
  generalize l.insertionSort (fun a b => a.stat.due ≤ b.stat.due) = srt at hx hsorted
  have hsplit := List.take_append_drop n srt
  rw [← hsplit, List.filter_append]
  have hpair : ∀ a ∈ srt.take n, ∀ b ∈ srt.drop n, a.stat.due ≤ b.stat.due := by
    unfold List.Sorted at hsorted
    rw [← hsplit, List.pairwise_append] at hsorted
    exact hsorted.2.2
  have hdrop : (srt.drop n).filter (fun y => decide (y.stat.due < x.stat.due)) = [] := by
    rw [List.filter_eq_nil_iff]
    intro y hy
    have := hpair x hx y hy
    simp only [decide_eq_true_eq]
    omega
  rw [hdrop, List.append_nil]
  have hlt : ((srt.take n).filter (fun y => decide (y.stat.due < x.stat.due))).length <
      (srt.take n).length :=
    List.length_filter_lt_length_iff_exists.mpr ⟨x, hx, by simp⟩
  exact Nat.lt_of_lt_of_le hlt (List.length_take_le n srt)

theorem choosePool_due (now : Nat) (candidates : List Candidate)
    (h : ∃ y ∈ candidates, y.stat.due ≤ now) (x : Candidate)
    (hx : x ∈ choosePool now candidates) : x ∈ candidates ∧ x.stat.due ≤ now := by
  obtain ⟨y, hy, hyd⟩ := h
  have hne : (candidates.filter (fun entry => decide (entry.stat.due ≤ now))).isEmpty =
      false := by
    cases hf : candidates.filter (fun entry => decide (entry.stat.due ≤ now)) with
    | nil =>
      have : y ∈ candidates.filter (fun entry => decide (entry.stat.due ≤ now)) :=
        List.mem_filter.mpr ⟨hy, by simpa using hyd⟩
      rw [hf] at this
      cases this
    | cons a t => rfl
  unfold choosePool at hx
  simp only [hne, Bool.not_false, if_true] at hx
  exact ⟨(List.mem_filter.mp hx).1, by simpa using (List.mem_filter.mp hx).2⟩

theorem choosePool_soonest (now : Nat) (candidates : List Candidate)
    (h : ¬ ∃ y ∈ candidates, y.stat.due ≤ now) (x : Candidate)
    (hx : x ∈ choosePool now candidates) :
    x ∈ candidates ∧
      (candidates.filter (fun y => decide (y.stat.due < x.stat.due))).length ≤ 5 := by
  refine ⟨choosePool_mem now candidates x hx, ?_⟩
  have hemp : (candidates.filter (fun entry => decide (entry.stat.due ≤ now))).isEmpty =
      true := by
    rw [List.isEmpty_iff, List.filter_eq_nil_iff]
    intro y hy hyd
    exact h ⟨y, hy, by simpa using hyd⟩
  unfold choosePool at hx
  simp only [hemp, Bool.not_true, Bool.false_eq_true, if_false] at hx
  have := sorted_take_count candidates _ x hx
  omega

theorem filter_candidates_length (stats : List (Str × Stat)) (l : List (Str × Card))
    (bound : Nat) :
    ((l.map (candidateOf stats)).filter (fun y => decide (y.stat.due < bound))).length =
      (l.filter (fun e => decide ((statOf stats e.1).due < bound))).length := by
  rw [List.filter_map, List.length_map]
  rfl

/-- C18. When `getNextCard` rebuilds an empty queue at time `now` (the reading that
`_refillQueue` makes first), with the stats that the cards have after the rebuild: if some
non-excluded card has `due ≤ now`, every queued card is a non-excluded card with `due ≤ now`;
otherwise every queued card is a non-excluded card such that at most 5 non-excluded cards
have a smaller due time, that is, one of the 6 with the smallest due times. -/
theorem refill_pool_selection (s : Engine) (w : World) (hqueue : s.session.queue = []) :
    ((∃ e ∈ eligibleCards s, (statOf (afterRefill s w).1.stats e.1).due ≤ w.clock w.reads) →
      ∀ c ∈ (afterRefill s w).1.session.queue, ∃ e ∈ eligibleCards s, e.2 = c ∧
        (statOf (afterRefill s w).1.stats e.1).due ≤ w.clock w.reads) ∧
    ((¬ ∃ e ∈ eligibleCards s, (statOf (afterRefill s w).1.stats e.1).due ≤ w.clock w.reads) →
      ∀ c ∈ (afterRefill s w).1.session.queue, ∃ e ∈ eligibleCards s, e.2 = c ∧
        ((eligibleCards s).filter (fun e2 =>
          decide ((statOf (afterRefill s w).1.stats e2.1).due <
            (statOf (afterRefill s w).1.stats e.1).due))).length ≤ 5) := by
  have hafter : afterRefill s w = _refillQueue s w := by
    unfold afterRefill
    rw [hqueue]
    rfl
  rw [hafter]
  obtain ⟨pool, hperm, hq⟩ := refillQueue_queue_perm s w
  have hcands := refillCandidates_eq s w
  have hnow : (dateNow w).1 = w.clock w.reads := rfl
  constructor
  · rintro ⟨e0, he0, hd0⟩ c hc
    rw [hq] at hc
    obtain ⟨x, hx, hxc⟩ := buildQueue_mem _ _ _ hc
    have hx2 : x ∈ choosePool (dateNow w).1 (refillCandidates s w) := hperm.subset hx
    have hex : ∃ y ∈ refillCandidates s w, y.stat.due ≤ (dateNow w).1 := by
      refine ⟨candidateOf (_refillQueue s w).1.stats e0, ?_, hd0⟩
      rw [hcands]
      exact List.mem_map.mpr ⟨e0, he0, rfl⟩
    obtain ⟨hxm, hxd⟩ := choosePool_due _ _ hex x hx2
    rw [hcands] at hxm
    obtain ⟨e, he, hex2⟩ := List.mem_map.mp hxm
    refine ⟨e, he, ?_, ?_⟩
    · rw [← hxc, ← hex2]; rfl
    · rw [← hex2] at hxd
      exact hxd
  · intro hno c hc
    rw [hq] at hc
    obtain ⟨x, hx, hxc⟩ := buildQueue_mem _ _ _ hc
    have hx2 : x ∈ choosePool (dateNow w).1 (refillCandidates s w) := hperm.subset hx
    have hno2 : ¬ ∃ y ∈ refillCandidates s w, y.stat.due ≤ (dateNow w).1 := by
      rintro ⟨y, hy, hyd⟩
      rw [hcands] at hy
      obtain ⟨e, he, hey⟩ := List.mem_map.mp hy
      apply hno
      refine ⟨e, he, ?_⟩
      rw [← hey] at hyd
      exact hyd
    obtain ⟨hxm, hcount⟩ := choosePool_soonest _ _ hno2 x hx2
    rw [hcands] at hxm
    obtain ⟨e, he, hex2⟩ := List.mem_map.mp hxm
    refine ⟨e, he, ?_, ?_⟩
    · rw [← hxc, ← hex2]; rfl
    · rw [hcands, filter_candidates_length, ← hex2] at hcount
      exact hcount

/-- Witness of C18: the queue rebuilt right after the registration of `hablo`, whose card
is due, and the queue rebuilt after a restart, when the card of `hablar` is not due yet. -/
theorem refill_pool_selection_witness :
    plainEngine.session.queue = [] ∧
    (∀ c ∈ (afterRefill plainEngine fixedWorld).1.session.queue,
      ∃ e ∈ eligibleCards plainEngine, e.2 = c ∧
        (statOf (afterRefill plainEngine fixedWorld).1.stats e.1).due ≤
          fixedWorld.clock fixedWorld.reads) ∧
    (∀ c ∈ (afterRefill restartedHablar fixedWorld).1.session.queue,
      ∃ e ∈ eligibleCards restartedHablar, e.2 = c ∧
        ((eligibleCards restartedHablar).filter (fun e2 =>
          decide ((statOf (afterRefill restartedHablar fixedWorld).1.stats e2.1).due <
            (statOf (afterRefill restartedHablar fixedWorld).1.stats e.1).due))).length ≤ 5) :=
  ⟨by decide,
   (refill_pool_selection plainEngine fixedWorld (by decide)).1 (by decide),
   (refill_pool_selection restartedHablar fixedWorld (by decide)).2 (by decide)⟩

/-! ## C19, C20: the batch built from the shuffled pool -/

theorem fillQueue_cons (lastVerb : Option Str) (n : Nat) (entry : Candidate)
    (rest : List Candidate) (queue : List Card) (used : List Str) :
    fillQueue lastVerb n (entry :: rest) queue used =
      if queue.length ≥ BATCH_SIZE then queue
      else if (queue.isEmpty && isLastVerb lastVerb entry.verbId && decide (n > 1)) = true then
        fillQueue lastVerb n rest queue used
      else if (used.contains entry.verbId && decide (n > BATCH_SIZE)) = true then
        fillQueue lastVerb n rest queue used
      else fillQueue lastVerb n rest (queue ++ [entry.card]) (setAdd used entry.verbId) := by
  rw [fillQueue]

theorem fillQueue_sublist (lastVerb : Option Str) (n : Nat) :
    ∀ (pool : List Candidate) (queue : List Card) (used : List Str),
      ∃ sub : List Card, sub.Sublist (pool.map (fun x => x.card)) ∧
        fillQueue lastVerb n pool queue used = queue ++ sub := by
  intro pool
  induction pool with
  | nil => intro queue used; exact ⟨[], List.Sublist.refl _, by simp [fillQueue]⟩
  | cons entry rest ih =>
    intro queue used
    rw [fillQueue_cons]
    split
    · exact ⟨[], List.nil_sublist _, by simp⟩
    · split
      · obtain ⟨sub, hsub, heq⟩ := ih queue used
        exact ⟨sub, hsub.trans (List.sublist_cons_self _ _), heq⟩
      · split
        · obtain ⟨sub, hsub, heq⟩ := ih queue used
          exact ⟨sub, hsub.trans (List.sublist_cons_self _ _), heq⟩
        · obtain ⟨sub, hsub, heq⟩ := ih (queue ++ [entry.card]) (setAdd used entry.verbId)
          refine ⟨entry.card :: sub, ?_, ?_⟩
          · rw [List.map_cons]
            exact hsub.cons₂ _
          · rw [heq, List.append_assoc]
            rfl

theorem fillQueue_length (lastVerb : Option Str) (n : Nat) :
    ∀ (pool : List Candidate) (queue : List Card) (used : List Str),
      queue.length ≤ BATCH_SIZE →
      (fillQueue lastVerb n pool queue used).length ≤ BATCH_SIZE := by
  intro pool
  induction pool with
  | nil => intro queue used h; simpa [fillQueue] using h
  | cons entry rest ih =>
    intro queue used h
    rw [fillQueue_cons]
    split
    · exact h
    · rename_i hlt
      split
      · exact ih queue used h
      · split
        · exact ih queue used h
        · apply ih
          rw [List.length_append, List.length_singleton]
          omega

theorem fillQueue_first (lastVerb : Option Str) (n : Nat) (hn : 1 < n) :
    ∀ (pool : List Candidate), (∃ x ∈ pool, isLastVerb lastVerb x.verbId = false) →
      ∃ x ∈ pool, isLastVerb lastVerb x.verbId = false ∧
        ∃ rest, fillQueue lastVerb n pool [] [] = x.card :: rest := by
  intro pool
  induction pool with
  | nil => rintro ⟨x, hx, _⟩; cases hx
  | cons entry rest ih =>
    intro hex
    by_cases hlast : isLastVerb lastVerb entry.verbId = true
    · have hrest : ∃ x ∈ rest, isLastVerb lastVerb x.verbId = false := by
        obtain ⟨x, hx, hxl⟩ := hex
        rcases List.mem_cons.mp hx with h1 | h1
        · rw [h1, hlast] at hxl; cases hxl
        · exact ⟨x, h1, hxl⟩
      obtain ⟨x, hx, hxl, r, hr⟩ := ih hrest
      refine ⟨x, List.mem_cons_of_mem _ hx, hxl, r, ?_⟩
      rw [← hr]
      have hb : ¬ (([] : List Card).length ≥ BATCH_SIZE) := by decide
      have hc : (([] : List Card).isEmpty && isLastVerb lastVerb entry.verbId &&
          decide (n > 1)) = true := by
        simp [hlast, hn]
      rw [fillQueue_cons, if_neg hb, if_pos hc]
    · have hlast2 : isLastVerb lastVerb entry.verbId = false := by simpa using hlast
      obtain ⟨sub, _, heq⟩ := fillQueue_sublist lastVerb n rest ([] ++ [entry.card])
        (setAdd [] entry.verbId)
      refine ⟨entry, List.mem_cons_self _ _, hlast2, sub, ?_⟩
      have hb : ¬ (([] : List Card).length ≥ BATCH_SIZE) := by decide
      have hc : ¬ ((([] : List Card).isEmpty && isLastVerb lastVerb entry.verbId &&
          decide (n > 1)) = true) := by
        simp [hlast2]
      have hd : ¬ ((([] : List Str).contains entry.verbId &&
          decide (n > BATCH_SIZE)) = true) := by
        simp
      rw [fillQueue_cons, if_neg hb, if_neg hc, if_neg hd, heq]
      rfl

theorem fillQueue_verbs_nodup (lastVerb : Option Str) (n : Nat) (hn : BATCH_SIZE < n) :
    ∀ (pool : List Candidate) (queue : List Card) (used : List Str),
      (∀ x ∈ pool, x.card.verbId = x.verbId) → (∀ c ∈ queue, c.verbId ∈ used) →
      (queue.map (fun c => c.verbId)).Nodup →
      ((fillQueue lastVerb n pool queue used).map (fun c => c.verbId)).Nodup := by
  intro pool
  induction pool with
  | nil => intro queue used _ _ h; simpa [fillQueue] using h
  | cons entry rest ih =>
    intro queue used hpool hused hnd
    have hrest : ∀ x ∈ rest, x.card.verbId = x.verbId :=
      fun x hx => hpool x (List.mem_cons_of_mem _ hx)
    rw [fillQueue_cons]
    split
    · exact hnd
    · split
      · exact ih queue used hrest hused hnd
      · split
        · exact ih queue used hrest hused hnd
        · rename_i hskip
          have hnot : entry.verbId ∉ used := by
            intro hin
            apply hskip
            simp [hin, hn]
          apply ih _ _ hrest
          · intro c hc
            rw [mem_setAdd]
            rcases List.mem_append.mp hc with h1 | h1
            · exact Or.inl (hused c h1)
            · right
              rw [List.mem_singleton.mp h1]
              exact hpool entry (List.mem_cons_self _ _)
          · rw [List.map_append, List.nodup_append]
            refine ⟨hnd, List.nodup_singleton _, ?_⟩
            intro a ha hb
            simp only [List.map_cons, List.map_nil, List.mem_singleton] at hb
            obtain ⟨c, hc, hca⟩ := List.mem_map.mp ha
            apply hnot
            rw [← hpool entry (List.mem_cons_self _ _), ← hb, ← hca]
            exact hused c hc

theorem buildQueue_sublist (lastVerb : Option Str) (pool : List Candidate) :
    (buildQueue lastVerb pool).Sublist (pool.map (fun x => x.card)) := by
  cases pool with
  | nil => simp [buildQueue, fillQueue]
  | cons first rest =>
    rw [buildQueue_cons]
    split
    · rw [List.map_cons]
      exact (List.nil_sublist _).cons₂ _
    · obtain ⟨sub, hsub, heq⟩ := fillQueue_sublist lastVerb (first :: rest).length
        (first :: rest) [] []
      rw [heq, List.nil_append]
      exact hsub

theorem buildQueue_length (lastVerb : Option Str) (pool : List Candidate) :
    (buildQueue lastVerb pool).length ≤ BATCH_SIZE := by
  cases pool with
  | nil => simp [buildQueue, fillQueue]
  | cons first rest =>
    rw [buildQueue_cons]
    split
    · show 1 ≤ 2
      decide
    · exact fillQueue_length lastVerb _ _ [] [] (by decide)

theorem buildQueue_verbs_nodup (lastVerb : Option Str) (pool : List Candidate)
    (hn : BATCH_SIZE < pool.length) (hpool : ∀ x ∈ pool, x.card.verbId = x.verbId) :
    ((buildQueue lastVerb pool).map (fun c => c.verbId)).Nodup := by
  cases pool with
  | nil => simp [buildQueue, fillQueue]
  | cons first rest =>
    rw [buildQueue_cons]
    split
    · exact List.nodup_singleton _
    · exact fillQueue_verbs_nodup lastVerb _ hn _ [] [] hpool (fun c hc => by cases hc)
        List.nodup_nil

theorem choosePool_map_nodup {β : Type} (f : Candidate → β) (now : Nat)
    (candidates : List Candidate) (h : (candidates.map f).Nodup) :
    ((choosePool now candidates).map f).Nodup := by
  unfold choosePool
  dsimp only
  split
  · exact ((List.filter_sublist _).map f).nodup h
  · have hperm := (List.perm_insertionSort (fun a b : Candidate => a.stat.due ≤ b.stat.due)
      candidates).map f
    exact ((List.take_sublist _ _).map f).nodup (hperm.nodup_iff.mpr h)

theorem verbCards_verbId (P : Platform) (verbId : Str) (data : VerbData) (c : Card)
    (h : c ∈ verbCards P verbId data) : c.verbId = verbId := by
  unfold verbCards at h
  rw [List.mem_flatten] at h
  obtain ⟨l, hl, hc⟩ := h
  obtain ⟨te, _, hte⟩ := List.mem_map.mp hl
  rw [← hte] at hc
  obtain ⟨fe, _, hfe⟩ := List.mem_map.mp hc
  rw [← hfe]
  rfl

theorem mem_upsertCards :
    ∀ (l : List Card) (cards : List (Str × Card)) (e : Str × Card),
      e ∈ upsertCards cards l → e ∈ cards ∨ ∃ c ∈ l, e = (c.cardId, c) := by
  intro l
  induction l with
  | nil => intro cards e h; exact Or.inl h
  | cons c l ih =>
    intro cards e h
    have h1 : e ∈ upsertCards (setKey cards c.cardId c) l := h
    rcases ih _ e h1 with h2 | ⟨c2, hc2, he⟩
    · rcases mem_setKey cards c.cardId c e h2 with h3 | h3
      · exact Or.inl h3
      · exact Or.inr ⟨c, List.mem_cons_self _ _, h3⟩
    · exact Or.inr ⟨c2, List.mem_cons_of_mem _ hc2, he⟩

theorem refillQueue_lastVerbId (s : Engine) (w : World) :
    (_refillQueue s w).1.session.lastVerbId = s.session.lastVerbId := by
  unfold _refillQueue
  dsimp only
  split <;> rfl

theorem afterRefill_lastVerbId (s : Engine) (w : World) :
    (afterRefill s w).1.session.lastVerbId = s.session.lastVerbId := by
  unfold afterRefill
  split
  · exact refillQueue_lastVerbId s w
  · rfl

theorem getNextCard_lastVerbId (s : Engine) (w : World) :
    (getNextCard s w).2.1.session.lastVerbId = s.session.lastVerbId ∨
      ∃ next ∈ (afterRefill s w).1.session.queue,
        (getNextCard s w).2.1.session.lastVerbId = some next.verbId := by
  have hlv := afterRefill_lastVerbId s w
  unfold afterRefill at hlv
  unfold getNextCard afterRefill
  split
  · exact Or.inl rfl
  · dsimp only
    split
    · exact Or.inl hlv
    · rename_i next rest heq
      right
      refine ⟨next, ?_, rfl⟩
      have hsub : next ∈ next :: rest := List.mem_cons_self _ _
      rw [← heq] at hsub
      exact (List.dropWhile_sublist _).subset hsub

theorem verbOk_registerVerbData (P : Platform) (s : Engine) (w : World) (verbId : Str)
    (verbData : Option VerbData) (h : VerbOk s) :
    VerbOk (registerVerbData P s w verbId verbData).1 := by
  by_cases hd : verbId = [] ∨ verbData = none
  · rw [registerVerbData_noop P s w verbId verbData hd]; exact h
  · cases verbData with
    | none => exact absurd (Or.inr rfl) hd
    | some data =>
      have hv : verbId ≠ [] := fun h2 => hd (Or.inl h2)
      constructor
      · intro e he
        rw [(registerVerbData_eq P s w verbId data hv).1] at he
        rcases mem_upsertCards _ _ e he with h1 | ⟨c, hc, hec⟩
        · exact h.1 e h1
        · rw [hec]
          show c.verbId ≠ []
          rw [verbCards_verbId P verbId data c hc]
          exact hv
      · left
        rw [registerVerbData_session_reset P s w verbId data hv]

theorem reachable_verbOk (P : Platform) (stored : Option (List (Str × Stat))) (s : Engine)
    (h : Reachable P stored s) : VerbOk s := by
  induction h with
  | new => exact ⟨(fun e he => by cases he), Or.inl rfl⟩
  | registerVerbData _ w verbId verbData ih =>
    exact verbOk_registerVerbData P _ w verbId verbData ih
  | setExcludedTenses _ excluded ih => exact ⟨ih.1, Or.inl rfl⟩
  | getNextCard h0 w ih =>
    rename_i s0
    constructor
    · intro e he
      rw [(getNextCard_frame s0 w).1] at he
      exact ih.1 e he
    · rcases getNextCard_lastVerbId s0 w with h1 | ⟨next, hn, h1⟩
      · rw [h1]; exact ih.2
      · right
        obtain ⟨⟨e, he, hen⟩, _⟩ :=
          queueOk_afterRefill s0 w (reachable_queueOk P stored s0 h0) next hn
        rw [(afterRefill_frame s0 w).1] at he
        refine ⟨next.verbId, ?_, h1⟩
        rw [← hen]
        exact ih.1 e he
  | recordAnswer _ w cardId isCorrect ih => exact ih
  | getSummary _ w ih => exact ih
  | resetSessionQueue _ ih => exact ⟨ih.1, Or.inl rfl⟩
  | resetStats _ ih => exact ⟨ih.1, Or.inl rfl⟩

theorem isLastVerb_false_iff (lastVerb : Option Str) (v : Str)
    (h : lastVerb = none ∨ ∃ u : Str, u ≠ [] ∧ lastVerb = some u) :
    isLastVerb lastVerb v = false ↔ some v ≠ lastVerb := by
  rcases h with h | ⟨u, hu, h⟩
  · rw [h]
    simp [isLastVerb]
  · rw [h]
    have hu2 : u.isEmpty = false := by
      cases hU : u with
      | nil => exact absurd hU hu
      | cons a t => rfl
    simp [isLastVerb, hu2]

theorem refillPool_verbId (s : Engine) (w : World) (x : Candidate) (h : x ∈ refillPool s w) :
    x.card.verbId = x.verbId := by
  have h1 := choosePool_mem _ _ _ h
  rw [refillCandidates_eq] at h1
  obtain ⟨e, _, hex⟩ := List.mem_map.mp h1
  rw [← hex]
  rfl

theorem dropWhile_afterRefill (s : Engine) (w : World) (hq : QueueOk s) :
    (afterRefill s w).1.session.queue.dropWhile
      (fun c => _isExcluded (afterRefill s w).1.excludedTenses c.tenseId) =
      (afterRefill s w).1.session.queue := by
  have hok := queueOk_afterRefill s w hq
  cases hl : (afterRefill s w).1.session.queue with
  | nil => rfl
  | cons c rest =>
    have := (hok c (by rw [hl]; exact List.mem_cons_self _ _)).2
    simp [List.dropWhile, this]

/-- C19. In every reachable state, when the queue is rebuilt from a pool with more than one
candidate, one of which belongs to a verb other than the last verb of the session, the first
card of the rebuilt queue belongs to a verb other than the last verb, whatever the shuffle
draws are; and when the queue was empty, `getNextCard()` returns a card of a verb other than
that last verb. -/
theorem first_card_avoids_last_verb (P : Platform) (stored : Option (List (Str × Stat)))
    (s : Engine) (h : Reachable P stored s) (w : World)
    (hlen : 1 < (refillPool s w).length)
    (hother : ∃ x ∈ refillPool s w, some x.verbId ≠ s.session.lastVerbId) :
    (∃ c rest, (_refillQueue s w).1.session.queue = c :: rest ∧
      some c.verbId ≠ s.session.lastVerbId) ∧
    (s.session.queue = [] →
      ∃ nc, (getNextCard s w).1 = some nc ∧ some nc.verbId ≠ s.session.lastVerbId) := by
  have hverb := (reachable_verbOk P stored s h).2
  obtain ⟨pool, hperm, hq⟩ := refillQueue_queue_perm s w
  have hfirst : ∃ c rest, (_refillQueue s w).1.session.queue = c :: rest ∧
      some c.verbId ≠ s.session.lastVerbId := by
    have hlen2 : 1 < pool.length := by rw [hperm.length_eq]; exact hlen
    have hex : ∃ x ∈ pool, isLastVerb s.session.lastVerbId x.verbId = false := by
      obtain ⟨x, hx, hxv⟩ := hother
      exact ⟨x, hperm.symm.subset hx, (isLastVerb_false_iff _ _ hverb).mpr hxv⟩
    obtain ⟨x, hx, hxl, rest, hfill⟩ := fillQueue_first s.session.lastVerbId pool.length hlen2
      pool hex
    refine ⟨x.card, rest, ?_, ?_⟩
    · rw [hq]
      cases pool with
      | nil => cases hx
      | cons first more =>
        rw [buildQueue_cons, hfill]
        simp
    · rw [refillPool_verbId s w x (hperm.subset hx)]
      exact (isLastVerb_false_iff _ _ hverb).mp hxl
  refine ⟨hfirst, ?_⟩
  intro hempty
  obtain ⟨c, rest, hqueue, hc⟩ := hfirst
  have hafter : afterRefill s w = _refillQueue s w := by
    unfold afterRefill
    rw [hempty]
    rfl
  have hdrop := dropWhile_afterRefill s w (reachable_queueOk P stored s h)
  rw [hafter, hqueue] at hdrop
  have hcards : s.cards ≠ [] := by
    intro h0
    have hel : eligibleCards s = [] := by
      unfold eligibleCards
      rw [h0]
      rfl
    have := refillQueue_queue_nil s w hel
    rw [hqueue] at this
    cases this
  cases hres : (getNextCard s w).1 with
  | none =>
    have := (getNextCard_none_iff s w hcards).mp hres
    rw [hafter, hqueue, hdrop] at this
    cases this
  | some nc =>
    obtain ⟨next, rest2, _, _, hd2, _, _, _, _, hv, _⟩ := getNextCard_some s w nc hres
    rw [hafter, hqueue, hdrop] at hd2
    have hnext : c = next := by
      injection hd2
    refine ⟨nc, rfl, ?_⟩
    rw [hv, ← hnext]
    exact hc

/-- C20. In every reachable state, when the queue is rebuilt from a non-empty pool, the
rebuilt queue holds at least 1 and at most `BATCH_SIZE`, that is 2, cards, their card ids are
distinct, and when the pool has more than 2 candidates their verb ids are distinct, whatever
the shuffle draws are. -/
theorem rebuilt_queue_shape (P : Platform) (stored : Option (List (Str × Stat)))
    (s : Engine) (h : Reachable P stored s) (w : World) (hpool : refillPool s w ≠ []) :
    1 ≤ (_refillQueue s w).1.session.queue.length ∧
    (_refillQueue s w).1.session.queue.length ≤ BATCH_SIZE ∧
    BATCH_SIZE = 2 ∧
    ((_refillQueue s w).1.session.queue.map (fun c => c.cardId)).Nodup ∧
    (2 < (refillPool s w).length →
      ((_refillQueue s w).1.session.queue.map (fun c => c.verbId)).Nodup) := by
  obtain ⟨pool, hperm, hq⟩ := refillQueue_queue_perm s w
  rw [hq]
  have hne : pool ≠ [] := by
    intro h0
    rw [h0] at hperm
    exact hpool (List.Perm.nil_eq hperm).symm
  refine ⟨?_, buildQueue_length _ _, rfl, ?_, ?_⟩
  · exact List.length_pos.mpr (buildQueue_ne_nil _ _ hne)
  · have hkeys : ((refillCandidates s w).map (fun x => x.card.cardId)).Nodup := by
      rw [refillCandidates_eq, List.map_map]
      have hcongr : (eligibleCards s).map ((fun x : Candidate => x.card.cardId) ∘
          candidateOf (_refillQueue s w).1.stats) = (eligibleCards s).map (fun e => e.1) := by
        apply List.map_congr_left
        intro e he
        exact reachable_cardsOk P stored s h e ((mem_eligibleCards s e).mp he).1
      rw [hcongr]
      exact ((List.filter_sublist _).map _).nodup (reachable_keysNodup P stored s h)
    have hpoolKeys := choosePool_map_nodup (fun x => x.card.cardId) (dateNow w).1 _ hkeys
    have hpermKeys : ((pool.map (fun x => x.card)).map (fun c => c.cardId)).Nodup := by
      rw [List.map_map]
      exact (hperm.map _).nodup_iff.mpr hpoolKeys
    exact ((buildQueue_sublist _ pool).map _).nodup hpermKeys
  · intro hbig
    apply buildQueue_verbs_nodup
    · rw [hperm.length_eq]; exact hbig
    · intro x hx
      exact refillPool_verbId s w x (hperm.subset hx)

/-- Witness of C19: both verbs were served once, the queue is empty and both cards are due. -/
theorem first_card_avoids_last_verb_witness :
    twiceServed.session.queue = [] ∧
    twiceServed.session.lastVerbId ≠ none ∧
    (∃ c rest, (_refillQueue twiceServed lateWorld).1.session.queue = c :: rest ∧
      some c.verbId ≠ twiceServed.session.lastVerbId) ∧
    (twiceServed.session.queue = [] →
      ∃ nc, (getNextCard twiceServed lateWorld).1 = some nc ∧
        some nc.verbId ≠ twiceServed.session.lastVerbId) :=
  ⟨by decide, by decide,
   first_card_avoids_last_verb asciiPlatform (some twoVerbStorage) twiceServed
     (Reachable.getNextCard (Reachable.getNextCard
       (Reachable.registerVerbData (Reachable.registerVerbData Reachable.new fixedWorld _ _)
         fixedWorld _ _) lateWorld) _)
     lateWorld (by decide) (by decide)⟩

/-- Witness of C20: the queue rebuilt after a restart, when both cards are due. -/
theorem rebuilt_queue_shape_witness :
    refillPool restartedBoth lateWorld ≠ [] ∧
    1 ≤ (_refillQueue restartedBoth lateWorld).1.session.queue.length ∧
    (_refillQueue restartedBoth lateWorld).1.session.queue.length ≤ BATCH_SIZE ∧
    BATCH_SIZE = 2 ∧
    ((_refillQueue restartedBoth lateWorld).1.session.queue.map (fun c => c.cardId)).Nodup ∧
    (2 < (refillPool restartedBoth lateWorld).length →
      ((_refillQueue restartedBoth lateWorld).1.session.queue.map (fun c => c.verbId)).Nodup) :=
  ⟨by decide,
   rebuilt_queue_shape asciiPlatform (some twoVerbStorage) restartedBoth
     (Reachable.registerVerbData (Reachable.registerVerbData Reachable.new fixedWorld _ _)
       fixedWorld _ _) lateWorld (by decide)⟩

/-! ## C21: a pool of at most `BATCH_SIZE` candidates -/

theorem fillQueue_all (lastVerb : Option Str) (n : Nat) (hn : n ≤ BATCH_SIZE) :
    ∀ (pool : List Candidate) (queue : List Card) (used : List Str),
      queue.length + pool.length ≤ BATCH_SIZE →
      (queue = [] → n ≤ 1 ∨ ∀ first ∈ pool.head?, isLastVerb lastVerb first.verbId = false) →
      fillQueue lastVerb n pool queue used = queue ++ pool.map (fun x => x.card) := by
  intro pool
  induction pool with
  | nil =>
    intro queue used _ _
    simp [fillQueue]
  | cons entry rest ih =>
    intro queue used hlen hfirst
    have hlen2 : queue.length + rest.length + 1 ≤ BATCH_SIZE := hlen
    have h1 : ¬ queue.length ≥ BATCH_SIZE := by omega
    have h2 : ¬ (queue.isEmpty && isLastVerb lastVerb entry.verbId && decide (n > 1)) = true := by
      intro h
      rw [Bool.and_eq_true, Bool.and_eq_true] at h
      have hq : queue = [] := List.isEmpty_iff.mp h.1.1
      rcases hfirst hq with hle | hnot
      · have := of_decide_eq_true h.2
        omega
      · have := hnot entry rfl
        rw [this] at h
        exact Bool.false_ne_true h.1.2
    have h3 : ¬ (used.contains entry.verbId && decide (n > BATCH_SIZE)) = true := by
      intro h
      rw [Bool.and_eq_true] at h
      have := of_decide_eq_true h.2
      omega
    rw [fillQueue_cons, if_neg h1, if_neg h2, if_neg h3,
      ih (queue ++ [entry.card]) (setAdd used entry.verbId)
        (by rw [List.length_append]; simp only [List.length_singleton]; omega)
        (fun hnil => absurd hnil (by simp))]
    simp

theorem buildQueue_all (lastVerb : Option Str) (pool : List Candidate)
    (hlen : pool.length ≤ BATCH_SIZE)
    (hfirst : pool.length ≤ 1 ∨ ∀ first ∈ pool.head?, isLastVerb lastVerb first.verbId = false) :
    buildQueue lastVerb pool = pool.map (fun x => x.card) := by
  have h := fillQueue_all lastVerb pool.length hlen pool [] []
    (by simpa using hlen) (fun _ => hfirst)
  unfold buildQueue
  rw [h]
  cases pool with
  | nil => rfl
  | cons first rest => rfl

/-- Counterexample to C21. In `twiceServed` the session remembers the verb `hablar` and the pool
holds the two cards `hablar::pres::yo` and `comer::pres::yo`; when the shuffle leaves the card of
`hablar` in front, the loop skips it for the first slot and the rebuilt queue holds the card of
`comer` alone. In `twoFormServed` both pool candidates are forms of the last verb `hablar`; the
loop skips both and the fallback queues the first one alone. -/
theorem small_pool_queue_misses_candidate :
    (refillPool twiceServed keepWorld).map (fun x => x.cardId) =
      ["hablar::pres::yo".toList, "comer::pres::yo".toList] ∧
    (refillPool twiceServed keepWorld).length ≤ BATCH_SIZE ∧
    twiceServed.session.lastVerbId = some "hablar".toList ∧
    (_refillQueue twiceServed keepWorld).1.session.queue.map (fun c => c.cardId) =
      ["comer::pres::yo".toList] ∧
    (refillPool twoFormServed keepWorld).map (fun x => x.cardId) =
      ["hablar::pres::yo".toList, "hablar::pres::tu".toList] ∧
    twoFormServed.session.lastVerbId = some "hablar".toList ∧
    (_refillQueue twoFormServed keepWorld).1.session.queue.map (fun c => c.cardId) =
      ["hablar::pres::yo".toList] := by
  decide

/-- C21 (amended): when the pool of `_refillQueue` has at most `BATCH_SIZE = 2` candidates and
either it has at most one candidate or the candidate that the shuffle puts first is not of the
verb served last (in particular when no pool candidate is of that verb), the rebuilt queue holds
the card of every pool candidate, in the shuffled order, also when candidates share a verb
id. -/
theorem small_pool_queue_holds_all (s : Engine) (w : World)
    (hlen : (refillPool s w).length ≤ BATCH_SIZE) :
    BATCH_SIZE = 2 ∧
    (∃ shuffled : List Candidate, shuffled.Perm (refillPool s w) ∧
      (_refillQueue s w).1.session.queue = buildQueue s.session.lastVerbId shuffled ∧
      ((refillPool s w).length ≤ 1 ∨
          (∀ first ∈ shuffled.head?, isLastVerb s.session.lastVerbId first.verbId = false) →
        (_refillQueue s w).1.session.queue = shuffled.map (fun x => x.card))) ∧
    ((refillPool s w).length ≤ 1 ∨
        (∀ x ∈ refillPool s w, isLastVerb s.session.lastVerbId x.verbId = false) →
      (_refillQueue s w).1.session.queue.Perm ((refillPool s w).map (fun x => x.card)) ∧
      ∀ x ∈ refillPool s w, x.card ∈ (_refillQueue s w).1.session.queue) := by
  obtain ⟨shuffled, hperm, hqueue⟩ := refillQueue_queue_perm s w
  have hall : (refillPool s w).length ≤ 1 ∨
      (∀ first ∈ shuffled.head?, isLastVerb s.session.lastVerbId first.verbId = false) →
      (_refillQueue s w).1.session.queue = shuffled.map (fun x => x.card) := by
    intro h
    rw [hqueue]
    apply buildQueue_all
    · rw [hperm.length_eq]
      exact hlen
    · rw [hperm.length_eq]
      exact h
  refine ⟨rfl, ⟨shuffled, hperm, hqueue, hall⟩, ?_⟩
  intro h
  have hq : (_refillQueue s w).1.session.queue = shuffled.map (fun x => x.card) := by
    apply hall
    rcases h with h | h
    · exact Or.inl h
    · refine Or.inr ?_
      intro first hfirst
      exact h first (hperm.subset (List.mem_of_mem_head? hfirst))
  have hp : (_refillQueue s w).1.session.queue.Perm ((refillPool s w).map (fun x => x.card)) := by
    rw [hq]
    exact hperm.map _
  exact ⟨hp, fun x hx => hp.symm.subset (List.mem_map_of_mem _ hx)⟩

/-- Witness of C21 (amended): after a restart no verb was served yet, and the queue rebuilt from
the pool of the two due cards holds both of them. -/
theorem small_pool_queue_holds_all_witness :
    (refillPool restartedBoth lateWorld).length ≤ BATCH_SIZE ∧
    (∀ x ∈ refillPool restartedBoth lateWorld,
      isLastVerb restartedBoth.session.lastVerbId x.verbId = false) ∧
    (_refillQueue restartedBoth lateWorld).1.session.queue.Perm
      ((refillPool restartedBoth lateWorld).map (fun x => x.card)) ∧
    (refillPool restartedBoth lateWorld).length = 2 :=
  ⟨by decide, by decide,
   ((small_pool_queue_holds_all restartedBoth lateWorld (by decide)).2.2
      (Or.inr (by decide))).1,
   by decide⟩

/-! ## C23: the queue holds registered cards of tenses that are not excluded -/

theorem queued_card_registered (s : Engine) (hq : QueueOk s) (hc : CardsOk s)
    (hk : KeysNodup s) (c : Card) (h : c ∈ s.session.queue) :
    lookup s.cards c.cardId = some c ∧ _isExcluded s.excludedTenses c.tenseId = false := by
  obtain ⟨⟨e, he, hec⟩, hex⟩ := hq c h
  refine ⟨?_, hex⟩
  have h1 := lookup_of_mem_nodup s.cards e hk he
  rw [← hc e he, hec] at h1
  exact h1

/-- C23: in every reachable state of the engine every card of the session queue is the card
that the registry holds under its id, and its tense is not excluded; hence the skip loop of
`getNextCard` drops no card of the queue, and the card that `getNextCard` returns is a
registered card whose tense is not excluded. -/
theorem queue_holds_eligible_cards (P : Platform) (stored : Option (List (Str × Stat)))
    (s : Engine) (h : Reachable P stored s) :
    (∀ c ∈ s.session.queue,
      lookup s.cards c.cardId = some c ∧ _isExcluded s.excludedTenses c.tenseId = false) ∧
    (∀ w : World,
      (afterRefill s w).1.session.queue.dropWhile
        (fun c => _isExcluded (afterRefill s w).1.excludedTenses c.tenseId) =
      (afterRefill s w).1.session.queue) ∧
    (∀ (w : World) (nc : NextCard), (getNextCard s w).1 = some nc →
      ∃ c : Card, lookup s.cards nc.cardId = some c ∧
        _isExcluded s.excludedTenses c.tenseId = false ∧
        (afterRefill s w).1.session.queue.head? = some c) := by
  have hq := reachable_queueOk P stored s h
  have hc := reachable_cardsOk P stored s h
  have hk := reachable_keysNodup P stored s h
  refine ⟨fun c hcq => queued_card_registered s hq hc hk c hcq,
    fun w => dropWhile_afterRefill s w hq, ?_⟩
  intro w nc hnc
  obtain ⟨next, rest, s2, w2, hdrop, _, _, _, hid, _⟩ := getNextCard_some s w nc hnc
  rw [dropWhile_afterRefill s w hq] at hdrop
  have hq2 := queueOk_afterRefill s w hq
  have hf := afterRefill_frame s w
  have hc2 : CardsOk (afterRefill s w).1 := by
    unfold CardsOk
    rw [hf.1]
    exact hc
  have hk2 : KeysNodup (afterRefill s w).1 := by
    unfold KeysNodup
    rw [hf.1]
    exact hk
  have hmem : next ∈ (afterRefill s w).1.session.queue := by
    rw [hdrop]
    exact List.mem_cons_self _ _
  have h2 := queued_card_registered (afterRefill s w).1 hq2 hc2 hk2 next hmem
  rw [hf.1, hf.2] at h2
  refine ⟨next, ?_, h2.2, ?_⟩
  · rw [hid]
    exact h2.1
  · rw [hdrop]
    rfl

/-- Witness of C23: after a restart and one call of `getNextCard` the queue holds one card,
which is registered and of a tense that is not excluded. -/
theorem queue_holds_eligible_cards_witness :
    onceServed.session.queue.map (fun c => c.cardId) = ["hablar::pres::yo".toList] ∧
    ∀ c ∈ onceServed.session.queue,
      lookup onceServed.cards c.cardId = some c ∧
      _isExcluded onceServed.excludedTenses c.tenseId = false :=
  ⟨by decide,
   (queue_holds_eligible_cards asciiPlatform (some twoVerbStorage) onceServed
     (Reachable.getNextCard
       (Reachable.registerVerbData (Reachable.registerVerbData Reachable.new fixedWorld _ _)
         fixedWorld _ _) lateWorld)).1⟩

/-! ## C24: `registerVerbData` removes no card -/

theorem mem_setKey_of_ne {β : Type} (m : List (Str × β)) (k : Str) (v : β) (e : Str × β)
    (he : e ∈ m) (hne : k ≠ e.1) : e ∈ setKey m k v := by
  unfold setKey
  split
  · rw [List.mem_map]
    refine ⟨e, he, ?_⟩
    have : (e.1 == k) = false := by
      rw [beq_eq_false_iff_ne]
      exact fun h => hne h.symm
    rw [this]
    rfl
  · exact List.mem_append_left _ he

theorem upsertCards_keeps :
    ∀ (l : List Card) (cards : List (Str × Card)) (e : Str × Card),
      (∀ c ∈ l, c.cardId ≠ e.1) → e ∈ cards → e ∈ upsertCards cards l := by
  intro l
  induction l with
  | nil =>
    intro cards e _ he
    exact he
  | cons c l ih =>
    intro cards e hne he
    exact ih (setKey cards c.cardId c) e (fun d hd => hne d (List.mem_cons_of_mem _ hd))
      (mem_setKey_of_ne cards c.cardId c e he (hne c (List.mem_cons_self _ _)))

theorem registerVerbData_excludedTenses (P : Platform) (s : Engine) (w : World) (verbId : Str)
    (verbData : Option VerbData) :
    (registerVerbData P s w verbId verbData).1.excludedTenses = s.excludedTenses := by
  unfold registerVerbData
  cases verbData with
  | none => rfl
  | some data =>
    dsimp only
    split <;> rfl

theorem registerVerbData_cases (P : Platform) (s : Engine) (w : World) (verbId : Str)
    (verbData : Option VerbData) :
    (registerVerbData P s w verbId verbData).1 = s ∨
    ∃ data : VerbData, verbData = some data ∧
      (registerVerbData P s w verbId verbData).1.cards =
        upsertCards s.cards (verbCards P verbId data) ∧
      (registerVerbData P s w verbId verbData).1.stats =
        ((verbCards P verbId data).foldl registerCard (s.cards, s.stats, w)).2.1.filter
          (fun e => hasKey (upsertCards s.cards (verbCards P verbId data)) e.1) := by
  cases verbData with
  | none => exact Or.inl (by rw [registerVerbData_noop P s w verbId none (Or.inr rfl)])
  | some data =>
    by_cases hv : verbId = []
    · exact Or.inl (by rw [registerVerbData_noop P s w verbId (some data) (Or.inl hv)])
    · exact Or.inr ⟨data, rfl, registerVerbData_eq P s w verbId data hv⟩

/-- C24: `registerVerbData` removes no card. For every state and every call, each card id
registered before the call is registered after it, and a stat that a registered card had before
the call is the stat it has after the call, the garbage collection included. A card whose id is
not among the ids of the cards built from the new data stays in the registry as it was; if its
tense is not excluded it is among the cards from which `_refillQueue` builds its candidates, and
`getSummary` counts it in `totalCount`. -/
theorem registerVerbData_keeps_cards (P : Platform) (s : Engine) (w : World) (verbId : Str)
    (verbData : Option VerbData) :
    (∀ k : Str, hasKey s.cards k = true →
      hasKey (registerVerbData P s w verbId verbData).1.cards k = true) ∧
    (∀ (k : Str) (st : Stat), hasKey s.cards k = true → lookup s.stats k = some st →
      lookup (registerVerbData P s w verbId verbData).1.stats k = some st) ∧
    (registerVerbData P s w verbId verbData).1.excludedTenses = s.excludedTenses ∧
    (∀ e ∈ s.cards,
      (∀ data : VerbData, verbData = some data →
        ∀ c ∈ verbCards P verbId data, c.cardId ≠ e.1) →
      e ∈ (registerVerbData P s w verbId verbData).1.cards ∧
      (_isExcluded s.excludedTenses e.2.tenseId = false →
        e ∈ eligibleCards (registerVerbData P s w verbId verbData).1 ∧
        ∀ w2 : World,
          candidateOf (_refillQueue (registerVerbData P s w verbId verbData).1 w2).1.stats e ∈
            refillCandidates (registerVerbData P s w verbId verbData).1 w2)) ∧
    (∀ w2 : World,
      (getSummary (registerVerbData P s w verbId verbData).1 w2).1.totalCount =
        (eligibleCards (registerVerbData P s w verbId verbData).1).length) := by
  have hex := registerVerbData_excludedTenses P s w verbId verbData
  have hcards : ∀ e ∈ s.cards,
      (∀ data : VerbData, verbData = some data →
        ∀ c ∈ verbCards P verbId data, c.cardId ≠ e.1) →
      e ∈ (registerVerbData P s w verbId verbData).1.cards := by
    intro e he hne
    rcases registerVerbData_cases P s w verbId verbData with h | ⟨data, hd, hc, _⟩
    · rw [h]
      exact he
    · rw [hc]
      exact upsertCards_keeps _ _ e (hne data hd) he
  refine ⟨?_, ?_, hex, ?_, fun w2 => getSummary_totalCount _ w2⟩
  · intro k hk
    rcases registerVerbData_cases P s w verbId verbData with h | ⟨data, _, hc, _⟩
    · rw [h]
      exact hk
    · rw [hc, hasKey_upsertCards, hk]
      rfl
  · intro k st hk hst
    rcases registerVerbData_cases P s w verbId verbData with h | ⟨data, _, _, hs⟩
    · rw [h]
      exact hst
    · rw [hs, lookup_filter_key (fun k => hasKey (upsertCards s.cards (verbCards P verbId data)) k),
        if_pos (by rw [hasKey_upsertCards, hk]; rfl)]
      exact registerCard_fold_keeps _ (s.cards, s.stats, w) k st hst
  · intro e he hne
    refine ⟨hcards e he hne, ?_⟩
    intro hnot
    have hel : e ∈ eligibleCards (registerVerbData P s w verbId verbData).1 := by
      rw [mem_eligibleCards, hex]
      exact ⟨hcards e he hne, hnot⟩
    refine ⟨hel, ?_⟩
    intro w2
    rw [refillCandidates_eq]
    exact List.mem_map_of_mem _ hel

/-- Witness of C24: `hablar` is registered again with data that holds no tense any more; its
card stays in the registry with its stat and is still counted and served. -/
theorem registerVerbData_keeps_cards_witness :
    ("hablar::pres::yo".toList, hablarRegistered) ∈ restartedHablar.cards ∧
    verbCards asciiPlatform "hablar".toList noTenseData = [] ∧
    ("hablar::pres::yo".toList, hablarRegistered) ∈
      (registerVerbData asciiPlatform restartedHablar fixedWorld "hablar".toList
        (some noTenseData)).1.cards ∧
    lookup (registerVerbData asciiPlatform restartedHablar fixedWorld "hablar".toList
        (some noTenseData)).1.stats "hablar::pres::yo".toList = some hablarStat :=
  ⟨by decide, by decide,
   ((registerVerbData_keeps_cards asciiPlatform restartedHablar fixedWorld "hablar".toList
      (some noTenseData)).2.2.2.1 ("hablar::pres::yo".toList, hablarRegistered) (by decide)
      (fun data hd c hc => by
        have hdata : noTenseData = data := Option.some.inj hd
        rw [← hdata] at hc
        exact absurd hc (List.not_mem_nil c))).1,
   (registerVerbData_keeps_cards asciiPlatform restartedHablar fixedWorld "hablar".toList
      (some noTenseData)).2.1 "hablar::pres::yo".toList hablarStat (by decide) (by decide)⟩

/-! ## C25: inputs that vanish under `normalizeAnswer` -/

/-- Counterexample to C25. The card `hablo` has the empty ending. The input of two blanks is
not empty and `normalizeAnswer` maps it to the empty string, yet the handler trims it, finds it
empty and returns without a verdict, leaving the engine as it was. And for a card that stands
on the last stage 5 the input of one apostrophe is judged correct and recorded, but the stage
stays 5. -/
theorem vanishing_input_not_always_judged :
    plainCard.ending = [] ∧
    "  ".toList ≠ [] ∧
    normalizeAnswer asciiPlatform "  ".toList = [] ∧
    (onTrainingPrimary asciiPlatform plainEngine fixedWorld plainCard "  ".toList).1 = none ∧
    (onTrainingPrimary asciiPlatform plainEngine fixedWorld plainCard "  ".toList).2.1 =
      plainEngine ∧
    normalizeAnswer asciiPlatform apostropheInput = [] ∧
    (lookup topEngine.stats plainCard.cardId).map (fun st => st.stage) = some 5 ∧
    (onTrainingPrimary asciiPlatform topEngine fixedWorld plainCard apostropheInput).1 =
      some true ∧
    (lookup (onTrainingPrimary asciiPlatform topEngine fixedWorld plainCard
      apostropheInput).2.1.stats plainCard.cardId).map (fun st => st.stage) = some 5 := by
  decide

/-- C25 (amended): on a platform whose two built-ins map the empty string to itself, for every
card whose ending is empty, every input that is not empty after trimming and that
`normalizeAnswer` maps to the empty string is judged correct; the handler records a correct
answer for the card: the counters `correct` and `streak` grow by one and the stage becomes
`min (stage + 1) 5`, so it advances by one unless the card stands on the last stage. -/
theorem empty_ending_accepts_vanishing_input (P : Platform)
    (hnfd : P.normalizeNFD [] = []) (hlow : P.toLowerCase [] = [])
    (s : Engine) (w : World) (card : NextCard) (inputValue : Str)
    (hending : card.ending = []) (hinput : trim inputValue ≠ [])
    (hnorm : normalizeAnswer P (trim inputValue) = []) :
    (onTrainingPrimary P s w card inputValue).1 = some true ∧
    (onTrainingPrimary P s w card inputValue).2 = recordAnswer s w card.cardId true ∧
    ∃ st : Stat,
      lookup (onTrainingPrimary P s w card inputValue).2.1.stats card.cardId = some st ∧
      st.stage = min ((statOrFresh s.stats w card.cardId).stage + 1) 5 ∧
      st.correct = (statOrFresh s.stats w card.cardId).correct + 1 ∧
      st.streak = (statOrFresh s.stats w card.cardId).streak + 1 ∧
      st.incorrect = (statOrFresh s.stats w card.cardId).incorrect ∧
      ((statOrFresh s.stats w card.cardId).stage < 5 →
        st.stage = (statOrFresh s.stats w card.cardId).stage + 1) := by
  have hlen : ¬ ((trim inputValue).length = 0) := by
    intro h; exact hinput (List.length_eq_zero.mp h)
  have hempty : normalizeAnswer P [] = [] := by
    unfold normalizeAnswer
    rw [hnfd]
    exact hlow
  have hverdict : isCorrectAnswer P card (trim inputValue) = true := by
    unfold isCorrectAnswer
    simp only [hending, hnorm, hempty, beq_self_eq_true, Bool.true_or]
  have hres : onTrainingPrimary P s w card inputValue =
      (some true, (recordAnswer s w card.cardId true).1,
        (recordAnswer s w card.cardId true).2) := by
    unfold onTrainingPrimary
    simp only [hlen, if_false, hverdict]
  refine ⟨by rw [hres], by rw [hres], ?_⟩
  rw [hres]
  refine ⟨answeredStat (statOrFresh s.stats w card.cardId)
    (dateNow (_ensureStat s.stats w card.cardId).2.2).1 true, ?_, rfl, rfl, rfl, rfl, ?_⟩
  · show lookup (setKey (_ensureStat s.stats w card.cardId).2.1 card.cardId
      (answeredStat (_ensureStat s.stats w card.cardId).1
        (dateNow (_ensureStat s.stats w card.cardId).2.2).1 true)) card.cardId = _
    rw [lookup_setKey_self, ensureStat_fst]
  · intro hlt
    show min ((statOrFresh s.stats w card.cardId).stage + 1) 5 = _
    omega

/-- Witness of C25 (amended): the input of one apostrophe for the card `hablo`, whose ending is
empty. -/
theorem empty_ending_accepts_vanishing_input_witness :
    plainCard.ending = [] ∧ trim apostropheInput ≠ [] ∧
    normalizeAnswer asciiPlatform (trim apostropheInput) = [] ∧
    (onTrainingPrimary asciiPlatform plainEngine fixedWorld plainCard apostropheInput).1 =
      some true :=
  ⟨by decide, by decide, by decide,
   (empty_ending_accepts_vanishing_input asciiPlatform (by decide) (by decide) plainEngine
      fixedWorld plainCard apostropheInput (by decide) (by decide) (by decide)).1⟩

/-! ## C22: `shuffle` -/

theorem swapAt_getElem?_ne {α : Type} (l : List α) (i j k : Nat) (hi : k ≠ i) (hj : k ≠ j) :
    (swapAt l i j)[k]? = l[k]? := by
  unfold swapAt
  split
  · rw [List.getElem?_set_ne (fun h => hj h.symm), List.getElem?_set_ne (fun h => hi h.symm)]
  · rfl

theorem swapAt_getElem?_fst {α : Type} (l : List α) (i j : Nat) (hi : i < l.length)
    (hj : j < l.length) : (swapAt l i j)[i]? = l[j]? := by
  unfold swapAt
  rw [List.getElem?_eq_getElem hi, List.getElem?_eq_getElem hj]
  dsimp only
  by_cases h : j = i
  · subst h
    rw [List.getElem?_set_self (by rw [List.length_set]; exact hj)]
  · rw [List.getElem?_set_ne h, List.getElem?_set_self hi]

theorem swapAt_length {α : Type} (l : List α) (i j : Nat) : (swapAt l i j).length = l.length :=
  (swapAt_perm l i j).length_eq

theorem shuffleLoop_eq_shuffleBy {α : Type} :
    ∀ (i : Nat) (array : List α) (w : World),
      (shuffleLoop i array w).1 = shuffleBy i array (drawsOf i w) := by
  intro i
  induction i with
  | zero => intro array w; rfl
  | succ i ih =>
    intro array w
    unfold shuffleLoop drawsOf shuffleBy
    exact ih _ _

theorem validDraws_drawsOf : ∀ (i : Nat) (w : World), validDraws i (drawsOf i w) = true := by
  intro i
  induction i with
  | zero => intro w; rfl
  | succ i ih =>
    intro w
    unfold drawsOf validDraws
    rw [Bool.and_eq_true]
    refine ⟨decide_eq_true ?_, ih _⟩
    have : w.rand w.draws % (i + 2) < i + 2 := Nat.mod_lt _ (by omega)
    show w.rand w.draws % (i + 2) ≤ i + 1
    omega

theorem validDraws_succ (i : Nat) (js : List Nat) (h : validDraws (i + 1) js = true) :
    ∃ (j : Nat) (t : List Nat), js = j :: t ∧ j ≤ i + 1 ∧ validDraws i t = true := by
  cases js with
  | nil => exact absurd h (by simp [validDraws])
  | cons j t =>
    unfold validDraws at h
    rw [Bool.and_eq_true] at h
    exact ⟨j, t, rfl, of_decide_eq_true h.1, h.2⟩

theorem validDraws_zero (js : List Nat) (h : validDraws 0 js = true) : js = [] := by
  cases js with
  | nil => rfl
  | cons j t => exact absurd h (by simp [validDraws])

theorem drawsOf_of_rand :
    ∀ (i : Nat) (js : List Nat) (w : World), validDraws i js = true →
      (∀ k, w.rand (w.draws + k) = js.getD k 0) → drawsOf i w = js := by
  intro i
  induction i with
  | zero =>
    intro js w hv _
    rw [validDraws_zero js hv]
    rfl
  | succ i ih =>
    intro js w hv hr
    obtain ⟨j, t, hjs, hj, ht⟩ := validDraws_succ i js hv
    subst hjs
    unfold drawsOf
    have h0 : w.rand w.draws = j := hr 0
    have h1 : (randomBelow w (i + 2)).1 = j := by
      show w.rand w.draws % (i + 2) = j
      rw [h0]
      exact Nat.mod_eq_of_lt (by omega)
    rw [h1, ih t (randomBelow w (i + 2)).2 ht]
    intro k
    show w.rand (w.draws + 1 + k) = t.getD k 0
    have := hr (k + 1)
    rw [List.getD_cons_succ] at this
    rw [← this]
    congr 1
    omega

theorem drawsOf_worldOf (i : Nat) (js : List Nat) (h : validDraws i js = true) :
    drawsOf i (worldOf js) = js := by
  apply drawsOf_of_rand i js (worldOf js) h
  intro k
  show js.getD (0 + k) 0 = js.getD k 0
  rw [Nat.zero_add]

theorem shuffleBy_perm {α : Type} :
    ∀ (i : Nat) (array : List α) (js : List Nat), (shuffleBy i array js).Perm array := by
  intro i
  induction i with
  | zero => intro array js; unfold shuffleBy; exact List.Perm.refl _
  | succ i ih =>
    intro array js
    cases js with
    | nil => unfold shuffleBy; exact List.Perm.refl _
    | cons j t =>
      unfold shuffleBy
      exact (ih _ _).trans (swapAt_perm _ _ _)

theorem shuffleBy_getElem?_above {α : Type} :
    ∀ (i : Nat) (array : List α) (js : List Nat) (k : Nat), validDraws i js = true → i < k →
      (shuffleBy i array js)[k]? = array[k]? := by
  intro i
  induction i with
  | zero => intro array js k _ _; unfold shuffleBy; rfl
  | succ i ih =>
    intro array js k hv hk
    obtain ⟨j, t, hjs, hj, ht⟩ := validDraws_succ i js hv
    subst hjs
    unfold shuffleBy
    rw [ih _ t k ht (by omega), swapAt_getElem?_ne _ _ _ _ (by omega) (by omega)]

theorem shuffleBy_inj {α : Type} :
    ∀ (i : Nat) (array : List α) (js1 js2 : List Nat), array.Nodup → i ≤ array.length - 1 →
      validDraws i js1 = true → validDraws i js2 = true →
      shuffleBy i array js1 = shuffleBy i array js2 → js1 = js2 := by
  intro i
  induction i with
  | zero =>
    intro array js1 js2 _ _ h1 h2 _
    rw [validDraws_zero js1 h1, validDraws_zero js2 h2]
  | succ i ih =>
    intro array js1 js2 hnd hlen h1 h2 heq
    obtain ⟨j1, t1, hjs1, hj1, ht1⟩ := validDraws_succ i js1 h1
    obtain ⟨j2, t2, hjs2, hj2, ht2⟩ := validDraws_succ i js2 h2
    subst hjs1
    subst hjs2
    have hi : i + 1 < array.length := by omega
    have hpos : ∀ (j : Nat) (t : List Nat), j ≤ i + 1 → validDraws i t = true →
        (shuffleBy (i + 1) array (j :: t))[i + 1]? = array[j]? := by
      intro j t hj ht
      unfold shuffleBy
      rw [shuffleBy_getElem?_above i _ t (i + 1) ht (by omega),
        swapAt_getElem?_fst array (i + 1) j hi (by omega)]
    have hj : array[j1]? = array[j2]? := by
      rw [← hpos j1 t1 hj1 ht1, ← hpos j2 t2 hj2 ht2, heq]
    have hjj : j1 = j2 := List.getElem?_inj (by omega) hnd hj
    subst hjj
    unfold shuffleBy at heq
    have ht : t1 = t2 :=
      ih (swapAt array (i + 1) j1) t1 t2 ((swapAt_perm _ _ _).nodup_iff.mpr hnd)
        (by rw [swapAt_length]; omega) ht1 ht2 heq
    rw [ht]

theorem eq_of_perm_of_tail {α : Type} (target array : List α) (hp : target.Perm array)
    (h : ∀ k, 0 < k → target[k]? = array[k]?) : target = array := by
  cases target with
  | nil => exact (List.nil_perm.mp hp).symm
  | cons t ts =>
    cases array with
    | nil => exact absurd (List.perm_nil.mp hp) (List.cons_ne_nil _ _)
    | cons a as =>
      have hts : ts = as := by
        apply List.ext_getElem?
        intro n
        have := h (n + 1) (Nat.succ_pos n)
        rw [List.getElem?_cons_succ, List.getElem?_cons_succ] at this
        exact this
      subst hts
      have h2 : ([t] ++ ts).Perm ([a] ++ ts) := hp
      rw [List.perm_append_right_iff] at h2
      rw [List.singleton_perm_singleton.mp h2]

theorem shuffleBy_surj {α : Type} :
    ∀ (i : Nat) (array target : List α), array.Nodup → i ≤ array.length - 1 →
      target.Perm array → (∀ k, i < k → target[k]? = array[k]?) →
      ∃ js : List Nat, validDraws i js = true ∧ shuffleBy i array js = target := by
  intro i
  induction i with
  | zero =>
    intro array target _ _ hp h
    exact ⟨[], rfl, (eq_of_perm_of_tail target array hp h).symm⟩
  | succ i ih =>
    intro array target hnd hlen hp h
    have hi : i + 1 < array.length := by omega
    have hit : i + 1 < target.length := by rw [hp.length_eq]; exact hi
    have hndt : target.Nodup := hp.nodup_iff.mpr hnd
    have hx : target[i + 1] ∈ array := hp.subset (List.getElem_mem hit)
    obtain ⟨j, hj⟩ := List.mem_iff_getElem?.mp hx
    have hjlen : j < array.length := (List.getElem?_eq_some.mp hj).1
    have hjle : j ≤ i + 1 := by
      by_contra hgt
      have h1 : target[j]? = some target[i + 1] := by
        rw [h j (by omega)]
        exact hj
      have h2 : target[i + 1]? = target[j]? := by
        rw [h1, List.getElem?_eq_getElem hit]
      have := List.getElem?_inj hit hndt h2
      omega
    have hagree : ∀ k, i < k → target[k]? = (swapAt array (i + 1) j)[k]? := by
      intro k hk
      by_cases hk1 : k = i + 1
      · subst hk1
        rw [swapAt_getElem?_fst array (i + 1) j hi hjlen, hj, List.getElem?_eq_getElem hit]
      · rw [swapAt_getElem?_ne _ _ _ _ hk1 (by omega)]
        exact h k (by omega)
    obtain ⟨js, hv, hs⟩ := ih (swapAt array (i + 1) j) target
      ((swapAt_perm _ _ _).nodup_iff.mpr hnd) (by rw [swapAt_length]; omega)
      (hp.trans (swapAt_perm _ _ _).symm) hagree
    refine ⟨j :: js, ?_, ?_⟩
    · unfold validDraws
      rw [Bool.and_eq_true]
      exact ⟨decide_eq_true hjle, hv⟩
    · unfold shuffleBy
      exact hs

/-- C22: for every list and every world, that is every sequence of random draws, `shuffle`
returns a permutation of its argument, of the same length; the result is a value computed from
a copy, the argument itself is not changed. The result is determined by the reduced draws
`j_i`, one of `0..i` for every index `i` from `n - 1` down to 1. For a list of `n` distinct
items the map from these draw sequences to the results is injective and every order of the
list is the result of one of them, each of which some world produces; the orders are the `n!`
members of `permutations`. -/
theorem shuffle_bijection :
    (∀ (α : Type) (list : List α) (w : World),
      (shuffle list w).1.Perm list ∧ (shuffle list w).1.length = list.length ∧
      (shuffle list w).1 =
        shuffleBy (list.length - 1) list (drawsOf (list.length - 1) w) ∧
      validDraws (list.length - 1) (drawsOf (list.length - 1) w) = true) ∧
    (∀ (α : Type) (list : List α), list.Nodup →
      (∀ js1 js2 : List Nat, validDraws (list.length - 1) js1 = true →
        validDraws (list.length - 1) js2 = true →
        shuffleBy (list.length - 1) list js1 = shuffleBy (list.length - 1) list js2 →
        js1 = js2) ∧
      (∀ js : List Nat, validDraws (list.length - 1) js = true →
        (shuffleBy (list.length - 1) list js).Perm list ∧
        drawsOf (list.length - 1) (worldOf js) = js ∧
        (shuffle list (worldOf js)).1 = shuffleBy (list.length - 1) list js) ∧
      (∀ target : List α, target.Perm list →
        ∃ js : List Nat, validDraws (list.length - 1) js = true ∧
          shuffleBy (list.length - 1) list js = target ∧
          (shuffle list (worldOf js)).1 = target) ∧
      list.permutations.length = list.length.factorial ∧
      list.permutations.Nodup ∧
      (∀ target : List α, target ∈ list.permutations ↔ target.Perm list)) := by
  have hworld : ∀ (α : Type) (list : List α) (js : List Nat),
      validDraws (list.length - 1) js = true →
      (shuffle list (worldOf js)).1 = shuffleBy (list.length - 1) list js := by
    intro α list js hv
    unfold shuffle
    rw [shuffleLoop_eq_shuffleBy, drawsOf_worldOf _ js hv]
  refine ⟨?_, ?_⟩
  · intro α list w
    exact ⟨shuffle_perm list w, (shuffle_perm list w).length_eq,
      shuffleLoop_eq_shuffleBy _ _ _, validDraws_drawsOf _ _⟩
  · intro α list hnd
    refine ⟨?_, ?_, ?_, List.length_permutations list, List.nodup_permutations list hnd,
      fun target => List.mem_permutations⟩
    · intro js1 js2 h1 h2 heq
      exact shuffleBy_inj _ list js1 js2 hnd (Nat.le_refl _) h1 h2 heq
    · intro js hv
      exact ⟨shuffleBy_perm _ _ _, drawsOf_worldOf _ js hv, hworld α list js hv⟩
    · intro target hp
      obtain ⟨js, hv, hs⟩ := shuffleBy_surj (list.length - 1) list target hnd (Nat.le_refl _) hp
        (by
          intro k hk
          have h1 : list.length ≤ k := by omega
          have h2 : target.length ≤ k := by rw [hp.length_eq]; exact h1
          rw [List.getElem?_eq_none h1, List.getElem?_eq_none h2])
      exact ⟨js, hv, hs, by rw [hworld α list js hv, hs]⟩

/-- Witness of C22: the list 1, 2, 3 has distinct items, and the order 3, 1, 2 is the result
of a sequence of draws. -/
theorem shuffle_bijection_witness :
    [1, 2, 3].Nodup ∧ [3, 1, 2].Perm [1, 2, 3] ∧
    (∃ js : List Nat, validDraws 2 js = true ∧ shuffleBy 2 [1, 2, 3] js = [3, 1, 2] ∧
      (shuffle [1, 2, 3] (worldOf js)).1 = [3, 1, 2]) ∧
    (shuffle [1, 2, 3] (worldOf [0, 1])).1 = [3, 2, 1] :=
  ⟨by decide, by decide,
   (shuffle_bijection.2 Nat [1, 2, 3] (by decide)).2.2.1 [3, 1, 2] (by decide),
   by decide⟩

end LosVerbos
